import Mathlib

/-!
# Verification of the `exemplar` and `collections` containers

A shallow embedding of `exemplar::HashMap` (src/ExemplarCollections/HashMap.h), of
`exemplar::Heap`, `exemplar::BinarySearchTree`, `exemplar::ResizingArray`,
`exemplar::Stack` and `exemplar::Queue`, and of `collections::ResizingArray` and
`collections::DoubleLinkedList` (src/Collections), and the proofs of their specification.
The definitions come first, the theorems follow; the hash map opens both parts.

Modelling conventions.

* `std::vector<T>` is a `List T`; `buckets_[i]` is read with `List.getD i []` and
  written with `List.set i`.  Every state reachable from the default-constructed
  map has a positive bucket count (see `WF.count`), so the index
  `hasher_(key) % buckets_.size()` is always in range there.
* `std::size_t` counters are natural numbers.  Each stored entry and each bucket
  occupies at least one byte of a 64-bit address space, so `size_ + 1` and
  `buckets_.size() * 2` are below `2^64` whenever the corresponding allocation
  succeeds; allocation failure is outside the model.
* The hash functor `Hash` is a template parameter whose instance `hasher_` is
  default-constructed; it is a parameter `hasher_ : K → Nat` of every operation.
* `static_cast<double>(a) / static_cast<double>(b) > 0.75` is the exact comparison
  `4 * a > 3 * b`: both conversions are exact below `2^53`, the bucket count is a
  power of two so the quotient is exact, and for `b = 0` the quotient of a positive
  number is `+inf`, which is greater than `0.75` as well.
* `entry.key == key` is equality on `K`, and `hasher_` is a function of the key: equal
  keys have equal hashes, as the `Hash` requirements of the standard library demand.
* A thrown `std::out_of_range` or `std::runtime_error` is an `Except.error`.
* A definition named after a member takes its arguments as the values the call reads.  A
  `const T&` parameter may also refer to an element stored in the container the call is
  applied to, as in `m.insert_or_assign(k, m.at(j))`.  The definitions with the suffix `_ref`
  take such an argument as an `Arg`, an object outside the container or a place in it, and
  yield `none` when the call reads an element after it has destroyed it, which is undefined
  behaviour.  For an object outside the container the two definitions agree
  (`insert_or_assign_ref_object` and its siblings).
* The linked containers keep their nodes on the free store, a list with one slot per
  address.  `new` appends a slot, so its address is unused before; `delete` empties the
  slot and the address is never handed out again; a pointer is `none` (null) or an address.
  A dereference of a null pointer or of an emptied slot ends the call as `undefined`, so a
  theorem that a call returns also says that it dereferences valid pointers only.
-/

namespace exemplar

/-- The private `struct Entry { K key; V value; }`. -/
structure Entry (K : Type) (V : Type) where
  key : K
  value : V
deriving DecidableEq, Repr

/-- The data members `buckets_` and `size_` of `HashMap<K, V, Hash>`. -/
structure HashMap (K : Type) (V : Type) where
  buckets_ : List (List (Entry K V))
  size_ : Nat
deriving DecidableEq, Repr

/-- The exception thrown by `at`. -/
inductive HashMapError where
  | out_of_range
deriving DecidableEq, Repr

namespace HashMap

variable {K V : Type}

/-- The constant `k_default_bucket_count`. -/
def k_default_bucket_count : Nat := 8

/-- The constant `k_max_load_factor`, 0.75. -/
def k_max_load_factor : ℚ := 3 / 4

/-- The constructor `HashMap() : buckets_(k_default_bucket_count) {}` with `size_{0}`. -/
def default_map : HashMap K V :=
  { buckets_ := List.replicate k_default_bucket_count [], size_ := 0 }

/-- The member `empty()`. -/
def empty (m : HashMap K V) : Bool := m.size_ == 0

/-- The member `size()`. -/
def size (m : HashMap K V) : Nat := m.size_

/-- The number of buckets, `buckets_.size()`. -/
def bucket_count (m : HashMap K V) : Nat := m.buckets_.length

/-- The member `bucket_index`: `hasher_(key) % buckets_.size()`. -/
def bucket_index (hasher_ : K → Nat) (m : HashMap K V) (key : K) : Nat :=
  hasher_ key % m.buckets_.length

/-- The loop body of `rehash`: `new_buckets[hasher_(entry.key) % new_bucket_count]
.push_back(std::move(entry))`. -/
def place_entry (hasher_ : K → Nat) (new_bucket_count : Nat)
    (new_buckets : List (List (Entry K V))) (entry : Entry K V) : List (List (Entry K V)) :=
  List.modify (fun b => b ++ [entry]) (hasher_ entry.key % new_bucket_count) new_buckets

/-- The member `rehash`: a table of `new_bucket_count` empty buckets receives every
entry of every old bucket, in order, at the back of bucket
`hasher_(entry.key) % new_bucket_count`; then it replaces `buckets_`. -/
def rehash (hasher_ : K → Nat) (m : HashMap K V) (new_bucket_count : Nat) : HashMap K V :=
  let new_buckets : List (List (Entry K V)) :=
    m.buckets_.foldl
      (fun nb bucket => bucket.foldl (place_entry hasher_ new_bucket_count) nb)
      (List.replicate new_bucket_count [])
  { m with buckets_ := new_buckets }

/-- The member `maybe_rehash_for_insert`: doubles the table when
`(size_ + 1) / buckets_.size() > k_max_load_factor`. -/
def maybe_rehash_for_insert (hasher_ : K → Nat) (m : HashMap K V) : HashMap K V :=
  let next_size := m.size_ + 1
  if 4 * next_size > 3 * m.buckets_.length then
    rehash hasher_ m (m.buckets_.length * 2)
  else m

/-- The scan `for (auto& entry : bucket) if (entry.key == key) { entry.value = value; ... }`
of `insert_or_assign`: the bucket with the first matching entry overwritten, or `none`
when the loop falls through. -/
def assign_existing [DecidableEq K] (key : K) (value : V) :
    List (Entry K V) → Option (List (Entry K V))
  | [] => none
  | entry :: rest =>
    if entry.key = key then some ({ entry with value := value } :: rest)
    else (assign_existing key value rest).map (fun r => entry :: r)

/-- The member `insert_or_assign` (both overloads, which differ only in copying or moving
their arguments) for the key and the value the call reads: the new state and the returned
flag.  The reading of reference arguments is in `insert_or_assign_ref`. -/
def insert_or_assign [DecidableEq K] (hasher_ : K → Nat) (m : HashMap K V) (key : K) (value : V) :
    HashMap K V × Bool :=
  let m1 := maybe_rehash_for_insert hasher_ m
  let i := bucket_index hasher_ m1 key
  let bucket := m1.buckets_.getD i []
  match assign_existing key value bucket with
  | some bucket1 => ({ m1 with buckets_ := m1.buckets_.set i bucket1 }, false)
  | none =>
    ({ buckets_ := m1.buckets_.set i (bucket ++ [{ key := key, value := value }]),
       size_ := m1.size_ + 1 }, true)

/-- The scan shared by `contains`, `get`, `at` and `operator[]`: the first entry of the
bucket whose key equals `key`. -/
def find_entry [DecidableEq K] (key : K) : List (Entry K V) → Option (Entry K V)
  | [] => none
  | entry :: rest => if entry.key = key then some entry else find_entry key rest

/-- The member `contains`. -/
def contains [DecidableEq K] (hasher_ : K → Nat) (m : HashMap K V) (key : K) : Bool :=
  match find_entry key (m.buckets_.getD (bucket_index hasher_ m key) []) with
  | some _ => true
  | none => false

/-- The member `get`: `std::optional<V>`. -/
def get [DecidableEq K] (hasher_ : K → Nat) (m : HashMap K V) (key : K) : Option V :=
  match find_entry key (m.buckets_.getD (bucket_index hasher_ m key) []) with
  | some entry => some entry.value
  | none => none

/-- The member `at` (const and non-const overload): the value referred to, or the thrown
`std::out_of_range`. -/
def at_ [DecidableEq K] (hasher_ : K → Nat) (m : HashMap K V) (key : K) : Except HashMapError V :=
  match find_entry key (m.buckets_.getD (bucket_index hasher_ m key) []) with
  | some entry => Except.ok entry.value
  | none => Except.error HashMapError.out_of_range

/-- The member `operator[]` for the key the call reads: the new state and the value the
returned reference refers to; `V{}` is `default`.  The reading of a reference argument is in
`operator_subscript_ref`. -/
def operator_subscript [DecidableEq K] [Inhabited V] (hasher_ : K → Nat) (m : HashMap K V)
    (key : K) : HashMap K V × V :=
  let m1 := maybe_rehash_for_insert hasher_ m
  let i := bucket_index hasher_ m1 key
  let bucket := m1.buckets_.getD i []
  match find_entry key bucket with
  | some entry => (m1, entry.value)
  | none =>
    ({ buckets_ := m1.buckets_.set i (bucket ++ [{ key := key, value := default }]),
       size_ := m1.size_ + 1 }, default)

/-- The loop `for (i = 0; i < bucket.size(); ++i) if (bucket[i].key == key)` of `erase`:
the first index whose entry has the key. -/
def find_index [DecidableEq K] (key : K) : List (Entry K V) → Option Nat
  | [] => none
  | entry :: rest => if entry.key = key then some 0 else (find_index key rest).map (fun i => i + 1)

/-- The statements `bucket[i] = std::move(bucket.back()); bucket.pop_back();`. -/
def swap_remove (bucket : List (Entry K V)) (i : Nat) : List (Entry K V) :=
  match bucket.getLast? with
  | some last => (bucket.set i last).dropLast
  | none => bucket

/-- The member `erase`: the new state and the returned flag.  `--size_` is written with the
truncated subtraction of `Nat`; it is only executed after an entry was found, when `size_`
is positive in every reachable state (`WF.size_eq`). -/
def erase [DecidableEq K] (hasher_ : K → Nat) (m : HashMap K V) (key : K) : HashMap K V × Bool :=
  let j := bucket_index hasher_ m key
  let bucket := m.buckets_.getD j []
  match find_index key bucket with
  | some i => ({ buckets_ := m.buckets_.set j (swap_remove bucket i), size_ := m.size_ - 1 }, true)
  | none => (m, false)

/-- The member `clear`. -/
def clear (_m : HashMap K V) : HashMap K V :=
  { buckets_ := List.replicate k_default_bucket_count [], size_ := 0 }

/-- The member `load_factor`, as an exact ratio. -/
def load_factor (m : HashMap K V) : ℚ :=
  if m.buckets_.isEmpty then 0 else (m.size_ : ℚ) / (m.buckets_.length : ℚ)

/-- The states reachable from the default-constructed map by calls of
`insert_or_assign`, `operator[]`, `erase` and `clear`. -/
inductive Reachable [DecidableEq K] [Inhabited V] (hasher_ : K → Nat) : HashMap K V → Prop where
  | construct : Reachable hasher_ default_map
  | insert_or_assign (m : HashMap K V) (key : K) (value : V) :
      Reachable hasher_ m → Reachable hasher_ (insert_or_assign hasher_ m key value).1
  | operator_subscript (m : HashMap K V) (key : K) :
      Reachable hasher_ m → Reachable hasher_ (operator_subscript hasher_ m key).1
  | erase (m : HashMap K V) (key : K) :
      Reachable hasher_ m → Reachable hasher_ (erase hasher_ m key).1
  | clear (m : HashMap K V) : Reachable hasher_ m → Reachable hasher_ (clear m)

/-- All entries of the table, bucket after bucket. -/
def entries (m : HashMap K V) : List (Entry K V) := m.buckets_.flatten

/-- All keys of the table, bucket after bucket. -/
def keys (m : HashMap K V) : List K := (entries m).map Entry.key

/-- The representation invariant of the table. -/
structure WF (hasher_ : K → Nat) (m : HashMap K V) : Prop where
  count : ∃ k, m.buckets_.length = 8 * 2 ^ k
  index : ∀ i b, m.buckets_[i]? = some b → ∀ e ∈ b, hasher_ e.key % m.buckets_.length = i
  nodup : (keys m).Nodup
  size_eq : m.size_ = (entries m).length
  load : 4 * m.size_ ≤ 3 * m.buckets_.length

/-- A scripted sequence of `insert_or_assign` calls, the returned flags dropped. -/
def insert_all [DecidableEq K] (hasher_ : K → Nat) (m : HashMap K V) (kvs : List (K × V)) :
    HashMap K V :=
  kvs.foldl (fun acc kv => (insert_or_assign hasher_ acc kv.1 kv.2).1) m

/-- A hash function on numbers used in the examples. -/
def sample_hash : Nat → Nat := fun k => 3 * k

/-- The default map after `insert_or_assign(1, 10)`, `insert_or_assign(9, 90)` and
`insert_or_assign(17, 170)`, under the hash function `id`: all three keys share bucket 1. -/
def sample_map : HashMap Nat Nat :=
  (insert_or_assign id
    (insert_or_assign id (insert_or_assign id default_map 1 10).1 9 90).1 17 170).1

/-- The default map after six inserts under `sample_hash`: size 6 of 8 buckets, so the next
insert doubles the table. -/
def sample_full : HashMap Nat Nat :=
  insert_all sample_hash default_map [(0, 100), (1, 101), (2, 102), (3, 103), (4, 104), (5, 105)]

/-- The keys of the concrete scenario. -/
def key_a : String := "a"

/-- The second key of the concrete scenario. -/
def key_b : String := "b"

/-- The third key of the concrete scenario. -/
def key_c : String := "c"

/-- The concrete scenario: the default map after inserting ("a", 1), ("b", 2), ("c", 3). -/
def scenario_map (hasher_ : String → Nat) : HashMap String Int :=
  (insert_or_assign hasher_
    (insert_or_assign hasher_ (insert_or_assign hasher_ default_map key_a 1).1 key_b 2).1
    key_c 3).1

/-- A `const T&` argument of a call on a map: an object outside the map (a temporary, a
local variable), or the `value` member of the entry at `position` of bucket `bucket` of the
map the call is applied to, which is the object `at` and `operator[]` return a reference to.
Such a reference has the type of the object, so `V` and `T` are the same type then. -/
inductive Arg (V T : Type) where
  | object (x : T)
  | stored (bucket position : Nat) (same : V = T)

/-- The member `at`, non-const overload, as the place of the object the returned reference
refers to: the bucket and the position of the first entry with the key, or the thrown
`std::out_of_range`. -/
def at_ref [DecidableEq K] (hasher_ : K → Nat) (m : HashMap K V) (key : K) :
    Except HashMapError (Nat × Nat) :=
  match find_index key (m.buckets_.getD (bucket_index hasher_ m key) []) with
  | some position => Except.ok (bucket_index hasher_ m key, position)
  | none => Except.error HashMapError.out_of_range

/-- Whether `maybe_rehash_for_insert` calls `rehash`.  `rehash` moves every entry into a new
table and `buckets_ = std::move(new_buckets)` destroys the old table with the entries in it,
so a reference to an entry of the old table dangles from then on. -/
def rehash_runs (m : HashMap K V) : Bool :=
  decide (4 * (m.size_ + 1) > 3 * m.buckets_.length)

/-- Reading a reference argument after `maybe_rehash_for_insert` ran on the map `m`: an
object outside the map is read as it is; an entry of `m` is read where it is if the table
was kept; there is nothing to read, and no defined behaviour, if the table was destroyed or
the place holds no entry. -/
def read_arg {T : Type} (m : HashMap K V) : Arg V T → Option T
  | Arg.object x => some x
  | Arg.stored bucket position same =>
    if rehash_runs m then none
    else ((m.buckets_.getD bucket [])[position]?).map (fun entry => cast same entry.value)

/-- The member `insert_or_assign(const K& key, const V& value)` with its arguments as
references: the new state and the returned flag, or nothing when the call reads a destroyed
object.  `key` and `value` are read for the first time after `maybe_rehash_for_insert`, and
nothing is written between that call and their last use, so each is read once. -/
def insert_or_assign_ref [DecidableEq K] (hasher_ : K → Nat) (m : HashMap K V)
    (key : Arg V K) (value : Arg V V) : Option (HashMap K V × Bool) :=
  let m1 := maybe_rehash_for_insert hasher_ m
  match read_arg m key, read_arg m value with
  | some k, some v =>
    let i := bucket_index hasher_ m1 k
    let bucket := m1.buckets_.getD i []
    match assign_existing k v bucket with
    | some bucket1 => some ({ m1 with buckets_ := m1.buckets_.set i bucket1 }, false)
    | none =>
      some ({ buckets_ := m1.buckets_.set i (bucket ++ [{ key := k, value := v }]),
              size_ := m1.size_ + 1 }, true)
  | _, _ => none

/-- The member `operator[](const K& key)` with its argument as a reference: the new state
and the value the returned reference refers to, or nothing when the call reads a destroyed
object. -/
def operator_subscript_ref [DecidableEq K] [Inhabited V] (hasher_ : K → Nat)
    (m : HashMap K V) (key : Arg V K) : Option (HashMap K V × V) :=
  let m1 := maybe_rehash_for_insert hasher_ m
  match read_arg m key with
  | some k =>
    let i := bucket_index hasher_ m1 k
    let bucket := m1.buckets_.getD i []
    match find_entry k bucket with
    | some entry => some (m1, entry.value)
    | none =>
      some ({ buckets_ := m1.buckets_.set i (bucket ++ [{ key := k, value := default }]),
              size_ := m1.size_ + 1 }, default)
  | none => none

/-- A map of numbers to numbers in which every value is a key of the map: six inserts under
`sample_hash`, so size 6 of 8 buckets and the next insert doubles the table. -/
def sample_cycle : HashMap Nat Nat :=
  insert_all sample_hash default_map [(0, 1), (1, 2), (2, 3), (3, 4), (4, 5), (5, 0)]

end HashMap

end exemplar

/-! ## `exemplar::Heap` (src/ExemplarCollections/Heap.h)

`Compare` is a template parameter whose instance `compare_` is default-constructed; it is a
parameter `compare_ : T → T → Bool` of every operation, and the default `std::less<T>` is
`less` on a linearly ordered type.  The two `while` loops are recursive functions whose
termination is proved, so every call returns. -/

namespace exemplar

/-- The exception `std::runtime_error` thrown by `Heap` and `Stack`. -/
inductive RuntimeError where
  | runtime_error
deriving DecidableEq, Repr

/-- The comparison `std::less<T>` on a linearly ordered type. -/
def less {T : Type} [LinearOrder T] (a b : T) : Bool := decide (a < b)

/-- The data member `data_` of `Heap<T, Compare>`, a `std::vector<T>`. -/
structure Heap (T : Type) where
  data_ : List T
deriving DecidableEq, Repr

namespace Heap

variable {T : Type}

/-- The call `compare_(data_[i], data_[j])`; both indices are in range wherever the code
evaluates it. -/
def compare_at (compare_ : T → T → Bool) (data : List T) (i j : Nat) : Bool :=
  match data[i]?, data[j]? with
  | some a, some b => compare_ a b
  | _, _ => false

/-- The call `std::swap(data_[i], data_[j])`; both indices are in range wherever the code
evaluates it. -/
def swap_at (data : List T) (i j : Nat) : List T :=
  match data[i]?, data[j]? with
  | some a, some b => (data.set i b).set j a
  | _, _ => data

theorem heap_length_swap_at (data : List T) (i j : Nat) :
    (swap_at data i j).length = data.length := by
  unfold swap_at
  split <;> simp

/-- The member `sift_up`. -/
def sift_up (compare_ : T → T → Bool) (data : List T) (child_index : Nat) : List T :=
  if child_index > 0 then
    let parent_index := (child_index - 1) / 2
    if !compare_at compare_ data child_index parent_index then data
    else sift_up compare_ (swap_at data child_index parent_index) parent_index
  else data
termination_by child_index
decreasing_by omega

/-- The selection of `best` in the loop body of `sift_down`: the parent, or the left or
right child when it is in range and compares before the current best. -/
def best_index (compare_ : T → T → Bool) (data : List T) (parent_index : Nat) : Nat :=
  let n := data.length
  let left := 2 * parent_index + 1
  let right := 2 * parent_index + 2
  let best := parent_index
  let best := if left < n && compare_at compare_ data left best then left else best
  let best := if right < n && compare_at compare_ data right best then right else best
  best

theorem heap_best_index_bounds (compare_ : T → T → Bool) (data : List T) (parent_index : Nat)
    (h : best_index compare_ data parent_index ≠ parent_index) :
    parent_index < best_index compare_ data parent_index ∧
    best_index compare_ data parent_index < data.length := by
  unfold best_index at h ⊢
  simp only [Bool.and_eq_true, decide_eq_true_eq] at h ⊢
  split_ifs at h ⊢ with h1 h2 h2
  · exact ⟨by omega, h2.1⟩
  · exact ⟨by omega, h1.1⟩
  · exact ⟨by omega, h2.1⟩
  · exact absurd rfl h

/-- The member `sift_down`. -/
def sift_down (compare_ : T → T → Bool) (data : List T) (parent_index : Nat) : List T :=
  let best := best_index compare_ data parent_index
  if best = parent_index then data
  else sift_down compare_ (swap_at data parent_index best) best
termination_by data.length - parent_index
decreasing_by
  rename_i hne
  have := heap_best_index_bounds compare_ data parent_index hne
  simp only [heap_length_swap_at]
  omega

/-- The member `push`. -/
def push (compare_ : T → T → Bool) (h : Heap T) (value : T) : Heap T :=
  let data := h.data_ ++ [value]
  { data_ := sift_up compare_ data (data.length - 1) }

/-- The member `pop`. -/
def pop (compare_ : T → T → Bool) (h : Heap T) : Except RuntimeError (Heap T) :=
  if h.data_.isEmpty then Except.error RuntimeError.runtime_error
  else
    let data := (swap_at h.data_ 0 (h.data_.length - 1)).dropLast
    if !data.isEmpty then Except.ok { data_ := sift_down compare_ data 0 }
    else Except.ok { data_ := data }

/-- The member `top`. -/
def top (h : Heap T) : Except RuntimeError T :=
  match h.data_ with
  | [] => Except.error RuntimeError.runtime_error
  | x :: _ => Except.ok x

/-- The heap order on the array: no element compares before its parent. -/
def HeapOrdered [LinearOrder T] (data : List T) : Prop :=
  ∀ i a b, 0 < i → data[i]? = some a → data[(i - 1) / 2]? = some b → b ≤ a

/-- The loop invariant of `sift_up`: the heap order holds everywhere except between
`child_index` and its parent, and the children of `child_index` respect its parent. -/
def UpInv [LinearOrder T] (data : List T) (child_index : Nat) : Prop :=
  (∀ i a b, 0 < i → i ≠ child_index →
    data[i]? = some a → data[(i - 1) / 2]? = some b → b ≤ a) ∧
  (∀ i a b, 0 < child_index → 0 < i → (i - 1) / 2 = child_index →
    data[i]? = some a → data[(child_index - 1) / 2]? = some b → b ≤ a)

/-- The loop invariant of `sift_down`: the heap order holds everywhere except between
`parent_index` and its children, and these children respect the parent of `parent_index`. -/
def DownInv [LinearOrder T] (data : List T) (parent_index : Nat) : Prop :=
  (∀ i a b, 0 < i → (i - 1) / 2 ≠ parent_index →
    data[i]? = some a → data[(i - 1) / 2]? = some b → b ≤ a) ∧
  (∀ i a b, 0 < parent_index → 0 < i → (i - 1) / 2 = parent_index →
    data[i]? = some a → data[(parent_index - 1) / 2]? = some b → b ≤ a)

/-- The member `emplace`, the value constructed from the arguments given: the new state and
the element `data_.back()` that the returned reference refers to. -/
def emplace (compare_ : T → T → Bool) (h : Heap T) (value : T) : Heap T × Option T :=
  let data := h.data_ ++ [value]
  let data := sift_up compare_ data (data.length - 1)
  ({ data_ := data }, data.getLast?)

/-- The member `empty`. -/
def empty (h : Heap T) : Bool := h.data_.isEmpty

/-- The member `size`. -/
def size (h : Heap T) : Nat := h.data_.length

/-- The member `clear`. -/
def clear (_h : Heap T) : Heap T := { data_ := [] }

/-- The default-constructed heap. -/
def default_heap : Heap T := { data_ := [] }

/-- The states reachable from the empty heap by calls of `push`, `emplace`, `pop` and
`clear`. -/
inductive Reachable (compare_ : T → T → Bool) : Heap T → Prop where
  | construct : Reachable compare_ default_heap
  | push (h : Heap T) (value : T) :
      Reachable compare_ h → Reachable compare_ (push compare_ h value)
  | emplace (h : Heap T) (value : T) :
      Reachable compare_ h → Reachable compare_ (emplace compare_ h value).1
  | pop (h h1 : Heap T) :
      Reachable compare_ h → pop compare_ h = Except.ok h1 → Reachable compare_ h1
  | clear (h : Heap T) : Reachable compare_ h → Reachable compare_ (clear h)

/-- The heap after pushing 5, 3, 8 and 1 onto the empty heap. -/
def sample_heap : Heap Nat :=
  push less (push less (push less (push less default_heap 5) 3) 8) 1

end Heap

end exemplar

/-! ## `exemplar::BinarySearchTree` (src/ExemplarCollections/BinarySearchTree.h)

The tree of `std::unique_ptr<Node>` is an inductive type; `insert_impl` and `erase_impl`,
which take the owning pointer by reference and update `size_`, return the new subtree, the
new `size_` and their result. -/

namespace exemplar

namespace BinarySearchTree

/-- The owning pointer `std::unique_ptr<Node>`: null, or a node with its value and its two
subtrees. -/
inductive Node (T : Type) where
  | null : Node T
  | node (value : T) (left : Node T) (right : Node T) : Node T
deriving DecidableEq, Repr

end BinarySearchTree

/-- The data members `root_` and `size_` of `BinarySearchTree<T, Compare>`. -/
structure BinarySearchTree (T : Type) where
  root_ : BinarySearchTree.Node T
  size_ : Nat
deriving DecidableEq, Repr

namespace BinarySearchTree

variable {T : Type}

/-- The member `insert_impl`: the new subtree, the new `size_` and the returned flag. -/
def insert_impl (compare_ : T → T → Bool) : Node T → Nat → T → Node T × Nat × Bool
  | Node.null, size_, value => (Node.node value Node.null Node.null, size_ + 1, true)
  | Node.node v left right, size_, value =>
    if compare_ value v then
      let r := insert_impl compare_ left size_ value
      (Node.node v r.1 right, r.2.1, r.2.2)
    else if compare_ v value then
      let r := insert_impl compare_ right size_ value
      (Node.node v left r.1, r.2.1, r.2.2)
    else (Node.node v left right, size_, false)

/-- The loop `while (successor->left) successor = successor->left.get();` followed by
`successor->value`, started at a node with the given value and left subtree. -/
def successor_value (value : T) : Node T → T
  | Node.null => value
  | Node.node v left _ => successor_value v left

/-- The member `erase_impl`: the new subtree, the new `size_` and the returned flag.
`--size_` is written with the truncated subtraction of `Nat`; it is only executed when a
node was found, and then `size_` is positive in every reachable state (`WF.size_eq`). -/
def erase_impl (compare_ : T → T → Bool) : Node T → Nat → T → Node T × Nat × Bool
  | Node.null, size_, _ => (Node.null, size_, false)
  | Node.node v left right, size_, value =>
    if compare_ value v then
      let r := erase_impl compare_ left size_ value
      (Node.node v r.1 right, r.2.1, r.2.2)
    else if compare_ v value then
      let r := erase_impl compare_ right size_ value
      (Node.node v left r.1, r.2.1, r.2.2)
    else
      match left, right with
      | Node.null, _ => (right, size_ - 1, true)
      | _, Node.null => (left, size_ - 1, true)
      | _, Node.node rv rl _ =>
        let successor := successor_value rv rl
        let r := erase_impl compare_ right size_ successor
        (Node.node successor left r.1, r.2.1, r.2.2)

/-- The member `insert`. -/
def insert (compare_ : T → T → Bool) (t : BinarySearchTree T) (value : T) :
    BinarySearchTree T × Bool :=
  let r := insert_impl compare_ t.root_ t.size_ value
  ({ root_ := r.1, size_ := r.2.1 }, r.2.2)

/-- The member `erase`. -/
def erase (compare_ : T → T → Bool) (t : BinarySearchTree T) (value : T) :
    BinarySearchTree T × Bool :=
  let r := erase_impl compare_ t.root_ t.size_ value
  ({ root_ := r.1, size_ := r.2.1 }, r.2.2)

/-- The loop of `contains`, started with the cursor at the given node. -/
def contains_loop (compare_ : T → T → Bool) : Node T → T → Bool
  | Node.null, _ => false
  | Node.node v left right, value =>
    if compare_ value v then contains_loop compare_ left value
    else if compare_ v value then contains_loop compare_ right value
    else true

/-- The member `contains`. -/
def contains (compare_ : T → T → Bool) (t : BinarySearchTree T) (value : T) : Bool :=
  contains_loop compare_ t.root_ value

/-- The member `in_order_impl`: the vector `out` after the call. -/
def in_order_impl : Node T → List T → List T
  | Node.null, out => out
  | Node.node v left right, out => in_order_impl right (in_order_impl left out ++ [v])

/-- The member `in_order`. -/
def in_order (t : BinarySearchTree T) : List T := in_order_impl t.root_ []

/-- The member `clear`. -/
def clear (_t : BinarySearchTree T) : BinarySearchTree T := { root_ := Node.null, size_ := 0 }

/-- The default-constructed tree. -/
def empty_tree : BinarySearchTree T := { root_ := Node.null, size_ := 0 }

/-- The states reachable from the empty tree by calls of `insert`, `erase` and `clear`. -/
inductive Reachable (compare_ : T → T → Bool) : BinarySearchTree T → Prop where
  | construct : Reachable compare_ empty_tree
  | insert (t : BinarySearchTree T) (value : T) :
      Reachable compare_ t → Reachable compare_ (insert compare_ t value).1
  | erase (t : BinarySearchTree T) (value : T) :
      Reachable compare_ t → Reachable compare_ (erase compare_ t value).1
  | clear (t : BinarySearchTree T) : Reachable compare_ t → Reachable compare_ (clear t)

/-- The tree after inserting 5, 3, 8, 1, 4, 7, 9 into the empty tree. -/
def sample_tree : BinarySearchTree Nat :=
  [5, 3, 8, 1, 4, 7, 9].foldl (fun t v => (insert less t v).1) empty_tree

/-- The values of a subtree in in-order. -/
def flat : Node T → List T
  | Node.null => []
  | Node.node v left right => flat left ++ v :: flat right

/-- The representation invariant of the tree: the in-order values increase strictly, and
`size_` counts them. -/
structure WF [LinearOrder T] (t : BinarySearchTree T) : Prop where
  sorted : (flat t.root_).Pairwise (fun a b => a < b)
  size_eq : t.size_ = (flat t.root_).length

end BinarySearchTree

end exemplar

/-! ## `exemplar::ResizingArray` and `exemplar::Stack`
(src/ExemplarCollections/ResizingArray.h, src/ExemplarCollections/Stack.h)

The storage `std::unique_ptr<T[]>` of `capacity_` elements is a list; `std::make_unique<T[]>`
value-initialises its elements, which is `default`.  `capacity_ * 2` is a natural number, as
the counters of the hash map are. -/

namespace exemplar

/-- The data members of `exemplar::ResizingArray<T>`: the storage `data_` of `capacity_`
elements, and `size_`. -/
structure ResizingArray (T : Type) where
  data_ : List T
  size_ : Nat
  capacity_ : Nat
deriving DecidableEq, Repr

namespace ResizingArray

variable {T : Type}

/-- The default-constructed array: no storage, size and capacity 0. -/
def default_array : ResizingArray T := { data_ := [], size_ := 0, capacity_ := 0 }

/-- The member `size`. -/
def size (a : ResizingArray T) : Nat := a.size_

/-- The member `empty`. -/
def empty (a : ResizingArray T) : Bool := a.size_ == 0

/-- The member `reserve`: `std::make_unique<T[]>(new_capacity)` value-initialises the new
storage, then the loop moves the first `size_` elements over. -/
def reserve [Inhabited T] (a : ResizingArray T) (new_capacity : Nat) : ResizingArray T :=
  if new_capacity ≤ a.capacity_ then a
  else
    let new_data : List T := List.replicate new_capacity default
    let new_data := (List.range a.size_).foldl
      (fun nd i => nd.set i (a.data_.getD i default)) new_data
    { data_ := new_data, size_ := a.size_, capacity_ := new_capacity }

/-- The member `ensure_capacity_for_one_more`. -/
def ensure_capacity_for_one_more [Inhabited T] (a : ResizingArray T) : ResizingArray T :=
  if a.size_ < a.capacity_ then a
  else
    let new_capacity := if a.capacity_ = 0 then 4 else a.capacity_ * 2
    reserve a new_capacity

/-- The member `push_back` (both overloads) for the value the call reads:
`data_[size_++] = value`.  The reading of a reference argument is in `push_back_ref`. -/
def push_back [Inhabited T] (a : ResizingArray T) (value : T) : ResizingArray T :=
  let a1 := ensure_capacity_for_one_more a
  { a1 with data_ := a1.data_.set a1.size_ value, size_ := a1.size_ + 1 }

/-- The member `emplace_back` for the object `T(args...)` the call constructs: the new state
and the element the returned reference refers to, `data_[size_]` read before the
increment. -/
def emplace_back [Inhabited T] (a : ResizingArray T) (value : T) : ResizingArray T × T :=
  let a1 := ensure_capacity_for_one_more a
  let data := a1.data_.set a1.size_ value
  ({ a1 with data_ := data, size_ := a1.size_ + 1 }, data.getD a1.size_ default)

/-- The member `pop_back`. -/
def pop_back (a : ResizingArray T) : Except RuntimeError (ResizingArray T) :=
  if empty a then Except.error RuntimeError.runtime_error
  else Except.ok { a with size_ := a.size_ - 1 }

/-- The member `back`. -/
def back [Inhabited T] (a : ResizingArray T) : Except RuntimeError T :=
  if empty a then Except.error RuntimeError.runtime_error
  else Except.ok (a.data_.getD (a.size_ - 1) default)

/-- The member `clear`. -/
def clear (a : ResizingArray T) : ResizingArray T := { a with size_ := 0 }

/-- The elements held by the array: the first `size_` slots of the storage. -/
def elements (a : ResizingArray T) : List T := a.data_.take a.size_

/-- The representation invariant: the storage has `capacity_` slots and `size_` of them are
in use. -/
structure WF (a : ResizingArray T) : Prop where
  size_le : a.size_ ≤ a.capacity_
  length_eq : a.data_.length = a.capacity_

end ResizingArray

/-- The data member `items_` of `Stack<T>`. -/
structure Stack (T : Type) where
  items_ : ResizingArray T
deriving DecidableEq, Repr

namespace Stack

variable {T : Type}

/-- The default-constructed stack. -/
def default_stack : Stack T := { items_ := ResizingArray.default_array }

/-- The member `empty`. -/
def empty (s : Stack T) : Bool := ResizingArray.empty s.items_

/-- The member `size`. -/
def size (s : Stack T) : Nat := ResizingArray.size s.items_

/-- The member `push` (both overloads) for the value the call reads.  The reading of a
reference argument is in `push_ref`. -/
def push [Inhabited T] (s : Stack T) (value : T) : Stack T :=
  { items_ := ResizingArray.push_back s.items_ value }

/-- The member `emplace`: the new state and the element referred to by the result. -/
def emplace [Inhabited T] (s : Stack T) (value : T) : Stack T × T :=
  ({ items_ := (ResizingArray.emplace_back s.items_ value).1 },
    (ResizingArray.emplace_back s.items_ value).2)

/-- The member `pop`. -/
def pop (s : Stack T) : Except RuntimeError (Stack T) :=
  if ResizingArray.empty s.items_ then Except.error RuntimeError.runtime_error
  else
    match ResizingArray.pop_back s.items_ with
    | Except.ok items => Except.ok { items_ := items }
    | Except.error e => Except.error e

/-- The member `top` (const and non-const overload). -/
def top [Inhabited T] (s : Stack T) : Except RuntimeError T :=
  if ResizingArray.empty s.items_ then Except.error RuntimeError.runtime_error
  else ResizingArray.back s.items_

/-- The member `clear`. -/
def clear (s : Stack T) : Stack T := { items_ := ResizingArray.clear s.items_ }

/-- The elements of the stack, bottom first. -/
def elements (s : Stack T) : List T := ResizingArray.elements s.items_

/-- The states reachable from the empty stack by calls of `push`, `emplace`, `pop` and
`clear`. -/
inductive Reachable [Inhabited T] : Stack T → Prop where
  | construct : Reachable default_stack
  | push (s : Stack T) (value : T) : Reachable s → Reachable (push s value)
  | emplace (s : Stack T) (value : T) : Reachable s → Reachable (emplace s value).1
  | pop (s s1 : Stack T) : Reachable s → pop s = Except.ok s1 → Reachable s1
  | clear (s : Stack T) : Reachable s → Reachable (clear s)

/-- The stack after pushing 1, 2, 3 and 4 onto the empty stack: size 4 in a storage of
capacity 4, so the next push makes the storage grow. -/
def sample_stack : Stack Nat := push (push (push (push default_stack 1) 2) 3) 4

end Stack

namespace ResizingArray

variable {T : Type}

/-- A `const T&` argument of a call on an array: an object outside the array (a temporary,
a local variable), or the element `data_[index]` of the array the call is applied to, which
is the object `at`, `front`, `back` and `operator[]` return a reference to. -/
inductive Arg (T : Type) where
  | object (x : T)
  | element (index : Nat)
deriving DecidableEq, Repr

/-- The member `back`, non-const overload, as the index of the element the returned
reference refers to, `size_ - 1`, or the thrown `std::runtime_error`. -/
def back_ref (a : ResizingArray T) : Except RuntimeError Nat :=
  if empty a then Except.error RuntimeError.runtime_error
  else Except.ok (a.size_ - 1)

/-- Whether `ensure_capacity_for_one_more` replaces the storage: it returns early when
`size_ < capacity_`, and so does `reserve` when `new_capacity <= capacity_`; otherwise
`data_ = std::move(new_data)` deletes the old array, and a reference to one of its elements
dangles from then on. -/
def storage_replaced (a : ResizingArray T) : Bool :=
  if a.size_ < a.capacity_ then false
  else
    let new_capacity := if a.capacity_ = 0 then 4 else a.capacity_ * 2
    !decide (new_capacity ≤ a.capacity_)

/-- Reading a reference argument after `ensure_capacity_for_one_more` ran on the array `a`:
an object outside the array is read as it is; an element of `a` is read where it is if the
storage was kept; there is nothing to read, and no defined behaviour, if the storage was
deleted or has no such element. -/
def read_arg (a : ResizingArray T) : Arg T → Option T
  | Arg.object x => some x
  | Arg.element index => if storage_replaced a then none else a.data_[index]?

/-- The member `push_back(const T& value)` with its argument as a reference: the new
state, or nothing when `data_[size_++] = value` reads a deleted object. -/
def push_back_ref [Inhabited T] (a : ResizingArray T) (value : Arg T) :
    Option (ResizingArray T) :=
  let a1 := ensure_capacity_for_one_more a
  match read_arg a value with
  | some x => some { a1 with data_ := a1.data_.set a1.size_ x, size_ := a1.size_ + 1 }
  | none => none

end ResizingArray

namespace Stack

variable {T : Type}

/-- The member `top`, non-const overload, as the index in `items_` of the element the
returned reference refers to, or the thrown `std::runtime_error`. -/
def top_ref (s : Stack T) : Except RuntimeError Nat :=
  if ResizingArray.empty s.items_ then Except.error RuntimeError.runtime_error
  else ResizingArray.back_ref s.items_

/-- The member `push(const T& value)` with its argument as a reference, which it hands on
to `items_.push_back`: the new state, or nothing when the call reads a deleted object. -/
def push_ref [Inhabited T] (s : Stack T) (value : ResizingArray.Arg T) : Option (Stack T) :=
  match ResizingArray.push_back_ref s.items_ value with
  | some items => some { items_ := items }
  | none => none

end Stack

end exemplar

/-! ## The reference map and the build order of `exemplar::HashMap`

The finite map the hash map is compared with, the calls of a run, and the layout of a
table whose buckets keep the order of first insertion.
-/

namespace exemplar

namespace HashMap

variable {K V : Type}

/-- The reference key-to-value map of the refinement: an association list that holds each key
at most once. -/
abbrev RefMap (K V : Type) := List (K × V)

/-- Lookup in the reference map. -/
def ref_get [DecidableEq K] : RefMap K V → K → Option V
  | [], _ => none
  | (k, v) :: rest, key => if k = key then some v else ref_get rest key

/-- Membership of a key in the reference map. -/
def ref_contains [DecidableEq K] (r : RefMap K V) (key : K) : Bool := (ref_get r key).isSome

/-- The number of keys of the reference map. -/
def ref_size (r : RefMap K V) : Nat := r.length

/-- The reference map without the key. -/
def ref_remove [DecidableEq K] (r : RefMap K V) (key : K) : RefMap K V :=
  r.filter (fun p => decide (p.1 ≠ key))

/-- Insert or assign on the reference map: the key is bound to the value; the result tells
whether the key is new. -/
def ref_insert_or_assign [DecidableEq K] (r : RefMap K V) (key : K) (value : V) :
    RefMap K V × Bool :=
  ((key, value) :: ref_remove r key, !ref_contains r key)

/-- The accessor on the reference map: the value of the key, bound to the default value
first when the key is absent. -/
def ref_subscript [DecidableEq K] [Inhabited V] (r : RefMap K V) (key : K) : RefMap K V × V :=
  match ref_get r key with
  | some value => (r, value)
  | none => ((key, default) :: r, default)

/-- Erase on the reference map: the key is unbound; the result tells whether it was bound. -/
def ref_erase [DecidableEq K] (r : RefMap K V) (key : K) : RefMap K V × Bool :=
  (ref_remove r key, ref_contains r key)

/-- A call of the map interface. -/
inductive MapOp (K V : Type) where
  | insert_or_assign (key : K) (value : V)
  | subscript (key : K)
  | erase (key : K)
  | clear
deriving DecidableEq, Repr

/-- The value returned by a call: a flag, the value referred to, or nothing. -/
inductive MapResult (V : Type) where
  | flag (b : Bool)
  | reference (value : V)
  | nothing
deriving DecidableEq, Repr

/-- One call on the hash map: the new state and the returned value. -/
def step [DecidableEq K] [Inhabited V] (hasher_ : K → Nat) (m : HashMap K V) :
    MapOp K V → HashMap K V × MapResult V
  | MapOp.insert_or_assign key value =>
    ((insert_or_assign hasher_ m key value).1,
      MapResult.flag (insert_or_assign hasher_ m key value).2)
  | MapOp.subscript key =>
    ((operator_subscript hasher_ m key).1,
      MapResult.reference (operator_subscript hasher_ m key).2)
  | MapOp.erase key => ((erase hasher_ m key).1, MapResult.flag (erase hasher_ m key).2)
  | MapOp.clear => (clear m, MapResult.nothing)

/-- One call on the reference map: the new state and the returned value. -/
def ref_step [DecidableEq K] [Inhabited V] (r : RefMap K V) :
    MapOp K V → RefMap K V × MapResult V
  | MapOp.insert_or_assign key value =>
    ((ref_insert_or_assign r key value).1, MapResult.flag (ref_insert_or_assign r key value).2)
  | MapOp.subscript key => ((ref_subscript r key).1, MapResult.reference (ref_subscript r key).2)
  | MapOp.erase key => ((ref_erase r key).1, MapResult.flag (ref_erase r key).2)
  | MapOp.clear => ([], MapResult.nothing)

/-- A sequence of calls on the hash map, started in the given state: the final state and the
returned values in order. -/
def run_from [DecidableEq K] [Inhabited V] (hasher_ : K → Nat) (m : HashMap K V) :
    List (MapOp K V) → HashMap K V × List (MapResult V)
  | [] => (m, [])
  | op :: ops =>
    ((run_from hasher_ (step hasher_ m op).1 ops).1,
      (step hasher_ m op).2 :: (run_from hasher_ (step hasher_ m op).1 ops).2)

/-- A sequence of calls on the reference map, started in the given state. -/
def ref_run_from [DecidableEq K] [Inhabited V] (r : RefMap K V) :
    List (MapOp K V) → RefMap K V × List (MapResult V)
  | [] => (r, [])
  | op :: ops =>
    ((ref_run_from (ref_step r op).1 ops).1,
      (ref_step r op).2 :: (ref_run_from (ref_step r op).1 ops).2)

/-- The simulation relation of the refinement. -/
structure Refines [DecidableEq K] (hasher_ : K → Nat) (m : HashMap K V) (r : RefMap K V) :
    Prop where
  wf : WF hasher_ m
  nodup : (r.map Prod.fst).Nodup
  get_eq : ∀ key, get hasher_ m key = ref_get r key
  size_eq : m.size_ = r.length

/-- A call that builds the map without erasing: `insert_or_assign` or `operator[]`. -/
inductive BuildOp (K V : Type) where
  | insert_or_assign (key : K) (value : V)
  | subscript (key : K)
deriving DecidableEq, Repr

/-- The key a building call is applied to. -/
def BuildOp.key : BuildOp K V → K
  | BuildOp.insert_or_assign key _ => key
  | BuildOp.subscript key => key

/-- One building call on the hash map. -/
def build_step [DecidableEq K] [Inhabited V] (hasher_ : K → Nat) (m : HashMap K V) :
    BuildOp K V → HashMap K V
  | BuildOp.insert_or_assign key value => (insert_or_assign hasher_ m key value).1
  | BuildOp.subscript key => (operator_subscript hasher_ m key).1

/-- The map built from the default-constructed map by a sequence of building calls. -/
def build [DecidableEq K] [Inhabited V] (hasher_ : K → Nat) (ops : List (BuildOp K V)) :
    HashMap K V :=
  ops.foldl (build_step hasher_) default_map

/-- The keys of a sequence of calls in the order of their first insertion: every key once, at
the place of its first occurrence. -/
def first_inserted [DecidableEq K] (keys : List K) : List K :=
  keys.foldl (fun order key => if key ∈ order then order else order ++ [key]) []

/-- The table of `n` buckets that holds the entries of `entries_in_order`, each bucket in the
order of that list. -/
def layout (hasher_ : K → Nat) (n : Nat) (entries_in_order : List (Entry K V)) :
    List (List (Entry K V)) :=
  (List.range n).map
    (fun j => entries_in_order.filter (fun e => decide (hasher_ e.key % n = j)))

/-- The table holds the entries of `entries_in_order`, with distinct keys, each bucket in the
order of that list. -/
structure Ordered (hasher_ : K → Nat) (m : HashMap K V) (entries_in_order : List (Entry K V)) :
    Prop where
  pos : 0 < m.buckets_.length
  nodup : (entries_in_order.map Entry.key).Nodup
  layout_eq : m.buckets_ = layout hasher_ m.buckets_.length entries_in_order

/-- The overwrite of `insert_or_assign`, applied to one entry. -/
def assign_entry [DecidableEq K] (key : K) (value : V) (e : Entry K V) : Entry K V :=
  if e.key = key then { key := key, value := value } else e

/-- The call `rehash(buckets_.size() * 2)` of `maybe_rehash_for_insert`: one doubling of the
bucket count. -/
def doubled (hasher_ : K → Nat) (m : HashMap K V) : HashMap K V :=
  rehash hasher_ m (m.buckets_.length * 2)

end HashMap

end exemplar

/-! ## `exemplar::Queue` (src/ExemplarCollections/Queue.h)

The queue is a singly linked chain of nodes on the free store.  The store is a list with one
slot per address: `new` takes the next unused address, `delete` empties the slot, a pointer
is an address or null.
-/

namespace exemplar

namespace Queue

/-- The private `struct Node`: the value and the `next` pointer, an address of the free store
or null. -/
structure Node (T : Type) where
  value : T
  next : Option Nat
deriving DecidableEq, Repr

end Queue

/-- The data members `head_`, `tail_` and `size_` of `exemplar::Queue<T>` together with the
free store the two pointers refer into: one slot per address handed out by `new`, emptied by
`delete`. -/
structure Queue (T : Type) where
  store : List (Option (Queue.Node T))
  head_ : Option Nat
  tail_ : Option Nat
  size_ : Nat
deriving DecidableEq, Repr

namespace Queue

variable {T : Type}

/-- How a call ends: it returns, it throws, or it dereferences a null or deleted pointer,
for which the language defines no behaviour. -/
inductive Outcome (α : Type) where
  | returned (result : α)
  | thrown (error : RuntimeError)
  | undefined
deriving DecidableEq, Repr

/-- The default-constructed queue, with nothing allocated yet. -/
def default_queue : Queue T := { store := [], head_ := none, tail_ := none, size_ := 0 }

/-- The member `empty`. -/
def empty (q : Queue T) : Bool := q.size_ == 0

/-- The member `size`. -/
def size (q : Queue T) : Nat := q.size_

/-- The node a pointer refers to; nothing for a null pointer and for a pointer to a deleted
or never allocated node. -/
def node_at (store : List (Option (Node T))) (pointer : Option Nat) : Option (Node T) :=
  match pointer with
  | none => none
  | some address => store.getD address none

/-- The private member `link_back`, called with the address of a node. -/
def link_back (q : Queue T) (node : Nat) : Outcome (Queue T) :=
  match q.tail_ with
  | none => Outcome.returned { q with head_ := some node, tail_ := some node,
                                      size_ := q.size_ + 1 }
  | some tail =>
    match node_at q.store (some tail) with
    | none => Outcome.undefined
    | some tail_node =>
      Outcome.returned { store := q.store.set tail (some { tail_node with next := some node }),
                         head_ := q.head_, tail_ := some node, size_ := q.size_ + 1 }

/-- The member `enqueue`: `new Node(value)` takes the next unused address, then `link_back`. -/
def enqueue (q : Queue T) (value : T) : Outcome (Queue T) :=
  link_back { q with store := q.store ++ [some { value := value, next := none }] }
    q.store.length

/-- The member `dequeue`. -/
def dequeue (q : Queue T) : Outcome (Queue T) :=
  if empty q then Outcome.thrown RuntimeError.runtime_error
  else
    match q.head_ with
    | none => Outcome.undefined
    | some old_head =>
      match node_at q.store (some old_head) with
      | none => Outcome.undefined
      | some head_node =>
        Outcome.returned { store := q.store.set old_head none, head_ := head_node.next,
                           tail_ := if q.size_ - 1 = 0 then none else q.tail_,
                           size_ := q.size_ - 1 }

/-- The member `front`. -/
def front (q : Queue T) : Outcome T :=
  if empty q then Outcome.thrown RuntimeError.runtime_error
  else
    match node_at q.store q.head_ with
    | none => Outcome.undefined
    | some head_node => Outcome.returned head_node.value

/-- The member `back`. -/
def back (q : Queue T) : Outcome T :=
  if empty q then Outcome.thrown RuntimeError.runtime_error
  else
    match node_at q.store q.tail_ with
    | none => Outcome.undefined
    | some tail_node => Outcome.returned tail_node.value

/-- A call of one of the two mutating members. -/
inductive QueueOp (T : Type) where
  | enqueue (value : T)
  | dequeue
deriving DecidableEq, Repr

/-- One call on the queue. -/
def step (q : Queue T) : QueueOp T → Outcome (Queue T)
  | QueueOp.enqueue value => enqueue q value
  | QueueOp.dequeue => dequeue q

/-- A sequence of calls, with how each of them ended: a call that throws leaves the queue as
it was (the test for emptiness comes first) and the caller goes on; nothing is known after
undefined behaviour, so the run stops there. -/
def run_from (q : Queue T) : List (QueueOp T) → Queue T × List (Outcome Unit)
  | [] => (q, [])
  | op :: ops =>
    match step q op with
    | Outcome.returned q1 => ((run_from q1 ops).1, Outcome.returned () :: (run_from q1 ops).2)
    | Outcome.thrown error => ((run_from q ops).1, Outcome.thrown error :: (run_from q ops).2)
    | Outcome.undefined => (q, [Outcome.undefined])

/-- The reference list after `enqueue`: the value is appended at the end. -/
def fifo_enqueue (l : List T) (value : T) : List T := l ++ [value]

/-- The reference list after `dequeue`: the first element is removed; the call throws on
the empty list. -/
def fifo_dequeue : List T → Outcome (List T)
  | [] => Outcome.thrown RuntimeError.runtime_error
  | _ :: rest => Outcome.returned rest

/-- The oldest element of the reference list; the call throws on the empty list. -/
def fifo_front : List T → Outcome T
  | [] => Outcome.thrown RuntimeError.runtime_error
  | value :: _ => Outcome.returned value

/-- The most recently appended element of the reference list; the call throws on the
empty list. -/
def fifo_back (l : List T) : Outcome T :=
  match l.getLast? with
  | none => Outcome.thrown RuntimeError.runtime_error
  | some value => Outcome.returned value

/-- One call on the reference list. -/
def fifo_step (l : List T) : QueueOp T → Outcome (List T)
  | QueueOp.enqueue value => Outcome.returned (fifo_enqueue l value)
  | QueueOp.dequeue => fifo_dequeue l

/-- A sequence of calls on the reference list, with how each of them ended. -/
def fifo_run_from (l : List T) : List (QueueOp T) → List T × List (Outcome Unit)
  | [] => (l, [])
  | op :: ops =>
    match fifo_step l op with
    | Outcome.returned l1 =>
      ((fifo_run_from l1 ops).1, Outcome.returned () :: (fifo_run_from l1 ops).2)
    | Outcome.thrown error =>
      ((fifo_run_from l ops).1, Outcome.thrown error :: (fifo_run_from l ops).2)
    | Outcome.undefined => (l, [Outcome.undefined])

/-- The representation invariant: the nodes of the queue, from the head on, are the cells
`(address, value)` of `cells`; each is allocated, holds its value and points to the next one,
the last one to null; no address occurs twice; `head_` and `tail_` are the first and the last
address and `size_` is the number of cells. -/
structure Rep (q : Queue T) (cells : List (Nat × T)) : Prop where
  nodup : (cells.map Prod.fst).Nodup
  nodes : ∀ (i : Nat) (c : Nat × T), cells[i]? = some c →
    q.store[c.1]? = some (some { value := c.2, next := (cells[i + 1]?).map Prod.fst })
  head_eq : q.head_ = (cells[0]?).map Prod.fst
  tail_eq : q.tail_ = (cells[cells.length - 1]?).map Prod.fst
  size_eq : q.size_ = cells.length

/-- A sample queue: 1, 2 and 3 enqueued, one dequeued. -/
def sample_queue : Queue Nat :=
  (run_from default_queue
    [QueueOp.enqueue 1, QueueOp.enqueue 2, QueueOp.enqueue 3, QueueOp.dequeue]).1

end Queue

end exemplar

/-! ## `collections::ResizingArray` and `collections::DoubleLinkedList`

The containers of src/Collections (ResizingArray.cpp, DoubleLinkedList.cpp).  The doubly
linked list lives on the free store as the queue does; the printing of `resize` and `print`
is left out.
-/

namespace collections

/-- The exception `std::out_of_range` thrown by the containers of `collections`. -/
inductive Exception where
  | out_of_range
deriving DecidableEq, Repr

/-- The data members `m_data`, `m_size` and `m_capacity` of `collections::ResizingArray<T>`;
the storage `std::unique_ptr<T[]>` of `m_capacity` elements is a list. -/
structure ResizingArray (T : Type) where
  m_data : List T
  m_size : Nat
  m_capacity : Nat
deriving DecidableEq, Repr

namespace ResizingArray

variable {T : Type}

/-- The constructor `ResizingArray(size_t initial_capacity)`; `std::make_unique<T[]>`
value-initialises the elements. -/
def with_capacity [Inhabited T] (initial_capacity : Nat) : ResizingArray T :=
  { m_data := List.replicate initial_capacity default, m_size := 0,
    m_capacity := initial_capacity }

/-- The default constructor, which delegates to `ResizingArray(1)`. -/
def default_array [Inhabited T] : ResizingArray T := with_capacity 1

/-- The member `size`. -/
def size (a : ResizingArray T) : Nat := a.m_size

/-- The member `empty`. -/
def empty (a : ResizingArray T) : Bool := a.m_size == 0

/-- The member `resize`: a new storage of `capacity` value-initialised elements receives the
first `size()` elements; the printing is left out. -/
def resize [Inhabited T] (a : ResizingArray T) (capacity : Nat) : ResizingArray T :=
  let temp : List T := List.replicate capacity default
  let temp := (List.range (size a)).foldl (fun t i => t.set i (a.m_data.getD i default)) temp
  { m_data := temp, m_size := a.m_size, m_capacity := capacity }

/-- The member `push_back` for the value the call reads.  The reading of a reference
argument is in `push_back_ref`. -/
def push_back [Inhabited T] (a : ResizingArray T) (value : T) : ResizingArray T :=
  let a1 := if a.m_size = a.m_capacity then resize a (a.m_capacity * 2) else a
  { a1 with m_data := a1.m_data.set a1.m_size value, m_size := a1.m_size + 1 }

/-- The member `operator[]` (const and non-const overload): the element referred to, or the
thrown `std::out_of_range`. -/
def operator_subscript [Inhabited T] (a : ResizingArray T) (index : Nat) : Except Exception T :=
  if index ≥ size a then Except.error Exception.out_of_range
  else Except.ok (a.m_data.getD index default)

/-- The array after a sequence of `push_back` calls on a default-constructed array. -/
def pushed [Inhabited T] (values : List T) : ResizingArray T :=
  values.foldl push_back default_array

/-- The representation invariant: the storage has `m_capacity` slots, at least one, and
`m_size` of them are in use. -/
structure WF (a : ResizingArray T) : Prop where
  capacity_pos : 0 < a.m_capacity
  size_le : a.m_size ≤ a.m_capacity
  length_eq : a.m_data.length = a.m_capacity

/-- A `const T&` argument of a call on an array: an object outside the array (a temporary,
a local variable), or the element `m_data[index]` of the array the call is applied to,
which is the object `operator[]` returns a reference to. -/
inductive Arg (T : Type) where
  | object (x : T)
  | element (index : Nat)
deriving DecidableEq, Repr

/-- The member `operator[]`, non-const overload, as the index of the element the returned
reference refers to, or the thrown `std::out_of_range`. -/
def operator_subscript_ref (a : ResizingArray T) (index : Nat) : Except Exception Nat :=
  if index ≥ size a then Except.error Exception.out_of_range
  else Except.ok index

/-- Reading a reference argument after the test `m_size == m_capacity` of `push_back` ran
on the array `a`: an object outside the array is read as it is; an element of `a` is read
where it is if `resize` was not called; there is nothing to read, and no defined behaviour,
if `resize` was called, whose `m_data = std::move(temp)` deletes the old array, or if the
storage has no such element. -/
def read_arg (a : ResizingArray T) : Arg T → Option T
  | Arg.object x => some x
  | Arg.element index => if a.m_size = a.m_capacity then none else a.m_data[index]?

/-- The member `push_back(const T& value)` with its argument as a reference: the new
state, or nothing when `m_data[m_size++] = value` reads a deleted object. -/
def push_back_ref [Inhabited T] (a : ResizingArray T) (value : Arg T) :
    Option (ResizingArray T) :=
  let a1 := if a.m_size = a.m_capacity then resize a (a.m_capacity * 2) else a
  match read_arg a value with
  | some x => some { a1 with m_data := a1.m_data.set a1.m_size x, m_size := a1.m_size + 1 }
  | none => none

end ResizingArray

namespace DoubleLinkedList

/-- The private `struct Node`: the value and the pointers `prev` and `next`, addresses of
the free store or null. -/
structure Node (T : Type) where
  value : T
  prev : Option Nat
  next : Option Nat
deriving DecidableEq, Repr

end DoubleLinkedList

/-- The data members `m_head`, `m_tail` and `m_size` of `collections::DoubleLinkedList<T>`
together with the free store the pointers refer into: one slot per address handed out by
`new`, emptied by `delete`. -/
structure DoubleLinkedList (T : Type) where
  store : List (Option (DoubleLinkedList.Node T))
  m_head : Option Nat
  m_tail : Option Nat
  m_size : Nat
deriving DecidableEq, Repr

namespace DoubleLinkedList

variable {T : Type}

/-- How a call ends: it returns, it throws, or it dereferences a null or deleted pointer,
for which the language defines no behaviour. -/
inductive Outcome (α : Type) where
  | returned (result : α)
  | thrown (error : Exception)
  | undefined
deriving DecidableEq, Repr

/-- The default-constructed list, with nothing allocated yet. -/
def default_list : DoubleLinkedList T :=
  { store := [], m_head := none, m_tail := none, m_size := 0 }

/-- The member `size`. -/
def size (l : DoubleLinkedList T) : Nat := l.m_size

/-- The member `empty`. -/
def empty (l : DoubleLinkedList T) : Bool := size l == 0

/-- The node a pointer refers to; nothing for a null pointer and for a pointer to a deleted
or never allocated node. -/
def node_at (store : List (Option (Node T))) (pointer : Option Nat) : Option (Node T) :=
  match pointer with
  | none => none
  | some address => store.getD address none

/-- The assignment `pointer->prev = prev`; nothing when `pointer` cannot be dereferenced. -/
def set_prev (store : List (Option (Node T))) (pointer : Option Nat) (prev : Option Nat) :
    Option (List (Option (Node T))) :=
  match pointer with
  | none => none
  | some address =>
    match store.getD address none with
    | none => none
    | some node => some (store.set address (some { node with prev := prev }))

/-- The assignment `pointer->next = next`; nothing when `pointer` cannot be dereferenced. -/
def set_next (store : List (Option (Node T))) (pointer : Option Nat) (next : Option Nat) :
    Option (List (Option (Node T))) :=
  match pointer with
  | none => none
  | some address =>
    match store.getD address none with
    | none => none
    | some node => some (store.set address (some { node with next := next }))

/-- The statement `delete pointer` for a pointer that is not null; nothing when the node is
not allocated. -/
def delete_node (store : List (Option (Node T))) (address : Nat) :
    Option (List (Option (Node T))) :=
  match store.getD address none with
  | none => none
  | some _ => some (store.set address none)

/-- The member `push_front`: `new Node(value)` takes the next unused address. -/
def push_front (l : DoubleLinkedList T) (value : T) : Outcome (DoubleLinkedList T) :=
  let new_node := l.store.length
  let store0 := l.store ++ [some { value := value, prev := none, next := none }]
  let linked := do
    let store1 ← set_next store0 (some new_node) l.m_head
    let store2 ← set_prev store1 (some new_node) none
    if !empty l then set_prev store2 l.m_head (some new_node) else some store2
  match linked with
  | none => Outcome.undefined
  | some store3 =>
    Outcome.returned
      { store := store3, m_head := some new_node,
        m_tail := if l.m_size + 1 = 1 then some new_node else l.m_tail,
        m_size := l.m_size + 1 }

/-- The member `push_back`. -/
def push_back (l : DoubleLinkedList T) (value : T) : Outcome (DoubleLinkedList T) :=
  if empty l then push_front l value
  else
    let new_node := l.store.length
    let store0 := l.store ++ [some { value := value, prev := none, next := none }]
    let linked := do
      let store1 ← set_prev store0 (some new_node) l.m_tail
      let store2 ← set_next store1 (some new_node) none
      set_next store2 l.m_tail (some new_node)
    match linked with
    | none => Outcome.undefined
    | some store3 =>
      Outcome.returned
        { store := store3, m_head := l.m_head, m_tail := some new_node,
          m_size := l.m_size + 1 }

/-- The member `front`. -/
def front (l : DoubleLinkedList T) : Outcome T :=
  if empty l then Outcome.thrown Exception.out_of_range
  else
    match node_at l.store l.m_head with
    | none => Outcome.undefined
    | some node => Outcome.returned node.value

/-- The member `back`. -/
def back (l : DoubleLinkedList T) : Outcome T :=
  if empty l then Outcome.thrown Exception.out_of_range
  else
    match node_at l.store l.m_tail with
    | none => Outcome.undefined
    | some node => Outcome.returned node.value

/-- The member `pop_front`. -/
def pop_front (l : DoubleLinkedList T) : Outcome (DoubleLinkedList T) :=
  if empty l then Outcome.returned l
  else
    match l.m_head, node_at l.store l.m_head with
    | some temp, some head_node =>
      let m_head := head_node.next
      let unlinked := do
        let store1 ← if m_head.isSome then set_prev l.store m_head none else some l.store
        delete_node store1 temp
      match unlinked with
      | none => Outcome.undefined
      | some store2 =>
        let m_size := l.m_size - 1
        let m_tail := if m_size = 1 then m_head else l.m_tail
        let m_tail := if m_size = 0 then none else m_tail
        Outcome.returned
          { store := store2, m_head := m_head, m_tail := m_tail, m_size := m_size }
    | _, _ => Outcome.undefined

/-- The member `pop_back`. -/
def pop_back (l : DoubleLinkedList T) : Outcome (DoubleLinkedList T) :=
  if empty l then Outcome.returned l
  else
    match l.m_tail, node_at l.store l.m_tail with
    | some temp, some tail_node =>
      let m_tail := tail_node.prev
      let unlinked := do
        let store1 ← if m_tail.isSome then set_next l.store m_tail none else some l.store
        delete_node store1 temp
      match unlinked with
      | none => Outcome.undefined
      | some store2 =>
        let m_size := l.m_size - 1
        let m_head := if m_size = 1 then m_tail else l.m_head
        let m_head := if m_size = 0 then none else m_head
        Outcome.returned
          { store := store2, m_head := m_head, m_tail := m_tail, m_size := m_size }
    | _, _ => Outcome.undefined

/-- A call of one of the four mutating members. -/
inductive ListOp (T : Type) where
  | push_front (value : T)
  | push_back (value : T)
  | pop_front
  | pop_back
deriving DecidableEq, Repr

/-- One call on the list. -/
def step (l : DoubleLinkedList T) : ListOp T → Outcome (DoubleLinkedList T)
  | ListOp.push_front value => push_front l value
  | ListOp.push_back value => push_back l value
  | ListOp.pop_front => pop_front l
  | ListOp.pop_back => pop_back l

/-- A sequence of calls, with how each of them ended; nothing is known after undefined
behaviour, so the run stops there. None of the four members throws. -/
def run_from (l : DoubleLinkedList T) :
    List (ListOp T) → DoubleLinkedList T × List (Outcome Unit)
  | [] => (l, [])
  | op :: ops =>
    match step l op with
    | Outcome.returned l1 => ((run_from l1 ops).1, Outcome.returned () :: (run_from l1 ops).2)
    | Outcome.thrown error => ((run_from l ops).1, Outcome.thrown error :: (run_from l ops).2)
    | Outcome.undefined => (l, [Outcome.undefined])

/-- The modelled sequence after one call: the two pushes add at the front and at the end,
the two pops remove the first and the last element and leave the empty sequence empty. -/
def deque_step (s : List T) : ListOp T → List T
  | ListOp.push_front value => value :: s
  | ListOp.push_back value => s ++ [value]
  | ListOp.pop_front => s.tail
  | ListOp.pop_back => s.dropLast

/-- The modelled sequence after a sequence of calls. -/
def deque_run_from (s : List T) (ops : List (ListOp T)) : List T := ops.foldl deque_step s

/-- The first element of the modelled sequence; the call throws on the empty sequence. -/
def deque_front : List T → Outcome T
  | [] => Outcome.thrown Exception.out_of_range
  | value :: _ => Outcome.returned value

/-- The last element of the modelled sequence; the call throws on the empty sequence. -/
def deque_back (s : List T) : Outcome T :=
  match s.getLast? with
  | none => Outcome.thrown Exception.out_of_range
  | some value => Outcome.returned value

/-- The list of the illustration program: `push_back` of cat, is, very and cute, then
`push_front` of My. -/
def illustration_list : DoubleLinkedList String :=
  (run_from default_list
    [ListOp.push_back "cat", ListOp.push_back "is", ListOp.push_back "very",
     ListOp.push_back "cute", ListOp.push_front "My"]).1

/-- The representation invariant: the nodes of the list, from the head on, are the cells
`(address, value)` of `cells`; each is allocated, holds its value and points back to the cell
before it and on to the cell after it, the first and the last one to null; no address occurs
twice; `m_head` and `m_tail` are the first and the last address and `m_size` is the number of
cells. -/
structure Rep (l : DoubleLinkedList T) (cells : List (Nat × T)) : Prop where
  nodup : (cells.map Prod.fst).Nodup
  nodes : ∀ (i : Nat) (c : Nat × T), cells[i]? = some c →
    l.store[c.1]? = some (some
      { value := c.2, prev := if i = 0 then none else (cells[i - 1]?).map Prod.fst,
        next := (cells[i + 1]?).map Prod.fst })
  head_eq : l.m_head = (cells[0]?).map Prod.fst
  tail_eq : l.m_tail = (cells[cells.length - 1]?).map Prod.fst
  size_eq : l.m_size = cells.length

end DoubleLinkedList

end collections

/-! ## Lists of buckets -/

namespace exemplar

namespace HashMap

variable {K V : Type}

theorem flatten_perm_getD {α : Type} (bs : List (List α)) (i : Nat) :
    bs.flatten.Perm (bs.getD i [] ++ (bs.eraseIdx i).flatten) := by
  induction bs generalizing i with
  | nil => simp
  | cons x xs ih =>
    cases i with
    | zero => simp
    | succ j =>
      have h := ih j
      simp only [List.flatten_cons, List.getD_cons_succ, List.eraseIdx_cons_succ]
      calc x ++ xs.flatten
          _ |>.Perm (x ++ (xs.getD j [] ++ (xs.eraseIdx j).flatten)) := h.append_left x
          _ |>.Perm (xs.getD j [] ++ (x ++ (xs.eraseIdx j).flatten)) := by
            rw [← List.append_assoc, ← List.append_assoc]
            exact List.Perm.append_right _ List.perm_append_comm

theorem flatten_set_perm {α : Type} (bs : List (List α)) (i : Nat) (b : List α)
    (hi : i < bs.length) :
    (bs.set i b).flatten.Perm (b ++ (bs.eraseIdx i).flatten) := by
  induction bs generalizing i with
  | nil => simp at hi
  | cons x xs ih =>
    cases i with
    | zero => simp
    | succ j =>
      have h := ih j (by simpa using hi)
      simp only [List.set_cons_succ, List.flatten_cons, List.eraseIdx_cons_succ]
      calc x ++ (xs.set j b).flatten
          _ |>.Perm (x ++ (b ++ (xs.eraseIdx j).flatten)) := h.append_left x
          _ |>.Perm (b ++ (x ++ (xs.eraseIdx j).flatten)) := by
            rw [← List.append_assoc, ← List.append_assoc]
            exact List.Perm.append_right _ List.perm_append_comm

theorem flatten_modify_push_perm {α : Type} (bs : List (List α)) (i : Nat) (a : α)
    (hi : i < bs.length) :
    (List.modify (fun b => b ++ [a]) i bs).flatten.Perm (bs.flatten ++ [a]) := by
  induction bs generalizing i with
  | nil => simp at hi
  | cons x xs ih =>
    cases i with
    | zero =>
      simpa [List.modify] using (List.perm_append_singleton a xs.flatten).symm.append_left x
    | succ j =>
      have h := ih j (by simpa using hi)
      simpa [List.modify] using h.append_left x

/-- The invariant `WF.index`, for a bare list of buckets. -/
def IndexInv (hasher_ : K → Nat) (bs : List (List (Entry K V))) : Prop :=
  ∀ i b, bs[i]? = some b → ∀ e ∈ b, hasher_ e.key % bs.length = i

theorem length_place_entry (hasher_ : K → Nat) (n : Nat) (nb : List (List (Entry K V)))
    (e : Entry K V) : (place_entry hasher_ n nb e).length = nb.length := by
  simp [place_entry]

theorem indexInv_place_entry (hasher_ : K → Nat) (nb : List (List (Entry K V)))
    (e : Entry K V) (h : IndexInv hasher_ nb) :
    IndexInv hasher_ (place_entry hasher_ nb.length nb e) := by
  intro i b hb x hx
  rw [length_place_entry]
  simp only [place_entry, List.getElem?_modify] at hb
  cases hq : nb[i]? with
  | none => simp [hq] at hb
  | some b0 =>
    simp only [hq, Option.map_eq_map, Option.map_some', Option.some.injEq] at hb
    by_cases hi : hasher_ e.key % nb.length = i
    · simp only [hi, if_true] at hb
      subst hb
      rcases List.mem_append.1 hx with hx | hx
      · exact h i b0 hq x hx
      · simp only [List.mem_singleton] at hx
        subst hx
        exact hi
    · simp only [hi, if_false] at hb
      subst hb
      exact h i b0 hq x hx

theorem rehash_loop (hasher_ : K → Nat) (l : List (Entry K V)) (nb : List (List (Entry K V)))
    (hpos : 0 < nb.length) (h : IndexInv hasher_ nb) :
    (l.foldl (place_entry hasher_ nb.length) nb).length = nb.length ∧
    IndexInv hasher_ (l.foldl (place_entry hasher_ nb.length) nb) ∧
    (l.foldl (place_entry hasher_ nb.length) nb).flatten.Perm (nb.flatten ++ l) := by
  induction l generalizing nb with
  | nil => simp [h]
  | cons e es ih =>
    have hlen := length_place_entry hasher_ nb.length nb e
    have hpos1 : 0 < (place_entry hasher_ nb.length nb e).length := by omega
    have h1 := ih (place_entry hasher_ nb.length nb e) hpos1 (indexInv_place_entry hasher_ nb e h)
    rw [hlen] at h1
    refine ⟨h1.1, h1.2.1, ?_⟩
    simp only [List.foldl_cons]
    refine h1.2.2.trans ?_
    have hp : (place_entry hasher_ nb.length nb e).flatten.Perm (nb.flatten ++ [e]) :=
      flatten_modify_push_perm nb _ e (Nat.mod_lt _ hpos)
    simpa using hp.append_right es

theorem rehash_buckets (hasher_ : K → Nat) (m : HashMap K V) (n : Nat) :
    (rehash hasher_ m n).buckets_ =
      (entries m).foldl (place_entry hasher_ n) (List.replicate n []) := by
  simp [rehash, entries, List.foldl_flatten]

theorem rehash_spec (hasher_ : K → Nat) (m : HashMap K V) (n : Nat) (hn : 0 < n) :
    (rehash hasher_ m n).buckets_.length = n ∧
    IndexInv hasher_ (rehash hasher_ m n).buckets_ ∧
    (entries (rehash hasher_ m n)).Perm (entries m) ∧
    (rehash hasher_ m n).size_ = m.size_ := by
  have hinv : IndexInv hasher_ (List.replicate n ([] : List (Entry K V))) := by
    intro i b hb e he
    have : b = [] := by
      rw [List.getElem?_replicate] at hb
      split at hb
      · exact (Option.some.inj hb).symm
      · cases hb
    simp [this] at he
  have h := rehash_loop hasher_ (entries m) (List.replicate n []) (by simpa using hn) hinv
  simp only [List.length_replicate] at h
  rw [← rehash_buckets] at h
  refine ⟨h.1, h.2.1, ?_, rfl⟩
  have := h.2.2
  simpa [entries] using this

/-! ## The scans of one bucket -/

theorem find_entry_some [DecidableEq K] {key : K} {b : List (Entry K V)} {e : Entry K V}
    (h : find_entry key b = some e) : e ∈ b ∧ e.key = key := by
  induction b with
  | nil => simp [find_entry] at h
  | cons x xs ih =>
    simp only [find_entry] at h
    split at h
    · cases h
      exact ⟨List.mem_cons_self _ _, by assumption⟩
    · exact ⟨List.mem_cons_of_mem _ (ih h).1, (ih h).2⟩

theorem find_entry_none [DecidableEq K] {key : K} {b : List (Entry K V)} :
    find_entry key b = none ↔ ∀ e ∈ b, e.key ≠ key := by
  induction b with
  | nil => simp [find_entry]
  | cons x xs ih =>
    simp only [find_entry]
    split
    · rename_i hx
      simp [hx]
    · rename_i hx
      simp [ih, hx]

theorem eq_of_key_eq {l : List (Entry K V)} (hnd : (l.map Entry.key).Nodup)
    {e1 e2 : Entry K V} (h1 : e1 ∈ l) (h2 : e2 ∈ l) (hk : e1.key = e2.key) : e1 = e2 :=
  List.inj_on_of_nodup_map hnd h1 h2 hk

theorem find_entry_of_mem [DecidableEq K] {b : List (Entry K V)} (hnd : (b.map Entry.key).Nodup)
    {e : Entry K V} (he : e ∈ b) : find_entry e.key b = some e := by
  cases hf : find_entry e.key b with
  | none => exact absurd rfl (find_entry_none.1 hf e he)
  | some x =>
    have hx := find_entry_some hf
    rw [eq_of_key_eq hnd hx.1 he hx.2]

theorem assign_existing_none [DecidableEq K] {key : K} {value : V} {b : List (Entry K V)} :
    assign_existing key value b = none ↔ ∀ e ∈ b, e.key ≠ key := by
  induction b with
  | nil => simp [assign_existing]
  | cons x xs ih =>
    simp only [assign_existing]
    split
    · rename_i hx
      simp [hx]
    · rename_i hx
      simp [ih, hx]

theorem assign_existing_keys [DecidableEq K] {key : K} {value : V} {b b1 : List (Entry K V)}
    (h : assign_existing key value b = some b1) : b1.map Entry.key = b.map Entry.key := by
  induction b generalizing b1 with
  | nil => simp [assign_existing] at h
  | cons x xs ih =>
    simp only [assign_existing] at h
    split at h
    · cases h
      simp
    · cases hr : assign_existing key value xs with
      | none => simp [hr] at h
      | some r =>
        simp only [hr, Option.map_some', Option.some.injEq] at h
        subst h
        simp [ih hr]

theorem assign_existing_mem [DecidableEq K] {key : K} {value : V} {b b1 : List (Entry K V)}
    (h : assign_existing key value b = some b1) (hnd : (b.map Entry.key).Nodup) (e : Entry K V) :
    e ∈ b1 ↔ (e ∈ b ∧ e.key ≠ key) ∨ e = { key := key, value := value } := by
  induction b generalizing b1 with
  | nil => simp [assign_existing] at h
  | cons x xs ih =>
    simp only [assign_existing] at h
    simp only [List.map_cons, List.nodup_cons, List.mem_map, not_exists, not_and] at hnd
    split at h
    · rename_i hx
      cases h
      simp only [List.mem_cons]
      constructor
      · rintro (rfl | he)
        · exact Or.inr (by simp [hx])
        · exact Or.inl ⟨Or.inr he, fun hk => hnd.1 e he (by rw [hk, hx])⟩
      · rintro (⟨rfl | he, hk⟩ | rfl)
        · exact absurd hx hk
        · exact Or.inr he
        · exact Or.inl (by simp [hx])
    · rename_i hx
      cases hr : assign_existing key value xs with
      | none => simp [hr] at h
      | some r =>
        simp only [hr, Option.map_some', Option.some.injEq] at h
        subst h
        have := ih hr hnd.2
        simp only [List.mem_cons, this]
        constructor
        · rintro (rfl | ⟨he, hk⟩ | rfl)
          · exact Or.inl ⟨Or.inl rfl, hx⟩
          · exact Or.inl ⟨Or.inr he, hk⟩
          · exact Or.inr rfl
        · rintro (⟨rfl | he, hk⟩ | rfl)
          · exact Or.inl rfl
          · exact Or.inr (Or.inl ⟨he, hk⟩)
          · exact Or.inr (Or.inr rfl)

theorem find_index_none [DecidableEq K] {key : K} {b : List (Entry K V)} :
    find_index key b = none ↔ ∀ e ∈ b, e.key ≠ key := by
  induction b with
  | nil => simp [find_index]
  | cons x xs ih =>
    simp only [find_index]
    split
    · rename_i hx
      simp [hx]
    · rename_i hx
      simp [ih, hx]

theorem find_index_some [DecidableEq K] {key : K} {b : List (Entry K V)} {i : Nat}
    (h : find_index key b = some i) : ∃ e, b[i]? = some e ∧ e.key = key := by
  induction b generalizing i with
  | nil => simp [find_index] at h
  | cons x xs ih =>
    simp only [find_index] at h
    split at h
    · cases h
      exact ⟨x, by simp, by assumption⟩
    · cases hr : find_index key xs with
      | none => simp [hr] at h
      | some j =>
        simp only [hr, Option.map_some', Option.some.injEq] at h
        subst h
        simpa using ih hr

theorem set_perm_swap {α : Type} (l : List α) (i : Nat) (x y : α) (h : l[i]? = some y) :
    (x :: l).Perm (y :: l.set i x) := by
  induction l generalizing i with
  | nil => simp at h
  | cons z zs ih =>
    cases i with
    | zero =>
      simp only [List.getElem?_cons_zero, Option.some.injEq] at h
      subst h
      exact List.Perm.swap _ _ _
    | succ j =>
      simp only [List.getElem?_cons_succ] at h
      simp only [List.set_cons_succ]
      exact (List.Perm.swap z x zs).trans (((ih j h).cons z).trans (List.Perm.swap y z _))

theorem swap_remove_perm (b : List (Entry K V)) (i : Nat) (e : Entry K V) (h : b[i]? = some e) :
    b.Perm (e :: swap_remove b i) := by
  rcases List.eq_nil_or_concat b with rfl | ⟨l, last, rfl⟩
  · simp at h
  · simp only [List.concat_eq_append] at h ⊢
    have hlast : (l ++ [last]).getLast? = some last := by simp
    simp only [swap_remove, hlast, List.set_append]
    by_cases hi : i < l.length
    · simp only [hi, if_true, List.dropLast_concat]
      rw [List.getElem?_append_left hi] at h
      exact (List.perm_append_singleton last l).trans (set_perm_swap l i last e h)
    · have hlen : i < (l ++ [last]).length := (List.getElem?_eq_some_iff.1 h).1
      simp only [List.length_append, List.length_singleton] at hlen
      have hil : i = l.length := by omega
      subst hil
      simp only [lt_irrefl, if_false, Nat.sub_self, List.set_cons_zero, List.dropLast_concat]
      simp only [List.getElem?_concat_length, Option.some.injEq] at h
      subst h
      exact List.perm_append_singleton _ _

theorem assign_existing_split [DecidableEq K] {key : K} {value : V} {b b1 : List (Entry K V)}
    (h : assign_existing key value b = some b1) :
    ∃ l1 e0 l2, b = l1 ++ e0 :: l2 ∧ b1 = l1 ++ { key := key, value := value } :: l2 ∧
      e0.key = key ∧ ∀ e ∈ l1, e.key ≠ key := by
  induction b generalizing b1 with
  | nil => simp [assign_existing] at h
  | cons x xs ih =>
    simp only [assign_existing] at h
    split at h
    · rename_i hx
      cases h
      exact ⟨[], x, xs, rfl, by simp [hx], hx, by simp⟩
    · rename_i hx
      cases hr : assign_existing key value xs with
      | none => simp [hr] at h
      | some r =>
        simp only [hr, Option.map_some', Option.some.injEq] at h
        subst h
        obtain ⟨l1, e0, l2, h1, h2, h3, h4⟩ := ih hr
        refine ⟨x :: l1, e0, l2, by simp [h1], by simp [h2], h3, ?_⟩
        intro e he
        rcases List.mem_cons.1 he with rfl | he
        · exact hx
        · exact h4 e he

/-! ## The table -/

theorem mem_flatten_iff_mem_bucket (hasher_ : K → Nat) (bs : List (List (Entry K V)))
    (h : IndexInv hasher_ bs) (e : Entry K V) :
    e ∈ bs.flatten ↔ e ∈ bs.getD (hasher_ e.key % bs.length) [] := by
  constructor
  · intro he
    obtain ⟨b, hb, heb⟩ := List.mem_flatten.1 he
    obtain ⟨i, hi, hib⟩ := List.mem_iff_getElem.1 hb
    have hq : bs[i]? = some b := by rw [List.getElem?_eq_getElem hi, hib]
    have := h i b hq e heb
    rw [this, List.getD_eq_getElem?_getD, hq]
    exact heb
  · intro he
    rw [List.getD_eq_getElem?_getD] at he
    cases hq : bs[hasher_ e.key % bs.length]? with
    | none => simp [hq] at he
    | some b =>
      simp only [hq, Option.getD_some] at he
      exact List.mem_flatten.2 ⟨b, List.getElem?_mem hq, he⟩

theorem getD_sublist_flatten {α : Type} (bs : List (List α)) (i : Nat) :
    (bs.getD i []).Sublist bs.flatten := by
  rw [List.getD_eq_getElem?_getD]
  cases hq : bs[i]? with
  | none => simp
  | some b => simpa using List.sublist_flatten_of_mem (List.getElem?_mem hq)

theorem bucket_keys_nodup (bs : List (List (Entry K V)))
    (h : (bs.flatten.map Entry.key).Nodup) (i : Nat) :
    ((bs.getD i []).map Entry.key).Nodup :=
  List.Nodup.sublist ((getD_sublist_flatten bs i).map Entry.key) h

theorem find_entry_bucket [DecidableEq K] {hasher_ : K → Nat} {m : HashMap K V}
    (h : WF hasher_ m) (key : K) (e : Entry K V) :
    find_entry key (m.buckets_.getD (bucket_index hasher_ m key) []) = some e ↔
      e ∈ entries m ∧ e.key = key := by
  constructor
  · intro hf
    have := find_entry_some hf
    refine ⟨?_, this.2⟩
    rw [entries, mem_flatten_iff_mem_bucket hasher_ m.buckets_ h.index, this.2]
    exact this.1
  · rintro ⟨he, rfl⟩
    rw [entries, mem_flatten_iff_mem_bucket hasher_ m.buckets_ h.index] at he
    exact find_entry_of_mem (bucket_keys_nodup m.buckets_ h.nodup _) he

theorem find_entry_bucket_none [DecidableEq K] {hasher_ : K → Nat} {m : HashMap K V}
    (h : WF hasher_ m) (key : K) :
    find_entry key (m.buckets_.getD (bucket_index hasher_ m key) []) = none ↔ key ∉ keys m := by
  constructor
  · intro hf hk
    obtain ⟨e, he, rfl⟩ := List.mem_map.1 hk
    have := (find_entry_bucket h e.key e).2 ⟨he, rfl⟩
    rw [hf] at this
    cases this
  · intro hk
    cases hf : find_entry key (m.buckets_.getD (bucket_index hasher_ m key) []) with
    | none => rfl
    | some e =>
      have := (find_entry_bucket h key e).1 hf
      exact absurd (List.mem_map.2 ⟨e, this.1, this.2⟩) hk

theorem get_eq_some_iff [DecidableEq K] {hasher_ : K → Nat} {m : HashMap K V}
    (h : WF hasher_ m) (key : K) (value : V) :
    get hasher_ m key = some value ↔ { key := key, value := value } ∈ entries m := by
  unfold get
  constructor
  · intro hg
    split at hg
    · rename_i e hf
      have := (find_entry_bucket h key e).1 hf
      cases e
      simp only [Option.some.injEq] at hg
      simp only at this
      rw [← hg, ← this.2]
      exact this.1
    · cases hg
  · intro he
    rw [(find_entry_bucket h key _).2 ⟨he, rfl⟩]

theorem get_eq_none_iff [DecidableEq K] {hasher_ : K → Nat} {m : HashMap K V}
    (h : WF hasher_ m) (key : K) :
    get hasher_ m key = none ↔ key ∉ keys m := by
  rw [← find_entry_bucket_none h key]
  unfold get
  split <;> simp_all

theorem contains_eq_isSome [DecidableEq K] (hasher_ : K → Nat) (m : HashMap K V) (key : K) :
    contains hasher_ m key = (get hasher_ m key).isSome := by
  unfold contains get
  split <;> simp_all

theorem contains_iff [DecidableEq K] {hasher_ : K → Nat} {m : HashMap K V}
    (h : WF hasher_ m) (key : K) :
    contains hasher_ m key = true ↔ key ∈ keys m := by
  rw [contains_eq_isSome, ← not_iff_not, ← get_eq_none_iff h]
  cases get hasher_ m key <;> simp

theorem get_congr [DecidableEq K] {hasher_ : K → Nat} {m m1 : HashMap K V}
    (h : WF hasher_ m) (h1 : WF hasher_ m1) (hp : (entries m1).Perm (entries m)) (key : K) :
    get hasher_ m1 key = get hasher_ m key := by
  apply Option.ext
  intro v
  simp only [Option.mem_def]
  rw [get_eq_some_iff h, get_eq_some_iff h1, hp.mem_iff]

/-! ## Preservation of the invariant -/

theorem wf_default_map (hasher_ : K → Nat) : WF hasher_ (default_map : HashMap K V) where
  count := ⟨0, rfl⟩
  index := by
    intro i b hb e he
    have hb0 : b = [] := by
      simp only [default_map, List.getElem?_replicate] at hb
      split at hb
      · exact (Option.some.inj hb).symm
      · cases hb
    simp [hb0] at he
  nodup := by simp [keys, entries, default_map]
  size_eq := by simp [entries, default_map]
  load := by simp [default_map]

theorem wf_clear (hasher_ : K → Nat) (m : HashMap K V) : WF hasher_ (clear m) :=
  wf_default_map hasher_

theorem WF.pos {hasher_ : K → Nat} {m : HashMap K V} (h : WF hasher_ m) :
    0 < m.buckets_.length := by
  obtain ⟨k, hk⟩ := h.count
  rw [hk]
  positivity

theorem WF.eight_le {hasher_ : K → Nat} {m : HashMap K V} (h : WF hasher_ m) :
    8 ≤ m.buckets_.length := by
  obtain ⟨k, hk⟩ := h.count
  rw [hk]
  have : 1 ≤ 2 ^ k := Nat.one_le_two_pow
  omega

theorem wf_of_perm {hasher_ : K → Nat} {m m1 : HashMap K V} (h : WF hasher_ m)
    (hcount : ∃ k, m1.buckets_.length = 8 * 2 ^ k) (hidx : IndexInv hasher_ m1.buckets_)
    (hp : (entries m1).Perm (entries m)) (hsize : m1.size_ = m.size_)
    (hload : 4 * m1.size_ ≤ 3 * m1.buckets_.length) : WF hasher_ m1 where
  count := hcount
  index := hidx
  nodup := ((hp.map Entry.key).nodup_iff).2 h.nodup
  size_eq := by rw [hsize, h.size_eq, hp.length_eq]
  load := hload

theorem wf_maybe_rehash_for_insert {hasher_ : K → Nat} {m : HashMap K V} (h : WF hasher_ m) :
    WF hasher_ (maybe_rehash_for_insert hasher_ m) ∧
    4 * ((maybe_rehash_for_insert hasher_ m).size_ + 1) ≤
      3 * (maybe_rehash_for_insert hasher_ m).buckets_.length ∧
    (entries (maybe_rehash_for_insert hasher_ m)).Perm (entries m) ∧
    (maybe_rehash_for_insert hasher_ m).size_ = m.size_ := by
  unfold maybe_rehash_for_insert
  simp only
  split
  · have hpos := h.pos
    have h8 := h.eight_le
    have hl := h.load
    obtain ⟨hlen, hidx, hperm, hsize⟩ :=
      rehash_spec hasher_ m (m.buckets_.length * 2) (by omega)
    obtain ⟨k, hk⟩ := h.count
    refine ⟨wf_of_perm h ⟨k + 1, ?_⟩ hidx hperm hsize ?_, ?_, hperm, hsize⟩
    · rw [hlen, hk, pow_succ]
      ring
    · rw [hlen, hsize]
      omega
    · rw [hlen, hsize]
      omega
  · rename_i hnot
    exact ⟨h, by omega, List.Perm.refl _, rfl⟩

theorem getElem?_getD_of_lt {α : Type} (bs : List (List α)) (i : Nat) (hi : i < bs.length) :
    bs[i]? = some (bs.getD i []) := by
  rw [List.getD_eq_getElem?_getD, List.getElem?_eq_getElem hi]
  rfl

theorem indexInv_set (hasher_ : K → Nat) (bs : List (List (Entry K V))) (i : Nat)
    (b1 : List (Entry K V)) (h : IndexInv hasher_ bs)
    (hb1 : ∀ e ∈ b1, hasher_ e.key % bs.length = i) : IndexInv hasher_ (bs.set i b1) := by
  intro j b hb e he
  rw [List.length_set]
  rw [List.getElem?_set] at hb
  by_cases hij : i = j
  · subst hij
    simp only [if_true] at hb
    split at hb
    · cases hb
      exact hb1 e he
    · cases hb
  · simp only [hij, if_false] at hb
    exact h j b hb e he

theorem push_new_spec {hasher_ : K → Nat} {m1 : HashMap K V} (h : WF hasher_ m1)
    (hslack : 4 * (m1.size_ + 1) ≤ 3 * m1.buckets_.length) (key : K) (value : V)
    (hk : key ∉ keys m1) :
    WF hasher_
      { buckets_ := m1.buckets_.set (bucket_index hasher_ m1 key)
          (m1.buckets_.getD (bucket_index hasher_ m1 key) [] ++ [{ key := key, value := value }]),
        size_ := m1.size_ + 1 } ∧
    (entries
      { buckets_ := m1.buckets_.set (bucket_index hasher_ m1 key)
          (m1.buckets_.getD (bucket_index hasher_ m1 key) [] ++ [{ key := key, value := value }]),
        size_ := m1.size_ + 1 }).Perm ({ key := key, value := value } :: entries m1) := by
  have hi : bucket_index hasher_ m1 key < m1.buckets_.length := Nat.mod_lt _ h.pos
  have hperm : (entries
      { buckets_ := m1.buckets_.set (bucket_index hasher_ m1 key)
          (m1.buckets_.getD (bucket_index hasher_ m1 key) [] ++ [{ key := key, value := value }]),
        size_ := m1.size_ + 1 }).Perm ({ key := key, value := value } :: entries m1) := by
    simp only [entries]
    refine (flatten_set_perm _ _ _ hi).trans ?_
    rw [List.append_assoc, List.singleton_append]
    exact List.perm_middle.trans ((flatten_perm_getD _ _).symm.cons _)
  refine ⟨?_, hperm⟩
  constructor
  · simpa using h.count
  · simp only [List.length_set]
    have := indexInv_set hasher_ m1.buckets_ (bucket_index hasher_ m1 key)
      (m1.buckets_.getD (bucket_index hasher_ m1 key) [] ++ [{ key := key, value := value }])
      h.index (by
        intro e he
        rcases List.mem_append.1 he with he | he
        · exact h.index _ _ (getElem?_getD_of_lt _ _ hi) e he
        · simp only [List.mem_singleton] at he
          subst he
          rfl)
    simpa [IndexInv] using this
  · have hnd : (List.map Entry.key ({ key := key, value := value } :: entries m1)).Nodup :=
      List.nodup_cons.2 ⟨hk, h.nodup⟩
    exact (hperm.map Entry.key).nodup_iff.2 hnd
  · have := hperm.length_eq
    simp only [List.length_cons] at this
    rw [this]
    exact congrArg (fun n => n + 1) h.size_eq
  · simpa using hslack

theorem assign_spec {hasher_ : K → Nat} {m1 : HashMap K V} (h : WF hasher_ m1)
    (key : K) (value : V) (l1 l2 : List (Entry K V)) (e0 : Entry K V) (he0 : e0.key = key)
    (hb : m1.buckets_.getD (bucket_index hasher_ m1 key) [] = l1 ++ e0 :: l2) :
    ∃ rest, (entries m1).Perm (e0 :: rest) ∧
      (entries (HashMap.mk (m1.buckets_.set (bucket_index hasher_ m1 key)
            (l1 ++ { key := key, value := value } :: l2)) m1.size_)).Perm
        ({ key := key, value := value } :: rest) ∧
      WF hasher_ (HashMap.mk (m1.buckets_.set (bucket_index hasher_ m1 key)
            (l1 ++ { key := key, value := value } :: l2)) m1.size_) := by
  have hi : bucket_index hasher_ m1 key < m1.buckets_.length := Nat.mod_lt _ h.pos
  have hp1 : (entries m1).Perm
      (e0 :: (l1 ++ l2 ++ (m1.buckets_.eraseIdx (bucket_index hasher_ m1 key)).flatten)) := by
    have := flatten_perm_getD m1.buckets_ (bucket_index hasher_ m1 key)
    rw [hb] at this
    refine this.trans ?_
    rw [List.append_assoc, List.cons_append, List.append_assoc]
    exact List.perm_middle
  have hp2 : (entries (HashMap.mk (m1.buckets_.set (bucket_index hasher_ m1 key)
            (l1 ++ { key := key, value := value } :: l2)) m1.size_)).Perm
      ({ key := key, value := value } ::
        (l1 ++ l2 ++ (m1.buckets_.eraseIdx (bucket_index hasher_ m1 key)).flatten)) := by
    simp only [entries]
    refine (flatten_set_perm _ _ _ hi).trans ?_
    rw [List.append_assoc, List.cons_append, List.append_assoc]
    exact List.perm_middle
  refine ⟨_, hp1, hp2, ?_⟩
  constructor
  · simpa using h.count
  · have := indexInv_set hasher_ m1.buckets_ (bucket_index hasher_ m1 key)
      (l1 ++ { key := key, value := value } :: l2) h.index (by
        intro e he
        have hold : ∀ x ∈ l1 ++ e0 :: l2, hasher_ x.key % m1.buckets_.length =
            bucket_index hasher_ m1 key := by
          intro x hx
          rw [← hb] at hx
          exact h.index _ _ (getElem?_getD_of_lt _ _ hi) x hx
        rcases List.mem_append.1 he with he | he
        · exact hold e (List.mem_append_left _ he)
        · rcases List.mem_cons.1 he with he | he
          · subst he
            rfl
          · exact hold e (List.mem_append_right _ (List.mem_cons_of_mem _ he)))
    simpa [IndexInv] using this
  · have k1 := (hp1.map Entry.key).nodup_iff.1 h.nodup
    refine (hp2.map Entry.key).nodup_iff.2 ?_
    simpa [he0] using k1
  · have e1 := hp1.length_eq
    have e2 := hp2.length_eq
    simp only [List.length_cons] at e1 e2
    exact (h.size_eq.trans e1).trans e2.symm
  · simpa using h.load

theorem not_mem_keys_of_perm {m m1 : HashMap K V} (hp : (entries m1).Perm (entries m))
    (key : K) : key ∈ keys m1 ↔ key ∈ keys m :=
  (hp.map Entry.key).mem_iff

theorem insert_or_assign_spec [DecidableEq K] {hasher_ : K → Nat} {m : HashMap K V}
    (h : WF hasher_ m) (key : K) (value : V) :
    WF hasher_ (insert_or_assign hasher_ m key value).1 ∧
    ((key ∉ keys m ∧ (insert_or_assign hasher_ m key value).2 = true ∧
        (entries (insert_or_assign hasher_ m key value).1).Perm
          ({ key := key, value := value } :: entries m) ∧
        (insert_or_assign hasher_ m key value).1.size_ = m.size_ + 1) ∨
     (∃ e0 rest, e0.key = key ∧ (entries m).Perm (e0 :: rest) ∧
        (entries (insert_or_assign hasher_ m key value).1).Perm
          ({ key := key, value := value } :: rest) ∧
        (insert_or_assign hasher_ m key value).2 = false ∧
        (insert_or_assign hasher_ m key value).1.size_ = m.size_)) := by
  obtain ⟨h1, hslack, hperm, hsize⟩ := wf_maybe_rehash_for_insert h
  cases ha : assign_existing key value
      ((maybe_rehash_for_insert hasher_ m).buckets_.getD
        (bucket_index hasher_ (maybe_rehash_for_insert hasher_ m) key) []) with
  | none =>
    have hk1 : key ∉ keys (maybe_rehash_for_insert hasher_ m) :=
      (find_entry_bucket_none h1 key).1 (find_entry_none.2 (assign_existing_none.1 ha))
    have hk : key ∉ keys m := fun hc => hk1 ((not_mem_keys_of_perm hperm key).2 hc)
    obtain ⟨hwf, hp⟩ := push_new_spec h1 hslack key value hk1
    simp only [insert_or_assign, ha]
    exact ⟨hwf, Or.inl ⟨hk, trivial, hp.trans (hperm.cons _), by rw [hsize]⟩⟩
  | some b1 =>
    obtain ⟨l1, e0, l2, hb, hb1, he0, _⟩ := assign_existing_split ha
    obtain ⟨rest, hp1, hp2, hwf⟩ := assign_spec h1 key value l1 l2 e0 he0 hb
    simp only [insert_or_assign, ha]
    rw [hb1]
    exact ⟨hwf, Or.inr ⟨e0, rest, he0, hperm.symm.trans hp1, hp2, trivial, hsize⟩⟩

theorem operator_subscript_spec [DecidableEq K] [Inhabited V] {hasher_ : K → Nat}
    {m : HashMap K V} (h : WF hasher_ m) (key : K) :
    WF hasher_ (operator_subscript hasher_ m key).1 ∧
    ((key ∉ keys m ∧ (operator_subscript hasher_ m key).2 = default ∧
        (entries (operator_subscript hasher_ m key).1).Perm
          ({ key := key, value := default } :: entries m) ∧
        (operator_subscript hasher_ m key).1.size_ = m.size_ + 1) ∨
     (∃ e0, e0 ∈ entries m ∧ e0.key = key ∧ (operator_subscript hasher_ m key).2 = e0.value ∧
        (entries (operator_subscript hasher_ m key).1).Perm (entries m) ∧
        (operator_subscript hasher_ m key).1.size_ = m.size_)) := by
  obtain ⟨h1, hslack, hperm, hsize⟩ := wf_maybe_rehash_for_insert h
  cases hf : find_entry key
      ((maybe_rehash_for_insert hasher_ m).buckets_.getD
        (bucket_index hasher_ (maybe_rehash_for_insert hasher_ m) key) []) with
  | none =>
    have hk1 : key ∉ keys (maybe_rehash_for_insert hasher_ m) :=
      (find_entry_bucket_none h1 key).1 hf
    have hk : key ∉ keys m := fun hc => hk1 ((not_mem_keys_of_perm hperm key).2 hc)
    obtain ⟨hwf, hp⟩ := push_new_spec h1 hslack key (default : V) hk1
    simp only [operator_subscript, hf]
    exact ⟨hwf, Or.inl ⟨hk, trivial, hp.trans (hperm.cons _), by rw [hsize]⟩⟩
  | some e0 =>
    have he0 := (find_entry_bucket h1 key e0).1 hf
    simp only [operator_subscript, hf]
    exact ⟨h1, Or.inr ⟨e0, hperm.mem_iff.1 he0.1, he0.2, rfl, hperm, hsize⟩⟩

theorem erase_spec [DecidableEq K] {hasher_ : K → Nat} {m : HashMap K V}
    (h : WF hasher_ m) (key : K) :
    WF hasher_ (erase hasher_ m key).1 ∧
    (erase hasher_ m key).1.buckets_.length = m.buckets_.length ∧
    ((key ∉ keys m ∧ erase hasher_ m key = (m, false)) ∨
     (∃ e0, e0.key = key ∧ (entries m).Perm (e0 :: entries (erase hasher_ m key).1) ∧
        (erase hasher_ m key).2 = true ∧ (erase hasher_ m key).1.size_ + 1 = m.size_)) := by
  have hi : bucket_index hasher_ m key < m.buckets_.length := Nat.mod_lt _ h.pos
  cases hf : find_index key (m.buckets_.getD (bucket_index hasher_ m key) []) with
  | none =>
    have hk : key ∉ keys m :=
      (find_entry_bucket_none h key).1 (find_entry_none.2 (find_index_none.1 hf))
    simp only [erase, hf]
    exact ⟨h, trivial, Or.inl ⟨hk, trivial⟩⟩
  | some i =>
    obtain ⟨e0, hi0, he0⟩ := find_index_some hf
    have hsw := swap_remove_perm _ i e0 hi0
    have hp : (entries m).Perm
        (e0 :: entries (HashMap.mk (m.buckets_.set (bucket_index hasher_ m key)
          (swap_remove (m.buckets_.getD (bucket_index hasher_ m key) []) i)) (m.size_ - 1))) := by
      simp only [entries]
      refine (flatten_perm_getD m.buckets_ (bucket_index hasher_ m key)).trans ?_
      refine (hsw.append_right _).trans ?_
      rw [List.cons_append]
      exact ((flatten_set_perm _ _ _ hi).symm).cons _
    have hwf : WF hasher_ (HashMap.mk (m.buckets_.set (bucket_index hasher_ m key)
          (swap_remove (m.buckets_.getD (bucket_index hasher_ m key) []) i)) (m.size_ - 1)) := by
      have hlen := hp.length_eq
      simp only [List.length_cons] at hlen
      constructor
      · simpa using h.count
      · have := indexInv_set hasher_ m.buckets_ (bucket_index hasher_ m key)
          (swap_remove (m.buckets_.getD (bucket_index hasher_ m key) []) i) h.index (by
            intro e he
            exact h.index _ _ (getElem?_getD_of_lt _ _ hi) e
              (hsw.mem_iff.2 (List.mem_cons_of_mem _ he)))
        simpa [IndexInv] using this
      · have := (hp.map Entry.key).nodup_iff.1 h.nodup
        exact (List.nodup_cons.1 this).2
      · have := h.size_eq
        show m.size_ - 1 = _
        omega
      · have := h.load
        simp only [List.length_set]
        omega
    have hsz : m.size_ - 1 + 1 = m.size_ := by
      have := h.size_eq
      have hlen := hp.length_eq
      simp only [List.length_cons] at hlen
      omega
    simp only [erase, hf]
    exact ⟨hwf, by simp, Or.inr ⟨e0, he0, hp, trivial, hsz⟩⟩

theorem wf_of_reachable [DecidableEq K] [Inhabited V] {hasher_ : K → Nat} {m : HashMap K V}
    (h : Reachable hasher_ m) : WF hasher_ m := by
  induction h with
  | construct => exact wf_default_map hasher_
  | insert_or_assign m key value _ ih => exact (insert_or_assign_spec ih key value).1
  | operator_subscript m key _ ih => exact (operator_subscript_spec ih key).1
  | erase m key _ ih => exact (erase_spec ih key).1
  | clear m _ _ => exact wf_clear hasher_ m

/-! ## Lookups after an operation -/

theorem get_frame [DecidableEq K] {hasher_ : K → Nat} {m m1 : HashMap K V}
    (h : WF hasher_ m) (h1 : WF hasher_ m1) (l l1 rest : List (Entry K V))
    (hp : (entries m).Perm (l ++ rest)) (hp1 : (entries m1).Perm (l1 ++ rest)) (key : K)
    (hl : ∀ e ∈ l, e.key ≠ key) (hl1 : ∀ e ∈ l1, e.key ≠ key) :
    get hasher_ m1 key = get hasher_ m key := by
  apply Option.ext
  intro v
  simp only [Option.mem_def]
  rw [get_eq_some_iff h, get_eq_some_iff h1, hp.mem_iff, hp1.mem_iff, List.mem_append,
    List.mem_append]
  constructor
  · rintro (he | he)
    · exact absurd rfl (hl1 _ he)
    · exact Or.inr he
  · rintro (he | he)
    · exact absurd rfl (hl _ he)
    · exact Or.inr he

theorem get_of_perm_cons [DecidableEq K] {hasher_ : K → Nat} {m : HashMap K V}
    (h : WF hasher_ m) (e : Entry K V) (rest : List (Entry K V))
    (hp : (entries m).Perm (e :: rest)) : get hasher_ m e.key = some e.value :=
  (get_eq_some_iff h e.key e.value).2 (hp.mem_iff.2 (List.mem_cons_self _ _))

theorem insert_or_assign_get [DecidableEq K] {hasher_ : K → Nat} {m : HashMap K V}
    (h : WF hasher_ m) (key : K) (value : V) (key1 : K) :
    get hasher_ (insert_or_assign hasher_ m key value).1 key1 =
      if key1 = key then some value else get hasher_ m key1 := by
  obtain ⟨hwf, hcase⟩ := insert_or_assign_spec h key value
  by_cases hk : key1 = key
  · subst hk
    simp only [if_true]
    rcases hcase with ⟨_, _, hp, _⟩ | ⟨e0, rest, _, _, hp, _, _⟩
    · exact get_of_perm_cons hwf { key := key1, value := value } _ hp
    · exact get_of_perm_cons hwf { key := key1, value := value } _ hp
  · simp only [hk, if_false]
    rcases hcase with ⟨_, _, hp, _⟩ | ⟨e0, rest, he0, hp0, hp, _, _⟩
    · refine get_frame h hwf [] [{ key := key, value := value }] (entries m) (by simp) hp key1
        (by simp) ?_
      intro e he
      simp only [List.mem_singleton] at he
      subst he
      exact fun hc => hk hc.symm
    · refine get_frame h hwf [e0] [{ key := key, value := value }] rest hp0 hp key1 ?_ ?_
      · intro e he
        simp only [List.mem_singleton] at he
        subst he
        exact fun hc => hk (hc.symm.trans he0)
      · intro e he
        simp only [List.mem_singleton] at he
        subst he
        exact fun hc => hk hc.symm

theorem operator_subscript_get [DecidableEq K] [Inhabited V] {hasher_ : K → Nat}
    {m : HashMap K V} (h : WF hasher_ m) (key : K) (key1 : K) :
    get hasher_ (operator_subscript hasher_ m key).1 key1 =
      if key1 = key then some (operator_subscript hasher_ m key).2 else get hasher_ m key1 := by
  obtain ⟨hwf, hcase⟩ := operator_subscript_spec h key
  rcases hcase with ⟨_, hv, hp, _⟩ | ⟨e0, he0, hk0, hv, hp, _⟩
  · by_cases hk : key1 = key
    · subst hk
      simp only [if_true, hv]
      exact get_of_perm_cons hwf { key := key1, value := default } _ hp
    · simp only [hk, if_false]
      refine get_frame h hwf [] [{ key := key, value := default }] (entries m) (by simp) hp key1
        (by simp) ?_
      intro e he
      simp only [List.mem_singleton] at he
      subst he
      exact fun hc => hk hc.symm
  · rw [get_congr h hwf hp]
    by_cases hk : key1 = key
    · subst hk
      simp only [if_true, hv]
      cases e0
      simp only at hk0
      subst hk0
      exact (get_eq_some_iff h _ _).2 he0
    · simp only [hk, if_false]

theorem operator_subscript_value [DecidableEq K] [Inhabited V] {hasher_ : K → Nat}
    {m : HashMap K V} (h : WF hasher_ m) (key : K) :
    (operator_subscript hasher_ m key).2 = (get hasher_ m key).getD default := by
  obtain ⟨_, hcase⟩ := operator_subscript_spec h key
  rcases hcase with ⟨hk, hv, _, _⟩ | ⟨e0, he0, hk0, hv, _, _⟩
  · rw [hv, (get_eq_none_iff h key).2 hk]
    rfl
  · cases e0
    simp only at hk0
    subst hk0
    rw [hv, (get_eq_some_iff h _ _).2 he0]
    rfl

theorem erase_get [DecidableEq K] {hasher_ : K → Nat} {m : HashMap K V}
    (h : WF hasher_ m) (key : K) (key1 : K) :
    get hasher_ (erase hasher_ m key).1 key1 =
      if key1 = key then none else get hasher_ m key1 := by
  obtain ⟨hwf, _, hcase⟩ := erase_spec h key
  rcases hcase with ⟨hk, he⟩ | ⟨e0, he0, hp, _, _⟩
  · rw [he]
    by_cases hk1 : key1 = key
    · subst hk1
      simpa using (get_eq_none_iff h key1).2 hk
    · simp [hk1]
  · by_cases hk1 : key1 = key
    · subst hk1
      simp only [if_true]
      rw [get_eq_none_iff hwf]
      have := (hp.map Entry.key).nodup_iff.1 h.nodup
      simp only [List.map_cons, he0] at this
      exact (List.nodup_cons.1 this).1
    · simp only [hk1, if_false]
      refine get_frame h hwf [e0] [] _ hp (List.Perm.refl _) key1 ?_ (by simp)
      intro e he
      simp only [List.mem_singleton] at he
      subst he
      exact fun hc => hk1 (hc.symm.trans he0)

theorem insert_or_assign_flag [DecidableEq K] {hasher_ : K → Nat} {m : HashMap K V}
    (h : WF hasher_ m) (key : K) (value : V) :
    (insert_or_assign hasher_ m key value).2 = !(contains hasher_ m key) := by
  obtain ⟨_, hcase⟩ := insert_or_assign_spec h key value
  rcases hcase with ⟨hk, hf, _, _⟩ | ⟨e0, rest, he0, hp0, _, hf, _⟩
  · have : contains hasher_ m key = false := by
      rw [← Bool.not_eq_true, contains_iff h]
      exact hk
    rw [hf, this]
    rfl
  · have : contains hasher_ m key = true := by
      rw [contains_iff h]
      exact List.mem_map.2 ⟨e0, hp0.mem_iff.2 (List.mem_cons_self _ _), he0⟩
    rw [hf, this]
    rfl

theorem insert_or_assign_size [DecidableEq K] {hasher_ : K → Nat} {m : HashMap K V}
    (h : WF hasher_ m) (key : K) (value : V) :
    (insert_or_assign hasher_ m key value).1.size_ =
      if contains hasher_ m key = true then m.size_ else m.size_ + 1 := by
  have hflag := insert_or_assign_flag h key value
  obtain ⟨_, hcase⟩ := insert_or_assign_spec h key value
  rcases hcase with ⟨_, hf, _, hs⟩ | ⟨_, _, _, _, _, hf, hs⟩
  · rw [hf] at hflag
    have : contains hasher_ m key = false := by simpa using hflag.symm
    simp [this, hs]
  · rw [hf] at hflag
    have : contains hasher_ m key = true := by simpa using hflag.symm
    simp [this, hs]

theorem erase_flag [DecidableEq K] {hasher_ : K → Nat} {m : HashMap K V}
    (h : WF hasher_ m) (key : K) :
    (erase hasher_ m key).2 = contains hasher_ m key := by
  obtain ⟨_, _, hcase⟩ := erase_spec h key
  rcases hcase with ⟨hk, he⟩ | ⟨e0, he0, hp, hf, _⟩
  · have : contains hasher_ m key = false := by
      rw [← Bool.not_eq_true, contains_iff h]
      exact hk
    rw [he, this]
  · have : contains hasher_ m key = true := by
      rw [contains_iff h]
      exact List.mem_map.2 ⟨e0, hp.mem_iff.2 (List.mem_cons_self _ _), he0⟩
    rw [hf, this]

/-! ## Reachable states -/

theorem reachable_insert_all [DecidableEq K] [Inhabited V] (hasher_ : K → Nat)
    (kvs : List (K × V)) (m : HashMap K V) (h : Reachable hasher_ m) :
    Reachable hasher_ (insert_all hasher_ m kvs) := by
  induction kvs generalizing m with
  | nil => exact h
  | cons kv rest ih => exact ih _ (Reachable.insert_or_assign m kv.1 kv.2 h)

theorem reachable_sample_map : Reachable id sample_map :=
  Reachable.insert_or_assign _ 17 170
    (Reachable.insert_or_assign _ 9 90 (Reachable.insert_or_assign _ 1 10 Reachable.construct))

theorem reachable_sample_full : Reachable sample_hash sample_full :=
  reachable_insert_all sample_hash _ _ Reachable.construct

theorem load_factor_le_iff (m : HashMap K V) (hpos : 0 < m.buckets_.length) :
    load_factor m ≤ k_max_load_factor ↔ 4 * m.size_ ≤ 3 * m.buckets_.length := by
  have hne : m.buckets_ ≠ [] := by
    intro hc
    simp [hc] at hpos
  have hq : (0 : ℚ) < (m.buckets_.length : ℚ) := by exact_mod_cast hpos
  simp only [load_factor, List.isEmpty_iff, hne, if_false, k_max_load_factor]
  rw [div_le_iff₀ hq]
  constructor
  · intro hle
    have : ((4 * m.size_ : ℕ) : ℚ) ≤ ((3 * m.buckets_.length : ℕ) : ℚ) := by
      push_cast
      linarith
    exact_mod_cast this
  · intro hle
    have : ((4 * m.size_ : ℕ) : ℚ) ≤ ((3 * m.buckets_.length : ℕ) : ℚ) := by exact_mod_cast hle
    push_cast at this
    linarith

theorem wf_rehash_double {hasher_ : K → Nat} {m : HashMap K V} (h : WF hasher_ m) :
    WF hasher_ (rehash hasher_ m (m.buckets_.length * 2)) ∧
    (entries (rehash hasher_ m (m.buckets_.length * 2))).Perm (entries m) := by
  have hpos := h.pos
  have hl := h.load
  obtain ⟨hlen, hidx, hperm, hsize⟩ := rehash_spec hasher_ m (m.buckets_.length * 2) (by omega)
  obtain ⟨k, hk⟩ := h.count
  refine ⟨wf_of_perm h ⟨k + 1, ?_⟩ hidx hperm hsize ?_, hperm⟩
  · rw [hlen, hk, pow_succ]
    ring
  · rw [hlen, hsize]
    omega

theorem insert_all_get [DecidableEq K] [Inhabited V] (hasher_ : K → Nat) (kvs : List (K × V))
    (m : HashMap K V) (h : Reachable hasher_ m) (key1 : K) (hne : ∀ kv ∈ kvs, kv.1 ≠ key1) :
    get hasher_ (insert_all hasher_ m kvs) key1 = get hasher_ m key1 := by
  induction kvs generalizing m with
  | nil => rfl
  | cons kv rest ih =>
    have h1 := Reachable.insert_or_assign m kv.1 kv.2 h
    have := ih _ h1 (fun x hx => hne x (List.mem_cons_of_mem _ hx))
    simp only [insert_all, List.foldl_cons] at this ⊢
    rw [this, insert_or_assign_get (wf_of_reachable h) kv.1 kv.2 key1]
    have hk : key1 ≠ kv.1 := fun hc => hne kv (List.mem_cons_self _ _) hc.symm
    simp [hk]

theorem length_rehash (hasher_ : K → Nat) (m : HashMap K V) (n : Nat) :
    (rehash hasher_ m n).buckets_.length = n := by
  rw [rehash_buckets]
  have : ∀ (l : List (Entry K V)) (nb : List (List (Entry K V))),
      (l.foldl (place_entry hasher_ n) nb).length = nb.length := by
    intro l
    induction l with
    | nil => intro nb; rfl
    | cons e es ih =>
      intro nb
      simp only [List.foldl_cons]
      rw [ih, length_place_entry]
  rw [this]
  simp

theorem length_maybe_rehash_for_insert (hasher_ : K → Nat) (m : HashMap K V) :
    (maybe_rehash_for_insert hasher_ m).buckets_.length =
      if 4 * (m.size_ + 1) > 3 * m.buckets_.length then 2 * m.buckets_.length
      else m.buckets_.length := by
  unfold maybe_rehash_for_insert
  simp only
  split
  · rw [length_rehash, Nat.mul_comm]
  · rfl

theorem length_insert_or_assign [DecidableEq K] (hasher_ : K → Nat) (m : HashMap K V)
    (key : K) (value : V) :
    (insert_or_assign hasher_ m key value).1.buckets_.length =
      (maybe_rehash_for_insert hasher_ m).buckets_.length := by
  unfold insert_or_assign
  simp only
  split <;> simp

theorem length_operator_subscript [DecidableEq K] [Inhabited V] (hasher_ : K → Nat)
    (m : HashMap K V) (key : K) :
    (operator_subscript hasher_ m key).1.buckets_.length =
      (maybe_rehash_for_insert hasher_ m).buckets_.length := by
  unfold operator_subscript
  simp only
  split <;> simp

theorem at_eq_get [DecidableEq K] (hasher_ : K → Nat) (m : HashMap K V) (key : K) :
    at_ hasher_ m key =
      match get hasher_ m key with
      | some value => Except.ok value
      | none => Except.error HashMapError.out_of_range := by
  unfold at_ get
  split <;> simp_all

/-! ## The specification -/

/-- C1: in every state reachable from the default-constructed map, for every hash function,
no key occurs in more than one entry of the table: the keys of all buckets taken together
are pairwise distinct, so no bucket holds a key twice and no two buckets share a key. -/
theorem hashmap_no_duplicate_keys [DecidableEq K] [Inhabited V] (hasher_ : K → Nat)
    (m : HashMap K V) (h : Reachable hasher_ m) :
    (keys m).Nodup ∧
    (∀ (i : Nat) (b : List (Entry K V)), m.buckets_[i]? = some b → (b.map Entry.key).Nodup) ∧
    (∀ (i j : Nat) (b c : List (Entry K V)),
      m.buckets_[i]? = some b → m.buckets_[j]? = some c → i ≠ j →
      ∀ e ∈ b, ∀ f ∈ c, e.key ≠ f.key) := by
  have hwf := wf_of_reachable h
  refine ⟨hwf.nodup, ?_, ?_⟩
  · intro i b hb
    exact List.Nodup.sublist ((List.sublist_flatten_of_mem (List.getElem?_mem hb)).map Entry.key)
      hwf.nodup
  · intro i j b c hb hc hij e he f hf hkey
    have h1 := hwf.index i b hb e he
    have h2 := hwf.index j c hc f hf
    rw [hkey] at h1
    exact hij (h1.symm.trans h2)

/-- Witness of C1 on the map holding the keys 1, 9 and 17 in one bucket. -/
theorem hashmap_no_duplicate_keys_witness :
    Reachable id sample_map ∧
    ((keys sample_map).Nodup ∧
    (∀ (i : Nat) (b : List (Entry Nat Nat)),
      sample_map.buckets_[i]? = some b → (b.map Entry.key).Nodup) ∧
    (∀ (i j : Nat) (b c : List (Entry Nat Nat)),
      sample_map.buckets_[i]? = some b → sample_map.buckets_[j]? = some c → i ≠ j →
      ∀ e ∈ b, ∀ f ∈ c, e.key ≠ f.key)) :=
  ⟨reachable_sample_map, hashmap_no_duplicate_keys id sample_map reachable_sample_map⟩

/-- C2: in every reachable state `size()` equals the sum of the lengths of all buckets, and
it equals the number of distinct keys present, where a key is present exactly when
`contains` finds it. -/
theorem hashmap_size_eq_sum_of_bucket_lengths [DecidableEq K] [Inhabited V] (hasher_ : K → Nat)
    (m : HashMap K V) (h : Reachable hasher_ m) :
    size m = (m.buckets_.map List.length).sum ∧
    size m = (keys m).toFinset.card ∧
    (∀ key, key ∈ (keys m).toFinset ↔ contains hasher_ m key = true) := by
  have hwf := wf_of_reachable h
  refine ⟨?_, ?_, ?_⟩
  · rw [size, hwf.size_eq, entries, List.length_flatten]
  · rw [List.toFinset_card_of_nodup hwf.nodup, size, hwf.size_eq, keys, List.length_map]
  · intro key
    rw [List.mem_toFinset, contains_iff hwf]

/-- Witness of C2 on the map holding the keys 1, 9 and 17. -/
theorem hashmap_size_eq_sum_of_bucket_lengths_witness :
    Reachable id sample_map ∧
    (size sample_map = (sample_map.buckets_.map List.length).sum ∧
    size sample_map = (keys sample_map).toFinset.card ∧
    (∀ key, key ∈ (keys sample_map).toFinset ↔ contains id sample_map key = true)) :=
  ⟨reachable_sample_map, hashmap_size_eq_sum_of_bucket_lengths id sample_map reachable_sample_map⟩

/-- C3: immediately after every `insert_or_assign` and every `operator[]` call on a
reachable map the load factor, as an exact ratio, is at most 0.75, that is
`4 * size ≤ 3 * bucket_count`; the same holds after every call of any scripted sequence of
inserts, such as 100 inserts of distinct keys into the default map of 8 buckets. -/
theorem hashmap_load_factor_bound_after_insert [DecidableEq K] [Inhabited V] (hasher_ : K → Nat)
    (m : HashMap K V) (h : Reachable hasher_ m) (key : K) (value : V) :
    (4 * size (insert_or_assign hasher_ m key value).1 ≤
        3 * bucket_count (insert_or_assign hasher_ m key value).1 ∧
      load_factor (insert_or_assign hasher_ m key value).1 ≤ k_max_load_factor) ∧
    (4 * size (operator_subscript hasher_ m key).1 ≤
        3 * bucket_count (operator_subscript hasher_ m key).1 ∧
      load_factor (operator_subscript hasher_ m key).1 ≤ k_max_load_factor) ∧
    (∀ (kvs : List (K × V)) (n : Nat), 0 < n → n ≤ kvs.length →
      bucket_count (default_map : HashMap K V) = 8 ∧
      4 * size (insert_all hasher_ default_map (kvs.take n)) ≤
        3 * bucket_count (insert_all hasher_ default_map (kvs.take n)) ∧
      load_factor (insert_all hasher_ default_map (kvs.take n)) ≤ k_max_load_factor) := by
  have key_fact : ∀ m1 : HashMap K V, Reachable hasher_ m1 →
      4 * size m1 ≤ 3 * bucket_count m1 ∧ load_factor m1 ≤ k_max_load_factor := by
    intro m1 h1
    have hwf := wf_of_reachable h1
    exact ⟨hwf.load, (load_factor_le_iff m1 hwf.pos).2 hwf.load⟩
  refine ⟨key_fact _ (Reachable.insert_or_assign m key value h),
    key_fact _ (Reachable.operator_subscript m key h), ?_⟩
  intro kvs n _ _
  have := key_fact _ (reachable_insert_all hasher_ (kvs.take n) default_map Reachable.construct)
  exact ⟨rfl, this.1, this.2⟩

/-- Witness of C3: the insert into a map of size 6 with 8 buckets, which doubles the table. -/
theorem hashmap_load_factor_bound_after_insert_witness :
    Reachable sample_hash sample_full ∧
    ((4 * size (insert_or_assign sample_hash sample_full 6 106).1 ≤
        3 * bucket_count (insert_or_assign sample_hash sample_full 6 106).1 ∧
      load_factor (insert_or_assign sample_hash sample_full 6 106).1 ≤ k_max_load_factor) ∧
    (4 * size (operator_subscript sample_hash sample_full 6).1 ≤
        3 * bucket_count (operator_subscript sample_hash sample_full 6).1 ∧
      load_factor (operator_subscript sample_hash sample_full 6).1 ≤ k_max_load_factor) ∧
    (∀ (kvs : List (Nat × Nat)) (n : Nat), 0 < n → n ≤ kvs.length →
      bucket_count (default_map : HashMap Nat Nat) = 8 ∧
      4 * size (insert_all sample_hash default_map (kvs.take n)) ≤
        3 * bucket_count (insert_all sample_hash default_map (kvs.take n)) ∧
      load_factor (insert_all sample_hash default_map (kvs.take n)) ≤ k_max_load_factor)) :=
  ⟨reachable_sample_full,
    hashmap_load_factor_bound_after_insert sample_hash sample_full reachable_sample_full 6 106⟩

/-- With arguments that are read intact (see `insert_or_assign_ref`):
on a reachable map `insert_or_assign(k, v)` returns true exactly when `k` was absent
before the call, and then `size()` grows by exactly 1; it returns false exactly when `k` was
present, and then `size()` is unchanged and the value stored for `k` becomes `v`: afterwards
every entry of the table with key `k` has value `v` and `get(k)` yields `v`. -/
theorem hashmap_insert_or_assign_result [DecidableEq K] [Inhabited V] (hasher_ : K → Nat)
    (m : HashMap K V) (h : Reachable hasher_ m) (key : K) (value : V) :
    (contains hasher_ m key = true ↔ key ∈ keys m) ∧
    ((insert_or_assign hasher_ m key value).2 = true ↔ contains hasher_ m key = false) ∧
    ((insert_or_assign hasher_ m key value).2 = false ↔ contains hasher_ m key = true) ∧
    (contains hasher_ m key = false →
      size (insert_or_assign hasher_ m key value).1 = size m + 1) ∧
    (contains hasher_ m key = true →
      size (insert_or_assign hasher_ m key value).1 = size m ∧
      get hasher_ (insert_or_assign hasher_ m key value).1 key = some value ∧
      ∀ e ∈ entries (insert_or_assign hasher_ m key value).1, e.key = key → e.value = value) := by
  have hwf := wf_of_reachable h
  have hflag := insert_or_assign_flag hwf key value
  have hsize := insert_or_assign_size hwf key value
  have hget := insert_or_assign_get hwf key value key
  simp only [if_true] at hget
  refine ⟨contains_iff hwf key, ?_, ?_, ?_, ?_⟩
  · rw [hflag]
    cases contains hasher_ m key <;> simp
  · rw [hflag]
    cases contains hasher_ m key <;> simp
  · intro hc
    simp only [size, hsize, hc]
    rfl
  · intro hc
    refine ⟨by simp only [size, hsize, hc, if_true], hget, ?_⟩
    intro e he hk
    have hwf1 := (insert_or_assign_spec hwf key value).1
    cases e with
    | mk k0 v0 =>
      simp only at hk
      subst hk
      have := (get_eq_some_iff hwf1 k0 v0).2 he
      rw [hget] at this
      exact (Option.some.inj this).symm

/-- An instance: assigning 91 to the key 9 of the map holding 1, 9 and 17. -/
theorem hashmap_insert_or_assign_result_witness :
    Reachable id sample_map ∧
    ((contains id sample_map 9 = true ↔ 9 ∈ keys sample_map) ∧
    ((insert_or_assign id sample_map 9 91).2 = true ↔ contains id sample_map 9 = false) ∧
    ((insert_or_assign id sample_map 9 91).2 = false ↔ contains id sample_map 9 = true) ∧
    (contains id sample_map 9 = false →
      size (insert_or_assign id sample_map 9 91).1 = size sample_map + 1) ∧
    (contains id sample_map 9 = true →
      size (insert_or_assign id sample_map 9 91).1 = size sample_map ∧
      get id (insert_or_assign id sample_map 9 91).1 9 = some 91 ∧
      ∀ e ∈ entries (insert_or_assign id sample_map 9 91).1, e.key = 9 → e.value = 91)) :=
  ⟨reachable_sample_map, hashmap_insert_or_assign_result id sample_map reachable_sample_map 9 91⟩

/-- With arguments that are read intact (see `insert_or_assign_ref`):
round trip on a reachable map: after `insert_or_assign(k, v)`, `get(k)` returns `v`;
after a further `insert_or_assign(k, v2)`, `get(k)` returns `v2` and `size()` is the same as
after the first insert. -/
theorem hashmap_insert_get_round_trip [DecidableEq K] [Inhabited V] (hasher_ : K → Nat)
    (m : HashMap K V) (h : Reachable hasher_ m) (key : K) (value value2 : V) :
    get hasher_ (insert_or_assign hasher_ m key value).1 key = some value ∧
    get hasher_
      (insert_or_assign hasher_ (insert_or_assign hasher_ m key value).1 key value2).1 key =
        some value2 ∧
    size (insert_or_assign hasher_ (insert_or_assign hasher_ m key value).1 key value2).1 =
      size (insert_or_assign hasher_ m key value).1 := by
  have hwf := wf_of_reachable h
  have hwf1 := (insert_or_assign_spec hwf key value).1
  have hg1 := insert_or_assign_get hwf key value key
  have hg2 := insert_or_assign_get hwf1 key value2 key
  simp only [if_true] at hg1 hg2
  refine ⟨hg1, hg2, ?_⟩
  have hc : contains hasher_ (insert_or_assign hasher_ m key value).1 key = true := by
    rw [contains_eq_isSome, hg1]
    rfl
  simp only [size, insert_or_assign_size hwf1 key value2, hc, if_true]

/-- An instance: the key 6 inserted twice into the map of size 6 with 8 buckets. -/
theorem hashmap_insert_get_round_trip_witness :
    Reachable sample_hash sample_full ∧
    (get sample_hash (insert_or_assign sample_hash sample_full 6 106).1 6 = some 106 ∧
    get sample_hash
      (insert_or_assign sample_hash (insert_or_assign sample_hash sample_full 6 106).1 6 7).1 6 =
        some 7 ∧
    size (insert_or_assign sample_hash (insert_or_assign sample_hash sample_full 6 106).1 6 7).1 =
      size (insert_or_assign sample_hash sample_full 6 106).1) :=
  ⟨reachable_sample_full,
    hashmap_insert_get_round_trip sample_hash sample_full reachable_sample_full 6 106 7⟩

/-- With arguments that are read intact (see `insert_or_assign_ref`):
rehash correctness: on a reachable map, for every key `k1` other than the inserted
key, `get(k1)` after `insert_or_assign(k, v)` and after `operator[](k)` equals `get(k1)`
before the call, whether or not the call doubles the bucket count; doubling the table alone
changes no lookup; and across any sequence of inserts of other keys, with any number of
rehashes, `get(k1)` keeps its value. -/
theorem hashmap_insert_keeps_other_keys [DecidableEq K] [Inhabited V] (hasher_ : K → Nat)
    (m : HashMap K V) (h : Reachable hasher_ m) (key : K) (value : V) (key1 : K)
    (hne : key1 ≠ key) :
    get hasher_ (insert_or_assign hasher_ m key value).1 key1 = get hasher_ m key1 ∧
    get hasher_ (operator_subscript hasher_ m key).1 key1 = get hasher_ m key1 ∧
    (∀ key2, get hasher_ (rehash hasher_ m (bucket_count m * 2)) key2 = get hasher_ m key2) ∧
    (∀ key2, get hasher_ (maybe_rehash_for_insert hasher_ m) key2 = get hasher_ m key2) ∧
    (∀ kvs : List (K × V), (∀ kv ∈ kvs, kv.1 ≠ key1) →
      get hasher_ (insert_all hasher_ m kvs) key1 = get hasher_ m key1) := by
  have hwf := wf_of_reachable h
  refine ⟨?_, ?_, ?_, ?_, ?_⟩
  · rw [insert_or_assign_get hwf key value key1]
    simp [hne]
  · rw [operator_subscript_get hwf key key1]
    simp [hne]
  · intro key2
    obtain ⟨hwf2, hp⟩ := wf_rehash_double hwf
    exact get_congr hwf hwf2 hp key2
  · intro key2
    obtain ⟨hwf2, _, hp, _⟩ := wf_maybe_rehash_for_insert hwf
    exact get_congr hwf hwf2 hp key2
  · intro kvs hk
    exact insert_all_get hasher_ kvs m h key1 hk

/-- An instance: inserting the key 6 into the map of size 6 with 8 buckets doubles the
table and keeps the key 3. -/
theorem hashmap_insert_keeps_other_keys_witness :
    (Reachable sample_hash sample_full ∧ (3 : Nat) ≠ 6) ∧
    (get sample_hash (insert_or_assign sample_hash sample_full 6 106).1 3 =
      get sample_hash sample_full 3 ∧
    get sample_hash (operator_subscript sample_hash sample_full 6).1 3 =
      get sample_hash sample_full 3 ∧
    (∀ key2, get sample_hash (rehash sample_hash sample_full (bucket_count sample_full * 2)) key2 =
      get sample_hash sample_full key2) ∧
    (∀ key2, get sample_hash (maybe_rehash_for_insert sample_hash sample_full) key2 =
      get sample_hash sample_full key2) ∧
    (∀ kvs : List (Nat × Nat), (∀ kv ∈ kvs, kv.1 ≠ 3) →
      get sample_hash (insert_all sample_hash sample_full kvs) 3 =
        get sample_hash sample_full 3)) :=
  ⟨⟨reachable_sample_full, by decide⟩,
    hashmap_insert_keeps_other_keys sample_hash sample_full reachable_sample_full 6 106 3
      (by decide)⟩

/-- C7: in every reachable state every entry stored in the bucket at index `i` satisfies
`hash(entry.key) mod bucket_count = i` for the current bucket count; and `rehash` to any
positive bucket count keeps every entry and re-establishes this for each of them. -/
theorem hashmap_bucket_index_invariant [DecidableEq K] [Inhabited V] (hasher_ : K → Nat)
    (m : HashMap K V) (h : Reachable hasher_ m) :
    (∀ (i : Nat) (b : List (Entry K V)), m.buckets_[i]? = some b →
      ∀ e ∈ b, bucket_index hasher_ m e.key = i ∧ hasher_ e.key % bucket_count m = i) ∧
    (∀ n : Nat, 0 < n →
      (entries (rehash hasher_ m n)).Perm (entries m) ∧
      bucket_count (rehash hasher_ m n) = n ∧
      ∀ (i : Nat) (b : List (Entry K V)), (rehash hasher_ m n).buckets_[i]? = some b →
        ∀ e ∈ b, bucket_index hasher_ (rehash hasher_ m n) e.key = i ∧ hasher_ e.key % n = i) := by
  have hwf := wf_of_reachable h
  refine ⟨fun i b hb e he => ⟨hwf.index i b hb e he, hwf.index i b hb e he⟩, ?_⟩
  intro n hn
  obtain ⟨hlen, hidx, hperm, _⟩ := rehash_spec hasher_ m n hn
  refine ⟨hperm, hlen, ?_⟩
  intro i b hb e he
  have := hidx i b hb e he
  refine ⟨this, ?_⟩
  rw [hlen] at this
  exact this

/-- Witness of C7 on the map of size 6 with 8 buckets. -/
theorem hashmap_bucket_index_invariant_witness :
    Reachable sample_hash sample_full ∧
    ((∀ (i : Nat) (b : List (Entry Nat Nat)), sample_full.buckets_[i]? = some b →
      ∀ e ∈ b, bucket_index sample_hash sample_full e.key = i ∧
        sample_hash e.key % bucket_count sample_full = i) ∧
    (∀ n : Nat, 0 < n →
      (entries (rehash sample_hash sample_full n)).Perm (entries sample_full) ∧
      bucket_count (rehash sample_hash sample_full n) = n ∧
      ∀ (i : Nat) (b : List (Entry Nat Nat)),
        (rehash sample_hash sample_full n).buckets_[i]? = some b →
        ∀ e ∈ b, bucket_index sample_hash (rehash sample_hash sample_full n) e.key = i ∧
          sample_hash e.key % n = i)) :=
  ⟨reachable_sample_full,
    hashmap_bucket_index_invariant sample_hash sample_full reachable_sample_full⟩

/-- C8: rehash trigger: on a reachable map with size `s` and bucket count `b`, a call of
`insert_or_assign` or `operator[]` leaves the bucket count at `2 * b` when
`(s + 1) / b > 0.75`, that is `4 * (s + 1) > 3 * b`, and at `b` otherwise.  The check uses
the size before the call; the table is doubled by `maybe_rehash_for_insert`, at most once,
before the entry is added: that step keeps the size and the entries. -/
theorem hashmap_rehash_trigger [DecidableEq K] [Inhabited V] (hasher_ : K → Nat)
    (m : HashMap K V) (h : Reachable hasher_ m) (key : K) (value : V) :
    (k_max_load_factor < ((size m + 1 : Nat) : ℚ) / ((bucket_count m : Nat) : ℚ) ↔
      4 * (size m + 1) > 3 * bucket_count m) ∧
    bucket_count (insert_or_assign hasher_ m key value).1 =
      (if 4 * (size m + 1) > 3 * bucket_count m then 2 * bucket_count m else bucket_count m) ∧
    bucket_count (operator_subscript hasher_ m key).1 =
      (if 4 * (size m + 1) > 3 * bucket_count m then 2 * bucket_count m else bucket_count m) ∧
    bucket_count (maybe_rehash_for_insert hasher_ m) =
      (if 4 * (size m + 1) > 3 * bucket_count m then 2 * bucket_count m else bucket_count m) ∧
    size (maybe_rehash_for_insert hasher_ m) = size m ∧
    (entries (maybe_rehash_for_insert hasher_ m)).Perm (entries m) := by
  have hwf := wf_of_reachable h
  obtain ⟨_, _, hp, hs⟩ := wf_maybe_rehash_for_insert hwf
  have hlen := length_maybe_rehash_for_insert hasher_ m
  refine ⟨?_, ?_, ?_, hlen, hs, hp⟩
  · have hq : (0 : ℚ) < ((bucket_count m : Nat) : ℚ) := by
      have := hwf.pos
      simp only [bucket_count]
      exact_mod_cast this
    simp only [k_max_load_factor]
    rw [lt_div_iff₀ hq, Nat.cast_succ]
    constructor
    · intro hlt
      have : ((3 * bucket_count m : Nat) : ℚ) < ((4 * (size m + 1) : Nat) : ℚ) := by
        push_cast
        linarith
      exact_mod_cast this
    · intro hlt
      have : ((3 * bucket_count m : Nat) : ℚ) < ((4 * (size m + 1) : Nat) : ℚ) := by
        exact_mod_cast hlt
      push_cast at this
      linarith
  · simp only [bucket_count, size, length_insert_or_assign, hlen]
  · simp only [bucket_count, size, length_operator_subscript, hlen]

/-- Witness of C8: the seventh insert into 8 buckets doubles the table to 16. -/
theorem hashmap_rehash_trigger_witness :
    Reachable sample_hash sample_full ∧
    ((k_max_load_factor <
        ((size sample_full + 1 : Nat) : ℚ) / ((bucket_count sample_full : Nat) : ℚ) ↔
      4 * (size sample_full + 1) > 3 * bucket_count sample_full) ∧
    bucket_count (insert_or_assign sample_hash sample_full 6 106).1 =
      (if 4 * (size sample_full + 1) > 3 * bucket_count sample_full
        then 2 * bucket_count sample_full else bucket_count sample_full) ∧
    bucket_count (operator_subscript sample_hash sample_full 6).1 =
      (if 4 * (size sample_full + 1) > 3 * bucket_count sample_full
        then 2 * bucket_count sample_full else bucket_count sample_full) ∧
    bucket_count (maybe_rehash_for_insert sample_hash sample_full) =
      (if 4 * (size sample_full + 1) > 3 * bucket_count sample_full
        then 2 * bucket_count sample_full else bucket_count sample_full) ∧
    size (maybe_rehash_for_insert sample_hash sample_full) = size sample_full ∧
    (entries (maybe_rehash_for_insert sample_hash sample_full)).Perm (entries sample_full)) :=
  ⟨reachable_sample_full,
    hashmap_rehash_trigger sample_hash sample_full reachable_sample_full 6 106⟩

/-- C9: erase on a reachable map: when `k` is present `erase(k)` returns true, a second
`erase(k)` immediately after returns false, and `contains(k)` is false after the first and
after the second call; when `k` is absent `erase(k)` returns false and changes nothing;
`size()` drops by exactly 1 exactly when `erase` returns true and is unchanged otherwise. -/
theorem hashmap_erase_result [DecidableEq K] [Inhabited V] (hasher_ : K → Nat)
    (m : HashMap K V) (h : Reachable hasher_ m) (key : K) :
    (contains hasher_ m key = true ↔ key ∈ keys m) ∧
    (contains hasher_ m key = true →
      (erase hasher_ m key).2 = true ∧
      (erase hasher_ (erase hasher_ m key).1 key).2 = false ∧
      contains hasher_ (erase hasher_ m key).1 key = false ∧
      contains hasher_ (erase hasher_ (erase hasher_ m key).1 key).1 key = false) ∧
    (contains hasher_ m key = false → erase hasher_ m key = (m, false)) ∧
    ((erase hasher_ m key).2 = true ↔ size (erase hasher_ m key).1 + 1 = size m) ∧
    ((erase hasher_ m key).2 = false → size (erase hasher_ m key).1 = size m) := by
  have hwf := wf_of_reachable h
  obtain ⟨hwf1, _, hcase⟩ := erase_spec hwf key
  have hflag := erase_flag hwf key
  have hflag1 := erase_flag hwf1 key
  have hc1 : contains hasher_ (erase hasher_ m key).1 key = false := by
    rw [contains_eq_isSome, erase_get hwf key key]
    simp
  have habs : contains hasher_ m key = false → erase hasher_ m key = (m, false) := by
    intro hc
    rcases hcase with ⟨_, he⟩ | ⟨_, _, _, hf, _⟩
    · exact he
    · rw [hflag, hc] at hf
      cases hf
  refine ⟨contains_iff hwf key, ?_, habs, ?_, ?_⟩
  · intro hc
    refine ⟨by rw [hflag, hc], by rw [hflag1, hc1], hc1, ?_⟩
    rw [contains_eq_isSome, erase_get hwf1 key key]
    simp
  · constructor
    · intro hf
      rcases hcase with ⟨_, he⟩ | ⟨_, _, _, _, hs⟩
      · rw [he] at hf
        cases hf
      · exact hs
    · intro hs
      rcases hcase with ⟨_, he⟩ | ⟨_, _, _, hf, _⟩
      · rw [he] at hs
        simp only [size] at hs
        omega
      · exact hf
  · intro hf
    rw [hflag] at hf
    rw [habs hf]

/-- Witness of C9: erasing the key 1 of the map holding 1, 9 and 17. -/
theorem hashmap_erase_result_witness :
    Reachable id sample_map ∧
    ((contains id sample_map 1 = true ↔ 1 ∈ keys sample_map) ∧
    (contains id sample_map 1 = true →
      (erase id sample_map 1).2 = true ∧
      (erase id (erase id sample_map 1).1 1).2 = false ∧
      contains id (erase id sample_map 1).1 1 = false ∧
      contains id (erase id (erase id sample_map 1).1 1).1 1 = false) ∧
    (contains id sample_map 1 = false → erase id sample_map 1 = (sample_map, false)) ∧
    ((erase id sample_map 1).2 = true ↔ size (erase id sample_map 1).1 + 1 = size sample_map) ∧
    ((erase id sample_map 1).2 = false → size (erase id sample_map 1).1 = size sample_map)) :=
  ⟨reachable_sample_map, hashmap_erase_result id sample_map reachable_sample_map 1⟩

/-- C10: lookup failure modes on a reachable map: `at(k)` throws `std::out_of_range` if and
only if `k` is absent, and otherwise yields the value stored for `k`; `get(k)`, a total
function, returns the empty optional if and only if `k` is absent, and otherwise the same
stored value. -/
theorem hashmap_lookup_failure_modes [DecidableEq K] [Inhabited V] (hasher_ : K → Nat)
    (m : HashMap K V) (h : Reachable hasher_ m) (key : K) :
    (key ∉ keys m ↔ contains hasher_ m key = false) ∧
    (at_ hasher_ m key = Except.error HashMapError.out_of_range ↔ key ∉ keys m) ∧
    (get hasher_ m key = none ↔ key ∉ keys m) ∧
    (∀ value : V, at_ hasher_ m key = Except.ok value ↔
      ({ key := key, value := value } : Entry K V) ∈ entries m) ∧
    (∀ value : V, get hasher_ m key = some value ↔
      ({ key := key, value := value } : Entry K V) ∈ entries m) ∧
    (∀ value : V, at_ hasher_ m key = Except.ok value ↔ get hasher_ m key = some value) := by
  have hwf := wf_of_reachable h
  have hat := at_eq_get hasher_ m key
  have hnone := get_eq_none_iff hwf key
  have hsome := get_eq_some_iff hwf key
  refine ⟨?_, ?_, hnone, ?_, hsome, ?_⟩
  · rw [← Bool.not_eq_true, contains_iff hwf]
  · rw [← hnone, hat]
    cases get hasher_ m key <;> simp
  · intro value
    rw [← hsome, hat]
    cases get hasher_ m key <;> simp
  · intro value
    rw [hat]
    cases get hasher_ m key <;> simp

/-- Witness of C10 on the map holding 1, 9 and 17, at the absent key 2. -/
theorem hashmap_lookup_failure_modes_witness :
    Reachable id sample_map ∧
    ((2 ∉ keys sample_map ↔ contains id sample_map 2 = false) ∧
    (at_ id sample_map 2 = Except.error HashMapError.out_of_range ↔ 2 ∉ keys sample_map) ∧
    (get id sample_map 2 = none ↔ 2 ∉ keys sample_map) ∧
    (∀ value : Nat, at_ id sample_map 2 = Except.ok value ↔
      ({ key := 2, value := value } : Entry Nat Nat) ∈ entries sample_map) ∧
    (∀ value : Nat, get id sample_map 2 = some value ↔
      ({ key := 2, value := value } : Entry Nat Nat) ∈ entries sample_map) ∧
    (∀ value : Nat, at_ id sample_map 2 = Except.ok value ↔ get id sample_map 2 = some value)) :=
  ⟨reachable_sample_map, hashmap_lookup_failure_modes id sample_map reachable_sample_map 2⟩

/-- With an argument that is read intact (see `operator_subscript_ref`):
`operator[]` on a reachable map: if `k` is present it yields the existing value and
leaves `size()` and every stored value unchanged; if `k` is absent it inserts the
default-constructed value `V{}` for `k`, yields it, `get(k)` then returns `V{}`, `size()`
grows by exactly 1 and the values of all other keys are unchanged. -/
theorem hashmap_operator_subscript_result [DecidableEq K] [Inhabited V] (hasher_ : K → Nat)
    (m : HashMap K V) (h : Reachable hasher_ m) (key : K) :
    (contains hasher_ m key = true ↔ key ∈ keys m) ∧
    (contains hasher_ m key = true →
      get hasher_ m key = some (operator_subscript hasher_ m key).2 ∧
      size (operator_subscript hasher_ m key).1 = size m ∧
      ∀ key1, get hasher_ (operator_subscript hasher_ m key).1 key1 = get hasher_ m key1) ∧
    (contains hasher_ m key = false →
      (operator_subscript hasher_ m key).2 = default ∧
      get hasher_ (operator_subscript hasher_ m key).1 key = some default ∧
      size (operator_subscript hasher_ m key).1 = size m + 1 ∧
      ∀ key1, key1 ≠ key →
        get hasher_ (operator_subscript hasher_ m key).1 key1 = get hasher_ m key1) := by
  have hwf := wf_of_reachable h
  have hval := operator_subscript_value hwf key
  have hget := operator_subscript_get hwf key
  obtain ⟨_, hcase⟩ := operator_subscript_spec hwf key
  refine ⟨contains_iff hwf key, ?_, ?_⟩
  · intro hc
    have hk : key ∈ keys m := (contains_iff hwf key).1 hc
    rw [contains_eq_isSome] at hc
    cases hg : get hasher_ m key with
    | none => simp [hg] at hc
    | some v =>
      have hv : (operator_subscript hasher_ m key).2 = v := by simp [hval, hg]
      refine ⟨by rw [hv], ?_, ?_⟩
      · rcases hcase with ⟨hn, _⟩ | ⟨_, _, _, _, _, hs⟩
        · exact absurd hk hn
        · exact hs
      · intro key1
        rw [hget key1]
        by_cases hk1 : key1 = key
        · subst hk1
          simp [hv, hg]
        · simp [hk1]
  · intro hc
    have hk : key ∉ keys m := by
      rw [← contains_iff hwf key, hc]
      simp
    have hg : get hasher_ m key = none := (get_eq_none_iff hwf key).2 hk
    have hv : (operator_subscript hasher_ m key).2 = default := by simp [hval, hg]
    refine ⟨hv, ?_, ?_, ?_⟩
    · rw [hget key, hv]
      simp
    · rcases hcase with ⟨_, _, _, hs⟩ | ⟨e0, he0, hk0, _⟩
      · exact hs
      · exact absurd (List.mem_map.2 ⟨e0, he0, hk0⟩) hk
    · intro key1 hk1
      rw [hget key1]
      simp [hk1]

/-- An instance on the map of size 6 with 8 buckets, at the absent key 6. -/
theorem hashmap_operator_subscript_result_witness :
    Reachable sample_hash sample_full ∧
    ((contains sample_hash sample_full 6 = true ↔ 6 ∈ keys sample_full) ∧
    (contains sample_hash sample_full 6 = true →
      get sample_hash sample_full 6 = some (operator_subscript sample_hash sample_full 6).2 ∧
      size (operator_subscript sample_hash sample_full 6).1 = size sample_full ∧
      ∀ key1, get sample_hash (operator_subscript sample_hash sample_full 6).1 key1 =
        get sample_hash sample_full key1) ∧
    (contains sample_hash sample_full 6 = false →
      (operator_subscript sample_hash sample_full 6).2 = default ∧
      get sample_hash (operator_subscript sample_hash sample_full 6).1 6 = some default ∧
      size (operator_subscript sample_hash sample_full 6).1 = size sample_full + 1 ∧
      ∀ key1, key1 ≠ 6 →
        get sample_hash (operator_subscript sample_hash sample_full 6).1 key1 =
          get sample_hash sample_full key1)) :=
  ⟨reachable_sample_full,
    hashmap_operator_subscript_result sample_hash sample_full reachable_sample_full 6⟩

/-- C12: after `clear()` on any map, whatever its bucket count, the table has exactly 8
buckets, all empty, `size()` is 0, `empty()` is true and `contains(k)` is false for every
key `k`. -/
theorem hashmap_clear_result [DecidableEq K] (hasher_ : K → Nat) (m : HashMap K V) :
    bucket_count (clear m) = 8 ∧
    (∀ b ∈ (clear m).buckets_, b = []) ∧
    size (clear m) = 0 ∧
    empty (clear m) = true ∧
    ∀ key, contains hasher_ (clear m) key = false := by
  refine ⟨rfl, ?_, rfl, rfl, ?_⟩
  · intro b hb
    exact List.eq_of_mem_replicate hb
  · intro key
    have hwf := wf_clear hasher_ m
    rw [← Bool.not_eq_true, contains_iff hwf]
    simp [keys, entries, clear]

/-- C13: `erase` never changes the bucket count: for every map and key, present or absent,
the number of buckets after `erase(k)` equals the number before. -/
theorem hashmap_erase_keeps_bucket_count [DecidableEq K] (hasher_ : K → Nat) (m : HashMap K V)
    (key : K) :
    bucket_count (erase hasher_ m key).1 = bucket_count m := by
  unfold erase bucket_count
  simp only
  split <;> simp

/-- C14: in every reachable state the bucket count is `8 * 2^k` for some `k`, hence never 0:
`bucket_index` is a remainder by a positive number and lies below the bucket count, the
zero-bucket branch of `load_factor` is not taken, and `load_factor()` equals
`size / bucket_count`. -/
theorem hashmap_bucket_count_power_of_two [DecidableEq K] [Inhabited V] (hasher_ : K → Nat)
    (m : HashMap K V) (h : Reachable hasher_ m) :
    (∃ k : Nat, bucket_count m = 8 * 2 ^ k) ∧
    0 < bucket_count m ∧
    (∀ key, bucket_index hasher_ m key < bucket_count m) ∧
    m.buckets_.isEmpty = false ∧
    load_factor m = (size m : ℚ) / (bucket_count m : ℚ) := by
  have hwf := wf_of_reachable h
  have hne : m.buckets_.isEmpty = false := by
    cases hb : m.buckets_ with
    | nil =>
      have := hwf.pos
      simp [hb] at this
    | cons x xs => rfl
  refine ⟨hwf.count, hwf.pos, fun key => Nat.mod_lt _ hwf.pos, hne, ?_⟩
  simp [load_factor, hne, size, bucket_count]

/-- Witness of C14 on the map of size 6 with 8 buckets. -/
theorem hashmap_bucket_count_power_of_two_witness :
    Reachable sample_hash sample_full ∧
    ((∃ k : Nat, bucket_count sample_full = 8 * 2 ^ k) ∧
    0 < bucket_count sample_full ∧
    (∀ key, bucket_index sample_hash sample_full key < bucket_count sample_full) ∧
    sample_full.buckets_.isEmpty = false ∧
    load_factor sample_full = (size sample_full : ℚ) / (bucket_count sample_full : ℚ)) :=
  ⟨reachable_sample_full,
    hashmap_bucket_count_power_of_two sample_hash sample_full reachable_sample_full⟩

theorem get_default_map [DecidableEq K] (hasher_ : K → Nat) (key : K) :
    get hasher_ (default_map : HashMap K V) key = none :=
  (get_eq_none_iff (wf_default_map hasher_) key).2 (by simp [keys, entries, default_map])

theorem scenario_map_facts (hasher_ : String → Nat) :
    WF hasher_ (scenario_map hasher_) ∧
    (scenario_map hasher_).size_ = 3 ∧
    ∀ key, get hasher_ (scenario_map hasher_) key =
      if key = key_c then some 3 else if key = key_b then some 2
      else if key = key_a then some 1 else none := by
  have w0 : WF hasher_ (default_map : HashMap String Int) := wf_default_map hasher_
  have w1 := (insert_or_assign_spec w0 key_a 1).1
  have w2 := (insert_or_assign_spec w1 key_b 2).1
  have w3 := (insert_or_assign_spec w2 key_c 3).1
  have g1 : ∀ key, get hasher_ (insert_or_assign hasher_ default_map key_a (1 : Int)).1 key =
      if key = key_a then some 1 else none := by
    intro key
    rw [insert_or_assign_get w0, get_default_map]
  have g2 : ∀ key, get hasher_
      (insert_or_assign hasher_ (insert_or_assign hasher_ default_map key_a (1 : Int)).1
        key_b 2).1 key =
      if key = key_b then some 2 else if key = key_a then some 1 else none := by
    intro key
    rw [insert_or_assign_get w1, g1]
  have s1 := insert_or_assign_size w0 key_a (1 : Int)
  have s2 := insert_or_assign_size w1 key_b (2 : Int)
  have s3 := insert_or_assign_size w2 key_c (3 : Int)
  rw [contains_eq_isSome, get_default_map] at s1
  rw [contains_eq_isSome, g1] at s2
  rw [contains_eq_isSome, g2] at s3
  have hba : key_b ≠ key_a := by decide
  have hcb : key_c ≠ key_b := by decide
  have hca : key_c ≠ key_a := by decide
  simp only [hba, hcb, hca, if_false, Option.isSome_none, Bool.false_eq_true] at s1 s2 s3
  unfold scenario_map
  refine ⟨w3, ?_, ?_⟩
  · rw [s3, s2, s1]
    rfl
  · intro key
    rw [insert_or_assign_get w2, g2]

/-- C15: the concrete scenario, for every hash function: starting from a default map, after
inserting ("a", 1), ("b", 2), ("c", 3): `size() == 3` and `get("b") == 2`; then `erase("b")`
returns true, `size() == 2`, `contains("b")` is false and `at("b")` throws key-not-found. -/
theorem hashmap_concrete_scenario (hasher_ : String → Nat) :
    size (scenario_map hasher_) = 3 ∧
    get hasher_ (scenario_map hasher_) key_b = some 2 ∧
    (erase hasher_ (scenario_map hasher_) key_b).2 = true ∧
    size (erase hasher_ (scenario_map hasher_) key_b).1 = 2 ∧
    contains hasher_ (erase hasher_ (scenario_map hasher_) key_b).1 key_b = false ∧
    at_ hasher_ (erase hasher_ (scenario_map hasher_) key_b).1 key_b =
      Except.error HashMapError.out_of_range := by
  obtain ⟨hwf, hsize, hget⟩ := scenario_map_facts hasher_
  have hb : get hasher_ (scenario_map hasher_) key_b = some 2 := by
    rw [hget]
    have hbc : key_b ≠ key_c := by decide
    simp [hbc]
  have hc : contains hasher_ (scenario_map hasher_) key_b = true := by
    rw [contains_eq_isSome, hb]
    rfl
  have hflag := erase_flag hwf key_b
  rw [hc] at hflag
  have hg := erase_get hwf key_b key_b
  simp only [if_true] at hg
  obtain ⟨_, _, hcase⟩ := erase_spec hwf key_b
  refine ⟨hsize, hb, hflag, ?_, ?_, ?_⟩
  · rcases hcase with ⟨_, he⟩ | ⟨_, _, _, _, hs⟩
    · rw [he] at hflag
      cases hflag
    · simp only [size]
      omega
  · rw [contains_eq_isSome, hg]
    rfl
  · rw [at_eq_get, hg]

end HashMap

end exemplar

/-! ## The heap order -/

namespace exemplar

namespace Heap

variable {T : Type}

theorem heap_getElem?_swap_at (data : List T) (i j k : Nat) (hi : i < data.length)
    (hj : j < data.length) :
    (swap_at data i j)[k]? =
      if k = j then data[i]? else if k = i then data[j]? else data[k]? := by
  unfold swap_at
  rw [List.getElem?_eq_getElem hi, List.getElem?_eq_getElem hj]
  simp only [List.getElem?_set, List.length_set]
  by_cases hkj : k = j
  · subst hkj
    simp [hj]
  · by_cases hki : k = i
    · subst hki
      simp [hkj, hi, Ne.symm hkj]
    · simp [hkj, hki, Ne.symm hkj, Ne.symm hki]

theorem heap_compare_at_less [LinearOrder T] (data : List T) (i j : Nat) (a b : T)
    (hi : data[i]? = some a) (hj : data[j]? = some b) :
    compare_at less data i j = true ↔ a < b := by
  simp [compare_at, hi, hj, less]

theorem lt_length_of_getElem? (data : List T) (i : Nat) (a : T) (h : data[i]? = some a) :
    i < data.length :=
  (List.getElem?_eq_some_iff.1 h).1

theorem heap_upInv_swap [LinearOrder T] (data : List T) (c : Nat) (x y : T) (hc0 : 0 < c)
    (hx : data[c]? = some x) (hy : data[(c - 1) / 2]? = some y) (hlt : x < y)
    (hinv : UpInv data c) : UpInv (swap_at data c ((c - 1) / 2)) ((c - 1) / 2) := by
  have hcl := lt_length_of_getElem? data c x hx
  have hpl := lt_length_of_getElem? data _ y hy
  have hpc : (c - 1) / 2 < c := by omega
  obtain ⟨h1, h2⟩ := hinv
  constructor
  · intro i a b hi0 hip ha hb
    rw [heap_getElem?_swap_at data c _ _ hcl hpl] at ha hb
    by_cases hic : i = c
    · subst hic
      simp only [hip, if_false, if_true] at ha
      simp only [if_true] at hb
      rw [hy] at ha
      rw [hx] at hb
      cases ha
      cases hb
      exact le_of_lt hlt
    · simp only [hip, hic, if_false] at ha
      by_cases hq : (i - 1) / 2 = (c - 1) / 2
      · simp only [hq, if_true] at hb
        rw [hx] at hb
        cases hb
        have := h1 i a y hi0 hic ha (by rw [hq]; exact hy)
        exact le_trans (le_of_lt hlt) this
      · simp only [hq, if_false] at hb
        by_cases hqc : (i - 1) / 2 = c
        · simp only [hqc, if_true] at hb
          exact h2 i a b hc0 hi0 hqc ha hb
        · simp only [hqc, if_false] at hb
          exact h1 i a b hi0 hic ha hb
  · intro i a b hp0 hi0 hip ha hb
    rw [heap_getElem?_swap_at data c _ _ hcl hpl] at ha hb
    have hg1 : ((c - 1) / 2 - 1) / 2 ≠ (c - 1) / 2 := by omega
    have hg2 : ((c - 1) / 2 - 1) / 2 ≠ c := by omega
    simp only [hg1, hg2, if_false] at hb
    have hpy : b ≤ y := h1 _ y b hp0 (by omega) hy hb
    have hne : i ≠ (c - 1) / 2 := by omega
    by_cases hic : i = c
    · subst hic
      simp only [hne, if_false, if_true] at ha
      rw [hy] at ha
      cases ha
      exact hpy
    · simp only [hne, hic, if_false] at ha
      have := h1 i a y hi0 hic ha (by rw [hip]; exact hy)
      exact le_trans hpy this

theorem heap_sift_up_ordered [LinearOrder T] (c : Nat) :
    ∀ data : List T, c < data.length → UpInv data c → HeapOrdered (sift_up less data c) := by
  induction c using Nat.strong_induction_on with
  | _ c ih =>
    intro data hcl hinv
    rw [sift_up]
    by_cases hc0 : c > 0
    · simp only [hc0, if_true]
      have hpl : (c - 1) / 2 < data.length := by omega
      have hx := List.getElem?_eq_getElem hcl
      have hy := List.getElem?_eq_getElem hpl
      by_cases hcmp : compare_at less data c ((c - 1) / 2) = true
      · simp only [hcmp, Bool.not_true, Bool.false_eq_true, if_false]
        have hlt := (heap_compare_at_less data c _ _ _ hx hy).1 hcmp
        refine ih _ (by omega) _ (by rw [heap_length_swap_at]; exact hpl)
          (heap_upInv_swap data c _ _ hc0 hx hy hlt hinv)
      · simp only [hcmp, Bool.not_false, if_true]
        intro i a b hi0 ha hb
        by_cases hic : i = c
        · subst hic
          rw [hx] at ha
          rw [hy] at hb
          cases ha
          cases hb
          have := (heap_compare_at_less data i _ _ _ hx hy).not.1 hcmp
          exact not_lt.1 this
        · exact hinv.1 i a b hi0 hic ha hb
    · simp only [hc0, if_false]
      intro i a b hi0 ha hb
      exact hinv.1 i a b hi0 (by omega) ha hb

theorem heap_compare_at_eq [LinearOrder T] (data : List T) (i j : Nat) (hi : i < data.length)
    (hj : j < data.length) :
    compare_at less data i j = decide (data[i] < data[j]) := by
  simp [compare_at, List.getElem?_eq_getElem hi, List.getElem?_eq_getElem hj, less]

theorem heap_best_index_spec [LinearOrder T] (data : List T) (p : Nat) (hp : p < data.length) :
    (best_index less data p = p ∨ best_index less data p = 2 * p + 1 ∨
      best_index less data p = 2 * p + 2) ∧
    best_index less data p < data.length ∧
    (∀ j vb vj, data[best_index less data p]? = some vb →
      (j = p ∨ j = 2 * p + 1 ∨ j = 2 * p + 2) → data[j]? = some vj → vb ≤ vj) ∧
    (best_index less data p ≠ p → ∀ vb vp, data[best_index less data p]? = some vb →
      data[p]? = some vp → vb < vp) := by
  by_cases hl : 2 * p + 1 < data.length
  · by_cases hr : 2 * p + 2 < data.length
    · by_cases c1 : data[2 * p + 1] < data[p]
      · by_cases c2 : data[2 * p + 2] < data[2 * p + 1]
        · have hbest : best_index less data p = 2 * p + 2 := by
            unfold best_index
            simp [heap_compare_at_eq data _ _ hl hp, heap_compare_at_eq data _ _ hr hl,
              heap_compare_at_eq data _ _ hr hp, hl, hr, c1, c2]
          rw [hbest]
          refine ⟨Or.inr (Or.inr rfl), hr, ?_, ?_⟩
          · intro j vb vj hvb hj hvj
            rw [List.getElem?_eq_getElem hr] at hvb
            cases hvb
            rcases hj with rfl | rfl | rfl
            · rw [List.getElem?_eq_getElem hp] at hvj
              cases hvj
              exact (le_of_lt (lt_trans c2 c1))
            · rw [List.getElem?_eq_getElem hl] at hvj
              cases hvj
              exact (le_of_lt c2)
            · rw [List.getElem?_eq_getElem hr] at hvj
              cases hvj
              exact (le_refl _)
          · intro _ vb vp hvb hvp
            rw [List.getElem?_eq_getElem hr] at hvb
            rw [List.getElem?_eq_getElem hp] at hvp
            cases hvb
            cases hvp
            exact (lt_trans c2 c1)
        · have hbest : best_index less data p = 2 * p + 1 := by
            unfold best_index
            simp [heap_compare_at_eq data _ _ hl hp, heap_compare_at_eq data _ _ hr hl,
              heap_compare_at_eq data _ _ hr hp, hl, hr, c1, c2]
          rw [hbest]
          refine ⟨Or.inr (Or.inl rfl), hl, ?_, ?_⟩
          · intro j vb vj hvb hj hvj
            rw [List.getElem?_eq_getElem hl] at hvb
            cases hvb
            rcases hj with rfl | rfl | rfl
            · rw [List.getElem?_eq_getElem hp] at hvj
              cases hvj
              exact (le_of_lt c1)
            · rw [List.getElem?_eq_getElem hl] at hvj
              cases hvj
              exact (le_refl _)
            · rw [List.getElem?_eq_getElem hr] at hvj
              cases hvj
              exact (not_lt.1 c2)
          · intro _ vb vp hvb hvp
            rw [List.getElem?_eq_getElem hl] at hvb
            rw [List.getElem?_eq_getElem hp] at hvp
            cases hvb
            cases hvp
            exact c1
      · by_cases c2 : data[2 * p + 2] < data[p]
        · have hbest : best_index less data p = 2 * p + 2 := by
            unfold best_index
            simp [heap_compare_at_eq data _ _ hl hp, heap_compare_at_eq data _ _ hr hl,
              heap_compare_at_eq data _ _ hr hp, hl, hr, c1, c2]
          rw [hbest]
          refine ⟨Or.inr (Or.inr rfl), hr, ?_, ?_⟩
          · intro j vb vj hvb hj hvj
            rw [List.getElem?_eq_getElem hr] at hvb
            cases hvb
            rcases hj with rfl | rfl | rfl
            · rw [List.getElem?_eq_getElem hp] at hvj
              cases hvj
              exact (le_of_lt c2)
            · rw [List.getElem?_eq_getElem hl] at hvj
              cases hvj
              exact (le_trans (le_of_lt c2) (not_lt.1 c1))
            · rw [List.getElem?_eq_getElem hr] at hvj
              cases hvj
              exact (le_refl _)
          · intro _ vb vp hvb hvp
            rw [List.getElem?_eq_getElem hr] at hvb
            rw [List.getElem?_eq_getElem hp] at hvp
            cases hvb
            cases hvp
            exact c2
        · have hbest : best_index less data p = p := by
            unfold best_index
            simp [heap_compare_at_eq data _ _ hl hp, heap_compare_at_eq data _ _ hr hl,
              heap_compare_at_eq data _ _ hr hp, hl, hr, c1, c2]
          rw [hbest]
          refine ⟨Or.inl rfl, hp, ?_, fun hne => absurd rfl hne⟩
          intro j vb vj hvb hj hvj
          rw [List.getElem?_eq_getElem hp] at hvb
          cases hvb
          rcases hj with rfl | rfl | rfl
          · rw [List.getElem?_eq_getElem hp] at hvj
            cases hvj
            exact (le_refl _)
          · rw [List.getElem?_eq_getElem hl] at hvj
            cases hvj
            exact (not_lt.1 c1)
          · rw [List.getElem?_eq_getElem hr] at hvj
            cases hvj
            exact (not_lt.1 c2)
    · by_cases c1 : data[2 * p + 1] < data[p]
      · have hbest : best_index less data p = 2 * p + 1 := by
          unfold best_index
          simp [heap_compare_at_eq data _ _ hl hp, hl, hr, c1]
        rw [hbest]
        refine ⟨Or.inr (Or.inl rfl), hl, ?_, ?_⟩
        · intro j vb vj hvb hj hvj
          rw [List.getElem?_eq_getElem hl] at hvb
          cases hvb
          rcases hj with rfl | rfl | rfl
          · rw [List.getElem?_eq_getElem hp] at hvj
            cases hvj
            exact (le_of_lt c1)
          · rw [List.getElem?_eq_getElem hl] at hvj
            cases hvj
            exact (le_refl _)
          · exact (absurd (lt_length_of_getElem? data _ vj hvj) hr)
        · intro _ vb vp hvb hvp
          rw [List.getElem?_eq_getElem hl] at hvb
          rw [List.getElem?_eq_getElem hp] at hvp
          cases hvb
          cases hvp
          exact c1
      · have hbest : best_index less data p = p := by
          unfold best_index
          simp [heap_compare_at_eq data _ _ hl hp, hl, hr, c1]
        rw [hbest]
        refine ⟨Or.inl rfl, hp, ?_, fun hne => absurd rfl hne⟩
        intro j vb vj hvb hj hvj
        rw [List.getElem?_eq_getElem hp] at hvb
        cases hvb
        rcases hj with rfl | rfl | rfl
        · rw [List.getElem?_eq_getElem hp] at hvj
          cases hvj
          exact (le_refl _)
        · rw [List.getElem?_eq_getElem hl] at hvj
          cases hvj
          exact (not_lt.1 c1)
        · exact (absurd (lt_length_of_getElem? data _ vj hvj) hr)
  · have hr : ¬ 2 * p + 2 < data.length := by omega
    have hbest : best_index less data p = p := by
      unfold best_index
      simp [hl, hr]
    rw [hbest]
    refine ⟨Or.inl rfl, hp, ?_, fun hne => absurd rfl hne⟩
    intro j vb vj hvb hj hvj
    rw [List.getElem?_eq_getElem hp] at hvb
    cases hvb
    rcases hj with rfl | rfl | rfl
    · rw [List.getElem?_eq_getElem hp] at hvj
      cases hvj
      exact (le_refl _)
    · exact (absurd (lt_length_of_getElem? data _ vj hvj) hl)
    · exact (absurd (lt_length_of_getElem? data _ vj hvj) hr)

theorem heap_downInv_swap [LinearOrder T] (data : List T) (p : Nat) (hp : p < data.length)
    (hne : best_index less data p ≠ p) (hinv : DownInv data p) :
    DownInv (swap_at data p (best_index less data p)) (best_index less data p) := by
  obtain ⟨hcases, hbl, hmin, hlt⟩ := heap_best_index_spec data p hp
  have hlt := hlt hne
  obtain ⟨h1, h2⟩ := hinv
  have hchild : (best_index less data p - 1) / 2 = p ∧ 0 < best_index less data p := by
    rcases hcases with h | h | h
    · exact absurd h hne
    · rw [h]
      omega
    · rw [h]
      omega
  generalize best_index less data p = best at *
  have hvb := List.getElem?_eq_getElem hbl
  have hvp := List.getElem?_eq_getElem hp
  constructor
  · intro i a b hi0 hq ha hb
    rw [heap_getElem?_swap_at data p best _ hp hbl] at ha hb
    by_cases hib : i = best
    · subst hib
      simp only [if_true] at ha
      have hpp : (i - 1) / 2 = p := hchild.1
      have hpi : p ≠ i := by omega
      simp only [hpp, hpi, if_false, if_true] at hb
      rw [hvp] at ha
      rw [hvb] at hb
      cases ha
      cases hb
      exact le_of_lt (hlt _ _ hvb hvp)
    · simp only [hib, if_false] at ha
      simp only [hq, if_false] at hb
      by_cases hip : i = p
      · subst hip
        simp only [if_true] at ha
        have hg : (i - 1) / 2 ≠ i := by omega
        simp only [hg, if_false] at hb
        exact h2 best a b hi0 hchild.2 hchild.1 ha hb
      · simp only [hip, if_false] at ha
        by_cases hqp : (i - 1) / 2 = p
        · simp only [hqp, if_true] at hb
          exact hmin i b a hb (by omega) ha
        · simp only [hqp, if_false] at hb
          exact h1 i a b hi0 hqp ha hb
  · intro i a b hb0 hi0 hq ha hb
    rw [heap_getElem?_swap_at data p best _ hp hbl] at ha hb
    have hpb : p ≠ best := by omega
    simp only [hchild.1, hpb, if_false, if_true] at hb
    have hib : i ≠ best := by omega
    have hip : i ≠ p := by omega
    simp only [hib, hip, if_false] at ha
    exact h1 i a b hi0 (by omega) ha (by rw [hq]; exact hb)

theorem heap_sift_down_ordered [LinearOrder T] (k : Nat) :
    ∀ (data : List T) (p : Nat), data.length - p = k → p < data.length → DownInv data p →
      HeapOrdered (sift_down less data p) := by
  induction k using Nat.strong_induction_on with
  | _ k ih =>
    intro data p hk hp hinv
    rw [sift_down]
    by_cases hb : best_index less data p = p
    · simp only [hb, if_true]
      obtain ⟨_, _, hmin, _⟩ := heap_best_index_spec data p hp
      rw [hb] at hmin
      intro i a b hi0 ha hq
      by_cases hqp : (i - 1) / 2 = p
      · rw [hqp] at hq
        exact hmin i b a hq (by omega) ha
      · exact hinv.1 i a b hi0 hqp ha hq
    · simp only [hb, if_false]
      have hbounds := heap_best_index_bounds less data p hb
      exact ih (data.length - best_index less data p) (by omega) _ _
        (by rw [heap_length_swap_at]) (by rw [heap_length_swap_at]; exact hbounds.2)
        (heap_downInv_swap data p hp hb hinv)

theorem heapOrdered_root_le [LinearOrder T] (data : List T) (hord : HeapOrdered data)
    (x : T) (hx : data[0]? = some x) : ∀ y ∈ data, x ≤ y := by
  have key : ∀ i : Nat, ∀ y, data[i]? = some y → x ≤ y := by
    intro i
    induction i using Nat.strong_induction_on with
    | _ i ih =>
      intro y hy
      by_cases hi : i = 0
      · subst hi
        rw [hx] at hy
        cases hy
        exact le_refl _
      · have hil := lt_length_of_getElem? data i y hy
        have hpl : (i - 1) / 2 < data.length := by omega
        have hp := List.getElem?_eq_getElem hpl
        exact le_trans (ih _ (by omega) _ hp) (hord i y _ (by omega) hy hp)
  intro y hy
  obtain ⟨i, hi, rfl⟩ := List.mem_iff_getElem.1 hy
  exact key i _ (List.getElem?_eq_getElem hi)

theorem heapOrdered_push [LinearOrder T] (h : Heap T) (value : T) (hord : HeapOrdered h.data_) :
    HeapOrdered (push less h value).data_ := by
  unfold push
  simp only [List.length_append, List.length_singleton, Nat.add_sub_cancel]
  apply heap_sift_up_ordered
  · simp
  · constructor
    · intro i a b hi0 hin ha hb
      have hil := lt_length_of_getElem? _ i a ha
      simp only [List.length_append, List.length_singleton] at hil
      have hi : i < h.data_.length := by omega
      rw [List.getElem?_append_left hi] at ha
      rw [List.getElem?_append_left (by omega)] at hb
      exact hord i a b hi0 ha hb
    · intro i a b _ hi0 hq ha _
      have hil := lt_length_of_getElem? _ i a ha
      simp only [List.length_append, List.length_singleton] at hil
      omega

theorem heapOrdered_pop [LinearOrder T] (h h1 : Heap T) (hord : HeapOrdered h.data_)
    (hpop : pop less h = Except.ok h1) : HeapOrdered h1.data_ := by
  unfold pop at hpop
  by_cases he : h.data_.isEmpty = true
  · simp [he] at hpop
  · simp only [he, if_false] at hpop
    have hpos : 0 < h.data_.length := by
      cases hd : h.data_ with
      | nil => simp [hd] at he
      | cons x xs => simp
    have hget : ∀ k : Nat,
        ((swap_at h.data_ 0 (h.data_.length - 1)).dropLast)[k]? =
          if k < h.data_.length - 1 then
            (if k = 0 then h.data_[h.data_.length - 1]? else h.data_[k]?)
          else none := by
      intro k
      rw [List.dropLast_eq_take, List.getElem?_take, heap_length_swap_at]
      by_cases hk : k < h.data_.length - 1
      · simp only [hk, if_true]
        rw [heap_getElem?_swap_at _ _ _ _ hpos (by omega)]
        have hkl : k ≠ h.data_.length - 1 := by omega
        simp only [hkl, if_false]
      · simp only [hk, if_false]
    have hinv : DownInv ((swap_at h.data_ 0 (h.data_.length - 1)).dropLast) 0 := by
      constructor
      · intro i a b hi0 hq ha hb
        rw [hget] at ha hb
        have hi1 : i ≠ 0 := by omega
        by_cases hil : i < h.data_.length - 1
        · have hql : (i - 1) / 2 < h.data_.length - 1 := by omega
          simp only [hil, hi1, if_true, if_false] at ha
          simp only [hql, hq, if_true, if_false] at hb
          exact hord i a b hi0 ha hb
        · simp only [hil, if_false] at ha
          cases ha
      · intro i a b h0
        omega
    by_cases hne : ((swap_at h.data_ 0 (h.data_.length - 1)).dropLast).isEmpty = true
    · simp only [hne, Bool.not_true, Bool.false_eq_true, if_false, Except.ok.injEq] at hpop
      subst hpop
      intro i a b hi0 ha hb
      have : (swap_at h.data_ 0 (h.data_.length - 1)).dropLast = [] := by
        simpa using hne
      simp [this] at ha
    · simp only [hne, Bool.not_false, if_true, Bool.false_eq_true, if_false,
        Except.ok.injEq] at hpop
      subst hpop
      apply heap_sift_down_ordered _ _ _ rfl _ hinv
      cases hd : (swap_at h.data_ 0 (h.data_.length - 1)).dropLast with
      | nil => simp [hd] at hne
      | cons x xs => simp

theorem heap_ordered_of_reachable [LinearOrder T] (h : Heap T) (hr : Reachable less h) :
    HeapOrdered h.data_ := by
  induction hr with
  | construct =>
    intro i a b _ ha
    simp [default_heap] at ha
  | push h value _ ih => exact heapOrdered_push h value ih
  | emplace h value _ ih => exact heapOrdered_push h value ih
  | pop h h1 _ hpop ih => exact heapOrdered_pop h h1 ih hpop
  | clear h _ _ =>
    intro i a b _ ha
    simp [clear] at ha

theorem reachable_sample_heap : Reachable less sample_heap :=
  Reachable.push _ 1 (Reachable.push _ 8 (Reachable.push _ 3 (Reachable.push _ 5
    Reachable.construct)))

theorem sample_heap_data : sample_heap.data_ = [1, 3, 8, 5] := by
  simp [sample_heap, default_heap, push, sift_up, compare_at, swap_at, less]

/-- C16: with the default `std::less` comparison the heap is a min-heap: on every non-empty
heap reachable from the empty heap by `push`, `emplace`, `pop` (and `clear`), `top()`
returns an element of the heap that no element of the heap compares before. -/
theorem heap_top_is_minimum [LinearOrder T] (h : Heap T) (hr : Reachable less h)
    (hne : empty h = false) :
    ∃ x, top h = Except.ok x ∧ x ∈ h.data_ ∧
      (∀ y ∈ h.data_, less y x = false) ∧ (∀ y ∈ h.data_, x ≤ y) := by
  have hord := heap_ordered_of_reachable h hr
  cases hd : h.data_ with
  | nil => simp [empty, hd] at hne
  | cons x xs =>
    have hx : h.data_[0]? = some x := by simp [hd]
    have hmin := heapOrdered_root_le h.data_ hord x hx
    rw [hd] at hmin
    refine ⟨x, by simp [top, hd], List.mem_cons_self _ _, ?_, hmin⟩
    intro y hy
    simpa [less] using hmin y hy

/-- Witness of C16 on the heap holding 5, 3, 8 and 1. -/
theorem heap_top_is_minimum_witness :
    (Reachable less sample_heap ∧ empty sample_heap = false) ∧
    ∃ x, top sample_heap = Except.ok x ∧ x ∈ sample_heap.data_ ∧
      (∀ y ∈ sample_heap.data_, less y x = false) ∧ (∀ y ∈ sample_heap.data_, x ≤ y) :=
  ⟨⟨reachable_sample_heap, by simp [empty, sample_heap_data]⟩,
    heap_top_is_minimum sample_heap reachable_sample_heap (by simp [empty, sample_heap_data])⟩

end Heap

end exemplar

/-! ## The search-tree order -/

namespace exemplar

namespace BinarySearchTree

variable {T : Type}

theorem bst_in_order_impl_eq (n : Node T) (out : List T) : in_order_impl n out = out ++ flat n := by
  induction n generalizing out with
  | null => simp [in_order_impl, flat]
  | node v left right ihl ihr => simp [in_order_impl, flat, ihl, ihr]

theorem bst_in_order_eq_flat (t : BinarySearchTree T) : in_order t = flat t.root_ := by
  simp [in_order, bst_in_order_impl_eq]

theorem bst_less_iff [LinearOrder T] (a b : T) : less a b = true ↔ a < b := by
  simp [less]

theorem bst_sorted_node [LinearOrder T] (v : T) (left right : Node T) :
    (flat (Node.node v left right)).Pairwise (fun a b => a < b) ↔
      (flat left).Pairwise (fun a b => a < b) ∧ (flat right).Pairwise (fun a b => a < b) ∧
      (∀ x ∈ flat left, x < v) ∧ (∀ y ∈ flat right, v < y) := by
  simp only [flat, List.pairwise_append, List.pairwise_cons, List.mem_cons]
  constructor
  · rintro ⟨hl, ⟨hv, hr⟩, hx⟩
    exact ⟨hl, hr, fun x hx1 => hx x hx1 v (Or.inl rfl), hv⟩
  · rintro ⟨hl, hr, hlv, hvr⟩
    refine ⟨hl, ⟨hvr, hr⟩, ?_⟩
    intro x hx y hy
    rcases hy with rfl | hy
    · exact hlv x hx
    · exact lt_trans (hlv x hx) (hvr y hy)

theorem bst_contains_loop_iff [LinearOrder T] (n : Node T) (value : T)
    (hs : (flat n).Pairwise (fun a b => a < b)) :
    contains_loop less n value = true ↔ value ∈ flat n := by
  induction n with
  | null => simp [contains_loop, flat]
  | node v left right ihl ihr =>
    obtain ⟨hl, hr, hlv, hvr⟩ := (bst_sorted_node v left right).1 hs
    simp only [contains_loop, flat, List.mem_append, List.mem_cons]
    by_cases h1 : value < v
    · simp only [(bst_less_iff value v).2 h1, if_true, ihl hl]
      constructor
      · exact Or.inl
      · rintro (h | rfl | h)
        · exact h
        · exact absurd h1 (lt_irrefl _)
        · exact absurd (lt_trans h1 (hvr _ h)) (lt_irrefl _)
    · have h1f : less value v = false := by simpa [less] using h1
      by_cases h2 : v < value
      · simp only [h1f, (bst_less_iff v value).2 h2, if_true, Bool.false_eq_true, if_false,
          ihr hr]
        constructor
        · exact fun h => Or.inr (Or.inr h)
        · rintro (h | rfl | h)
          · exact absurd (lt_trans (hlv _ h) h2) (lt_irrefl _)
          · exact absurd h2 (lt_irrefl _)
          · exact h
      · have h2f : less v value = false := by simpa [less] using h2
        have : value = v := le_antisymm (not_lt.1 h2) (not_lt.1 h1)
        subst this
        simp [h1f]

theorem bst_insert_impl_spec [LinearOrder T] (n : Node T) (size_ : Nat) (value : T)
    (hs : (flat n).Pairwise (fun a b => a < b)) :
    ((insert_impl less n size_ value).2.2 = true ↔ value ∉ flat n) ∧
    (value ∉ flat n →
      (insert_impl less n size_ value).2.1 = size_ + 1 ∧
      ∃ l1 l2, flat n = l1 ++ l2 ∧
        flat (insert_impl less n size_ value).1 = l1 ++ value :: l2) ∧
    (value ∈ flat n → insert_impl less n size_ value = (n, size_, false)) := by
  induction n with
  | null =>
    simp only [insert_impl, flat]
    exact ⟨by simp, fun _ => ⟨trivial, [], [], rfl, rfl⟩, by simp⟩
  | node v left right ihl ihr =>
    obtain ⟨hl, hr, hlv, hvr⟩ := (bst_sorted_node v left right).1 hs
    obtain ⟨il1, il2, il3⟩ := ihl hl
    obtain ⟨ir1, ir2, ir3⟩ := ihr hr
    simp only [insert_impl]
    by_cases h1 : value < v
    · have hmem : value ∈ flat (Node.node v left right) ↔ value ∈ flat left := by
        simp only [flat, List.mem_append, List.mem_cons]
        constructor
        · rintro (h | rfl | h)
          · exact h
          · exact absurd h1 (lt_irrefl _)
          · exact absurd (lt_trans h1 (hvr _ h)) (lt_irrefl _)
        · exact Or.inl
      simp only [(bst_less_iff value v).2 h1, if_true, hmem]
      refine ⟨il1, ?_, ?_⟩
      · intro hn
        obtain ⟨hsz, l1, l2, e1, e2⟩ := il2 hn
        refine ⟨hsz, l1, l2 ++ v :: flat right, ?_, ?_⟩
        · simp [flat, e1]
        · simp [flat, e2]
      · intro hm
        rw [il3 hm]
    · have h1f : less value v = false := by simpa [less] using h1
      by_cases h2 : v < value
      · have hmem : value ∈ flat (Node.node v left right) ↔ value ∈ flat right := by
          simp only [flat, List.mem_append, List.mem_cons]
          constructor
          · rintro (h | rfl | h)
            · exact absurd (lt_trans (hlv _ h) h2) (lt_irrefl _)
            · exact absurd h2 (lt_irrefl _)
            · exact h
          · exact fun h => Or.inr (Or.inr h)
        simp only [h1f, (bst_less_iff v value).2 h2, if_true, Bool.false_eq_true, if_false, hmem]
        refine ⟨ir1, ?_, ?_⟩
        · intro hn
          obtain ⟨hsz, l1, l2, e1, e2⟩ := ir2 hn
          refine ⟨hsz, flat left ++ v :: l1, l2, ?_, ?_⟩
          · simp [flat, e1]
          · simp [flat, e2]
        · intro hm
          rw [ir3 hm]
      · have h2f : less v value = false := by simpa [less] using h2
        have hv : value = v := le_antisymm (not_lt.1 h2) (not_lt.1 h1)
        have hmem : value ∈ flat (Node.node v left right) := by simp [flat, hv]
        simp only [h1f, h2f, Bool.false_eq_true, if_false]
        exact ⟨by simp [hmem], fun hn => absurd hmem hn, fun _ => trivial⟩

theorem bst_successor_value_head (rv : T) (rl rr : Node T) :
    ∃ tail, flat (Node.node rv rl rr) = successor_value rv rl :: tail := by
  induction rl generalizing rv rr with
  | null => exact ⟨flat rr, by simp [flat, successor_value]⟩
  | node v left right ihl _ =>
    obtain ⟨tail, ht⟩ := ihl v right
    refine ⟨tail ++ rv :: flat rr, ?_⟩
    rw [successor_value]
    show flat (Node.node v left right) ++ rv :: flat rr = _
    rw [ht]
    rfl

theorem bst_filter_ne_eq_self [LinearOrder T] (l : List T) (value : T)
    (h : ∀ x ∈ l, x ≠ value) : l.filter (fun x => decide (x ≠ value)) = l := by
  rw [List.filter_eq_self]
  intro x hx
  simpa using h x hx

theorem bst_erase_impl_spec [LinearOrder T] (n : Node T) (size_ : Nat) :
    ∀ value : T, (flat n).Pairwise (fun a b => a < b) →
    flat (erase_impl less n size_ value).1 = (flat n).filter (fun x => decide (x ≠ value)) ∧
    ((erase_impl less n size_ value).2.2 = true ↔ value ∈ flat n) ∧
    (erase_impl less n size_ value).2.1 =
      (if (erase_impl less n size_ value).2.2 = true then size_ - 1 else size_) ∧
    (value ∉ flat n → (erase_impl less n size_ value).1 = n) := by
  induction n with
  | null =>
    intro value _
    simp [erase_impl, flat]
  | node v left right ihl ihr =>
    intro value hs
    obtain ⟨hl, hr, hlv, hvr⟩ := (bst_sorted_node v left right).1 hs
    by_cases h1 : value < v
    · obtain ⟨e1, e2, e3, e4⟩ := ihl value hl
      have hvne : v ≠ value := fun h => by
        rw [h] at h1
        exact lt_irrefl _ h1
      have hrne : ∀ x ∈ flat right, x ≠ value := fun x hx h => by
        rw [← h] at h1
        exact lt_irrefl _ (lt_trans h1 (hvr x hx))
      have hmem : value ∈ flat (Node.node v left right) ↔ value ∈ flat left := by
        simp only [flat, List.mem_append, List.mem_cons]
        constructor
        · rintro (h | rfl | h)
          · exact h
          · exact absurd rfl hvne
          · exact absurd rfl (hrne _ h)
        · exact Or.inl
      simp only [erase_impl, (bst_less_iff value v).2 h1, if_true, hmem]
      refine ⟨?_, e2, e3, ?_⟩
      · simp only [flat, e1, List.filter_append, List.filter_cons, hvne, ne_eq, not_false_eq_true,
          decide_True, if_true, bst_filter_ne_eq_self _ _ hrne]
      · intro hn
        rw [e4 hn]
    · have h1f : less value v = false := by simpa [less] using h1
      by_cases h2 : v < value
      · obtain ⟨e1, e2, e3, e4⟩ := ihr value hr
        have hvne : v ≠ value := fun h => by
          rw [h] at h2
          exact lt_irrefl _ h2
        have hlne : ∀ x ∈ flat left, x ≠ value := fun x hx h => by
          rw [← h] at h2
          exact lt_irrefl _ (lt_trans h2 (hlv x hx))
        have hmem : value ∈ flat (Node.node v left right) ↔ value ∈ flat right := by
          simp only [flat, List.mem_append, List.mem_cons]
          constructor
          · rintro (h | rfl | h)
            · exact absurd rfl (hlne _ h)
            · exact absurd rfl hvne
            · exact h
          · exact fun h => Or.inr (Or.inr h)
        simp only [erase_impl, h1f, (bst_less_iff v value).2 h2, if_true, Bool.false_eq_true,
          if_false, hmem]
        refine ⟨?_, e2, e3, ?_⟩
        · simp only [flat, e1, List.filter_append, List.filter_cons, hvne, ne_eq,
            not_false_eq_true, decide_True, if_true, bst_filter_ne_eq_self _ _ hlne]
        · intro hn
          rw [e4 hn]
      · have h2f : less v value = false := by simpa [less] using h2
        have hv : value = v := le_antisymm (not_lt.1 h2) (not_lt.1 h1)
        subst hv
        have hlne : ∀ x ∈ flat left, x ≠ value := fun x hx h => by
          have := hlv x hx
          rw [h] at this
          exact lt_irrefl _ this
        have hrne : ∀ x ∈ flat right, x ≠ value := fun x hx h => by
          have := hvr x hx
          rw [h] at this
          exact lt_irrefl _ this
        have hmem : value ∈ flat (Node.node value left right) := by simp [flat]
        have hfilter : (flat (Node.node value left right)).filter (fun x => decide (x ≠ value)) =
            flat left ++ flat right := by
          simp only [flat, List.filter_append, List.filter_cons, ne_eq, not_true_eq_false,
            decide_False, Bool.false_eq_true, if_false, bst_filter_ne_eq_self _ _ hlne,
            bst_filter_ne_eq_self _ _ hrne]
        rw [hfilter]
        cases left with
        | null =>
          simp only [erase_impl, h1f, Bool.false_eq_true, if_false]
          exact ⟨by simp [flat], by simp [hmem], by simp, fun hn => absurd hmem hn⟩
        | node lv ll lr =>
          cases right with
          | null =>
            simp only [erase_impl, h1f, Bool.false_eq_true, if_false]
            exact ⟨by simp [flat], by simp [hmem], by simp, fun hn => absurd hmem hn⟩
          | node rv rl rr =>
            rw [erase_impl]
            on_goal 2 => exact fun hnull => by cases hnull
            simp only [h1f, Bool.false_eq_true, if_false]
            obtain ⟨tail, ht⟩ := bst_successor_value_head rv rl rr
            obtain ⟨e1, e2, e3, _⟩ := ihr (successor_value rv rl) hr
            have hsmem : successor_value rv rl ∈ flat (Node.node rv rl rr) := by
              rw [ht]
              exact List.mem_cons_self _ _
            have htail : ∀ x ∈ tail, x ≠ successor_value rv rl := by
              intro x hx h
              rw [ht] at hr
              have := (List.pairwise_cons.1 hr).1 x hx
              rw [h] at this
              exact lt_irrefl _ this
            refine ⟨?_, ?_, ?_, fun hn => absurd hmem hn⟩
            · show flat (Node.node lv ll lr) ++ successor_value rv rl :: flat _ = _
              rw [e1, ht]
              simp only [List.filter_cons, ne_eq, not_true_eq_false, decide_False,
                Bool.false_eq_true, if_false, bst_filter_ne_eq_self _ _ htail]
            · simp only [e2, hsmem, hmem]
            · exact e3

theorem bst_filter_eq_erase [LinearOrder T] (l : List T) (value : T)
    (hs : l.Pairwise (fun a b => a < b)) :
    l.filter (fun x => decide (x ≠ value)) = l.erase value := by
  have hnd : l.Nodup := hs.imp (fun h => ne_of_lt h)
  rw [List.Nodup.erase_eq_filter hnd]
  congr 1
  funext x
  by_cases hx : x = value <;> simp [hx, bne]

theorem bst_insert_impl_mem [LinearOrder T] (n : Node T) (size_ : Nat) (value : T)
    (hs : (flat n).Pairwise (fun a b => a < b)) (x : T) :
    x ∈ flat (insert_impl less n size_ value).1 ↔ x = value ∨ x ∈ flat n := by
  obtain ⟨_, h2, h3⟩ := bst_insert_impl_spec n size_ value hs
  by_cases hm : value ∈ flat n
  · rw [h3 hm]
    constructor
    · exact Or.inr
    · rintro (rfl | h)
      · exact hm
      · exact h
  · obtain ⟨_, l1, l2, e1, e2⟩ := h2 hm
    rw [e1, e2]
    simp only [List.mem_append, List.mem_cons]
    tauto

theorem bst_insert_impl_sorted [LinearOrder T] (n : Node T) (size_ : Nat) (value : T)
    (hs : (flat n).Pairwise (fun a b => a < b)) :
    (flat (insert_impl less n size_ value).1).Pairwise (fun a b => a < b) := by
  induction n with
  | null => simp [insert_impl, flat]
  | node v left right ihl ihr =>
    obtain ⟨hl, hr, hlv, hvr⟩ := (bst_sorted_node v left right).1 hs
    simp only [insert_impl]
    by_cases h1 : value < v
    · simp only [(bst_less_iff value v).2 h1, if_true]
      refine (bst_sorted_node v _ right).2 ⟨ihl hl, hr, ?_, hvr⟩
      intro x hx
      rcases (bst_insert_impl_mem left size_ value hl x).1 hx with rfl | hx
      · exact h1
      · exact hlv x hx
    · have h1f : less value v = false := by simpa [less] using h1
      by_cases h2 : v < value
      · simp only [h1f, (bst_less_iff v value).2 h2, if_true, Bool.false_eq_true, if_false]
        refine (bst_sorted_node v left _).2 ⟨hl, ihr hr, hlv, ?_⟩
        intro x hx
        rcases (bst_insert_impl_mem right size_ value hr x).1 hx with rfl | hx
        · exact h2
        · exact hvr x hx
      · have h2f : less v value = false := by simpa [less] using h2
        simp only [h1f, h2f, Bool.false_eq_true, if_false]
        exact hs

theorem bst_wf_insert [LinearOrder T] (t : BinarySearchTree T) (hwf : WF t) (value : T) :
    WF (insert less t value).1 := by
  obtain ⟨_, h2, h3⟩ := bst_insert_impl_spec t.root_ t.size_ value hwf.sorted
  refine ⟨bst_insert_impl_sorted t.root_ t.size_ value hwf.sorted, ?_⟩
  simp only [insert]
  by_cases hm : value ∈ flat t.root_
  · rw [h3 hm]
    exact hwf.size_eq
  · obtain ⟨hsz, l1, l2, e1, e2⟩ := h2 hm
    rw [hsz, e2, hwf.size_eq, e1]
    simp only [List.length_append, List.length_cons]
    omega

theorem bst_wf_erase [LinearOrder T] (t : BinarySearchTree T) (hwf : WF t) (value : T) :
    WF (erase less t value).1 := by
  obtain ⟨e1, e2, e3, e4⟩ := bst_erase_impl_spec t.root_ t.size_ value hwf.sorted
  constructor
  · simp only [erase]
    rw [e1]
    exact hwf.sorted.filter _
  · simp only [erase]
    rw [e3, e1, bst_filter_eq_erase _ _ hwf.sorted]
    by_cases hm : value ∈ flat t.root_
    · rw [if_pos (e2.2 hm), List.length_erase_of_mem hm, hwf.size_eq]
    · have hf : ¬ (erase_impl less t.root_ t.size_ value).2.2 = true := fun h => hm (e2.1 h)
      rw [if_neg hf, List.erase_of_not_mem hm, hwf.size_eq]

theorem bst_wf_of_reachable [LinearOrder T] (t : BinarySearchTree T) (h : Reachable less t) :
    WF t := by
  induction h with
  | construct => exact ⟨by simp [empty_tree, flat], by simp [empty_tree, flat]⟩
  | insert t value _ ih => exact bst_wf_insert t ih value
  | erase t value _ ih => exact bst_wf_erase t ih value
  | clear t _ _ => exact ⟨by simp [clear, flat], by simp [clear, flat]⟩

theorem reachable_sample_tree : Reachable less sample_tree := by
  unfold sample_tree
  simp only [List.foldl_cons, List.foldl_nil]
  exact Reachable.insert _ 9 (Reachable.insert _ 7 (Reachable.insert _ 4 (Reachable.insert _ 1
    (Reachable.insert _ 8 (Reachable.insert _ 3 (Reachable.insert _ 5 Reachable.construct))))))

/-- C17: in every tree reachable from the empty tree by `insert` and `erase` (and `clear`),
under a strict total order, `in_order()` is strictly increasing; so the search-tree ordering
is preserved by `insert` and by all three cases of `erase`. -/
theorem bst_in_order_strictly_increasing [LinearOrder T] (t : BinarySearchTree T)
    (h : Reachable less t) :
    (in_order t).Pairwise (fun a b => a < b) ∧
    (∀ value, (in_order (insert less t value).1).Pairwise (fun a b => a < b)) ∧
    (∀ value, (in_order (erase less t value).1).Pairwise (fun a b => a < b)) := by
  refine ⟨?_, ?_, ?_⟩
  · rw [bst_in_order_eq_flat]
    exact (bst_wf_of_reachable t h).sorted
  · intro value
    rw [bst_in_order_eq_flat]
    exact (bst_wf_of_reachable _ (Reachable.insert t value h)).sorted
  · intro value
    rw [bst_in_order_eq_flat]
    exact (bst_wf_of_reachable _ (Reachable.erase t value h)).sorted

/-- Witness of C17 on the tree holding 5, 3, 8, 1, 4, 7, 9. -/
theorem bst_in_order_strictly_increasing_witness :
    Reachable less sample_tree ∧
    ((in_order sample_tree).Pairwise (fun a b => a < b) ∧
    (∀ value, (in_order (insert less sample_tree value).1).Pairwise (fun a b => a < b)) ∧
    (∀ value, (in_order (erase less sample_tree value).1).Pairwise (fun a b => a < b))) :=
  ⟨reachable_sample_tree, bst_in_order_strictly_increasing sample_tree reachable_sample_tree⟩

/-- C18: `insert(v)` on a reachable tree returns true exactly when `contains(v)` was false
before the call; afterwards `contains(v)` is true, and `in_order()` is the previous
`in_order()` with `v` added once, at one place, when true was returned, and unchanged when
false was returned. -/
theorem bst_insert_result [LinearOrder T] (t : BinarySearchTree T) (h : Reachable less t)
    (value : T) :
    (contains less t value = true ↔ value ∈ in_order t) ∧
    ((insert less t value).2 = true ↔ contains less t value = false) ∧
    contains less (insert less t value).1 value = true ∧
    ((insert less t value).2 = true →
      (∃ l1 l2, in_order t = l1 ++ l2 ∧
        in_order (insert less t value).1 = l1 ++ value :: l2) ∧
      (in_order (insert less t value).1).Perm (value :: in_order t)) ∧
    ((insert less t value).2 = false → in_order (insert less t value).1 = in_order t) := by
  have hwf := bst_wf_of_reachable t h
  have hwf1 := bst_wf_insert t hwf value
  obtain ⟨h1, h2, h3⟩ := bst_insert_impl_spec t.root_ t.size_ value hwf.sorted
  have hc : contains less t value = true ↔ value ∈ in_order t := by
    rw [bst_in_order_eq_flat]
    exact bst_contains_loop_iff t.root_ value hwf.sorted
  have hflag : (insert less t value).2 = true ↔ value ∉ flat t.root_ := h1
  refine ⟨hc, ?_, ?_, ?_, ?_⟩
  · rw [hflag, ← Bool.not_eq_true, hc, bst_in_order_eq_flat]
  · show contains_loop less (insert less t value).1.root_ value = true
    rw [bst_contains_loop_iff _ value hwf1.sorted]
    exact (bst_insert_impl_mem t.root_ t.size_ value hwf.sorted value).2 (Or.inl rfl)
  · intro hf
    obtain ⟨_, l1, l2, e1, e2⟩ := h2 (hflag.1 hf)
    rw [bst_in_order_eq_flat, bst_in_order_eq_flat]
    refine ⟨⟨l1, l2, e1, e2⟩, ?_⟩
    show (flat (insert_impl less t.root_ t.size_ value).1).Perm _
    rw [e1, e2]
    exact List.perm_middle
  · intro hf
    have hm : value ∈ flat t.root_ := by
      by_contra hn
      have := hflag.2 hn
      rw [hf] at this
      cases this
    rw [bst_in_order_eq_flat, bst_in_order_eq_flat]
    show flat (insert_impl less t.root_ t.size_ value).1 = _
    rw [h3 hm]

/-- Witness of C18: inserting 6 into the tree holding 5, 3, 8, 1, 4, 7, 9. -/
theorem bst_insert_result_witness :
    Reachable less sample_tree ∧
    ((contains less sample_tree 6 = true ↔ 6 ∈ in_order sample_tree) ∧
    ((insert less sample_tree 6).2 = true ↔ contains less sample_tree 6 = false) ∧
    contains less (insert less sample_tree 6).1 6 = true ∧
    ((insert less sample_tree 6).2 = true →
      (∃ l1 l2, in_order sample_tree = l1 ++ l2 ∧
        in_order (insert less sample_tree 6).1 = l1 ++ 6 :: l2) ∧
      (in_order (insert less sample_tree 6).1).Perm (6 :: in_order sample_tree)) ∧
    ((insert less sample_tree 6).2 = false →
      in_order (insert less sample_tree 6).1 = in_order sample_tree)) :=
  ⟨reachable_sample_tree, bst_insert_result sample_tree reachable_sample_tree 6⟩

/-- C19: `erase(v)` on a reachable tree returns true exactly when `contains(v)` was true
before the call; afterwards `contains(v)` is false and `in_order()` equals the previous
`in_order()` with `v` removed and every other element kept in place, also when the erased
node has two children. -/
theorem bst_erase_result [LinearOrder T] (t : BinarySearchTree T) (h : Reachable less t)
    (value : T) :
    (contains less t value = true ↔ value ∈ in_order t) ∧
    ((erase less t value).2 = true ↔ contains less t value = true) ∧
    contains less (erase less t value).1 value = false ∧
    in_order (erase less t value).1 = (in_order t).filter (fun x => decide (x ≠ value)) ∧
    in_order (erase less t value).1 = (in_order t).erase value := by
  have hwf := bst_wf_of_reachable t h
  have hwf1 := bst_wf_erase t hwf value
  obtain ⟨e1, e2, _, _⟩ := bst_erase_impl_spec t.root_ t.size_ value hwf.sorted
  have hc : contains less t value = true ↔ value ∈ in_order t := by
    rw [bst_in_order_eq_flat]
    exact bst_contains_loop_iff t.root_ value hwf.sorted
  have hflat : in_order (erase less t value).1 =
      (in_order t).filter (fun x => decide (x ≠ value)) := by
    rw [bst_in_order_eq_flat, bst_in_order_eq_flat]
    exact e1
  refine ⟨hc, ?_, ?_, hflat, ?_⟩
  · rw [hc, bst_in_order_eq_flat]
    exact e2
  · rw [← Bool.not_eq_true]
    show ¬ contains_loop less (erase less t value).1.root_ value = true
    rw [bst_contains_loop_iff _ value hwf1.sorted, ← bst_in_order_eq_flat, hflat]
    simp
  · rw [hflat, bst_in_order_eq_flat]
    exact bst_filter_eq_erase _ value hwf.sorted

/-- Witness of C19: erasing the root 5, a node with two children. -/
theorem bst_erase_result_witness :
    Reachable less sample_tree ∧
    ((contains less sample_tree 5 = true ↔ 5 ∈ in_order sample_tree) ∧
    ((erase less sample_tree 5).2 = true ↔ contains less sample_tree 5 = true) ∧
    contains less (erase less sample_tree 5).1 5 = false ∧
    in_order (erase less sample_tree 5).1 =
      (in_order sample_tree).filter (fun x => decide (x ≠ 5)) ∧
    in_order (erase less sample_tree 5).1 = (in_order sample_tree).erase 5) :=
  ⟨reachable_sample_tree, bst_erase_result sample_tree reachable_sample_tree 5⟩

end BinarySearchTree

end exemplar

/-! ## The resizing array and the stack -/

namespace exemplar

namespace ResizingArray

variable {T : Type}

theorem ra_reserve_loop [Inhabited T] (data : List T) (n k : Nat) (hk : k ≤ data.length)
    (hn : k ≤ n) :
    (List.range k).foldl (fun nd i => nd.set i (data.getD i default))
        (List.replicate n default) =
      data.take k ++ List.replicate (n - k) default := by
  induction k with
  | zero => simp
  | succ k ih =>
    rw [List.range_succ, List.foldl_append, ih (by omega) (by omega)]
    simp only [List.foldl_cons, List.foldl_nil]
    have hlen : (data.take k).length = k := by
      rw [List.length_take]
      omega
    have hrep : List.replicate (n - k) (default : T) =
        default :: List.replicate (n - (k + 1)) default := by
      have : n - k = (n - (k + 1)) + 1 := by omega
      rw [this, List.replicate_succ]
    rw [hrep, List.set_append, hlen]
    simp only [lt_irrefl, if_false, Nat.sub_self, List.set_cons_zero]
    have hkl : k < data.length := by omega
    rw [List.getD_eq_getElem _ _ hkl, ← List.take_concat_get data k hkl, List.concat_eq_append,
      List.append_assoc]
    rfl

theorem ra_reserve_spec [Inhabited T] (a : ResizingArray T) (hwf : WF a) (n : Nat)
    (hn : a.capacity_ < n) :
    reserve a n =
      { data_ := a.data_.take a.size_ ++ List.replicate (n - a.size_) default,
        size_ := a.size_, capacity_ := n } := by
  have h1 : ¬ n ≤ a.capacity_ := by omega
  have hs := hwf.size_le
  have hl := hwf.length_eq
  simp only [reserve, h1, if_false]
  rw [ra_reserve_loop a.data_ n a.size_ (by omega) (by omega)]

theorem ra_ensure_spec [Inhabited T] (a : ResizingArray T) (hwf : WF a) :
    WF (ensure_capacity_for_one_more a) ∧
    (ensure_capacity_for_one_more a).size_ < (ensure_capacity_for_one_more a).capacity_ ∧
    (ensure_capacity_for_one_more a).size_ = a.size_ ∧
    elements (ensure_capacity_for_one_more a) = elements a := by
  have hs := hwf.size_le
  have hl := hwf.length_eq
  unfold ensure_capacity_for_one_more
  by_cases h : a.size_ < a.capacity_
  · rw [if_pos h]
    exact ⟨hwf, h, rfl, rfl⟩
  · rw [if_neg h]
    have hcap : a.capacity_ < (if a.capacity_ = 0 then 4 else a.capacity_ * 2) := by
      split <;> omega
    rw [ra_reserve_spec a hwf _ hcap]
    refine ⟨⟨?_, ?_⟩, ?_, rfl, ?_⟩
    · simp only
      omega
    · simp only [List.length_append, List.length_take, List.length_replicate]
      omega
    · simp only
      omega
    · simp only [elements]
      rw [List.take_append_of_le_length (by simp; omega), List.take_take]
      simp

theorem ra_push_back_spec [Inhabited T] (a : ResizingArray T) (hwf : WF a) (value : T) :
    WF (push_back a value) ∧
    (push_back a value).size_ = a.size_ + 1 ∧
    elements (push_back a value) = elements a ++ [value] := by
  obtain ⟨hwf1, hlt, hsz, hel⟩ := ra_ensure_spec a hwf
  have hl := hwf1.length_eq
  unfold push_back
  simp only
  refine ⟨⟨by simp only; omega, by simp only [List.length_set]; exact hl⟩, by rw [hsz], ?_⟩
  simp only [elements] at hel ⊢
  rw [← hel]
  have hlt1 : (ensure_capacity_for_one_more a).size_ <
      (ensure_capacity_for_one_more a).data_.length := by omega
  rw [List.take_succ, List.set_take, List.set_eq_of_length_le (by simp),
    List.getElem?_set_self hlt1]
  rfl

theorem ra_elements_getLast [Inhabited T] (a : ResizingArray T) (hwf : WF a) (hpos : 0 < a.size_) :
    (elements a).getLast? = some (a.data_.getD (a.size_ - 1) default) := by
  have hs := hwf.size_le
  have hl := hwf.length_eq
  have hlen : (elements a).length = a.size_ := by
    simp only [elements, List.length_take]
    omega
  rw [List.getLast?_eq_getElem?, hlen]
  simp only [elements, List.getElem?_take]
  have h1 : a.size_ - 1 < a.size_ := by omega
  have h2 : a.size_ - 1 < a.data_.length := by omega
  simp only [h1, if_true]
  rw [List.getElem?_eq_getElem h2, List.getD_eq_getElem _ _ h2]

end ResizingArray

namespace Stack

variable {T : Type}

theorem stack_wf_of_reachable [Inhabited T] (s : Stack T) (h : Reachable s) :
    ResizingArray.WF s.items_ := by
  induction h with
  | construct => exact ⟨Nat.le_refl _, rfl⟩
  | push s value _ ih => exact (ResizingArray.ra_push_back_spec s.items_ ih value).1
  | emplace s value _ ih => exact (ResizingArray.ra_push_back_spec s.items_ ih value).1
  | pop s s1 _ hpop ih =>
    unfold pop ResizingArray.pop_back at hpop
    by_cases he : ResizingArray.empty s.items_ = true
    · simp [he] at hpop
    · simp only [he, Bool.false_eq_true, if_false, Except.ok.injEq] at hpop
      subst hpop
      exact ⟨by have := ih.size_le; simp only; omega, ih.length_eq⟩
  | clear s _ ih => exact ⟨Nat.zero_le _, ih.length_eq⟩

theorem stack_pop_of_pos (s : Stack T) (hpos : 0 < s.items_.size_) :
    pop s = Except.ok (Stack.mk
      (ResizingArray.mk s.items_.data_ (s.items_.size_ - 1) s.items_.capacity_)) := by
  have he : ResizingArray.empty s.items_ = false := by
    simp only [ResizingArray.empty, beq_eq_false_iff_ne]
    omega
  simp [pop, ResizingArray.pop_back, he]

theorem stack_top_of_pos [Inhabited T] (s : Stack T) (hpos : 0 < s.items_.size_) :
    top s = Except.ok (s.items_.data_.getD (s.items_.size_ - 1) default) := by
  have he : ResizingArray.empty s.items_ = false := by
    simp only [ResizingArray.empty, beq_eq_false_iff_ne]
    omega
  simp [top, ResizingArray.back, he]

theorem stack_top_eq [Inhabited T] (s : Stack T) (hwf : ResizingArray.WF s.items_) :
    top s = match (elements s).getLast? with
      | some x => Except.ok x
      | none => Except.error RuntimeError.runtime_error := by
  by_cases hpos : 0 < s.items_.size_
  · rw [stack_top_of_pos s hpos, elements, ResizingArray.ra_elements_getLast s.items_ hwf hpos]
  · have h0 : s.items_.size_ = 0 := by omega
    have he : ResizingArray.empty s.items_ = true := by
      simp [ResizingArray.empty, h0]
    simp [top, he, elements, ResizingArray.elements, h0]

/-- With arguments that are read intact (see `push_ref`):
`exemplar::Stack` is LIFO: on every reachable stack `s` and value `x`, after
`push(x)`, `top()` is `x` and `size()` is one larger; after `push(x)` followed by `pop()` the
stack holds the same elements in the same order as `s`, with the same size and the same
`top()`, whether or not the push made the storage grow; `pop()` and `top()` on an empty
stack throw. -/
theorem stack_is_lifo [Inhabited T] (s : Stack T) (h : Reachable s) (x : T) :
    top (push s x) = Except.ok x ∧
    size (push s x) = size s + 1 ∧
    elements (push s x) = elements s ++ [x] ∧
    (∃ s1, pop (push s x) = Except.ok s1 ∧ elements s1 = elements s ∧ size s1 = size s ∧
      top s1 = top s) ∧
    (empty s = true →
      pop s = Except.error RuntimeError.runtime_error ∧
      top s = Except.error RuntimeError.runtime_error) := by
  have hwf := stack_wf_of_reachable s h
  obtain ⟨hwf1, hsz, hel⟩ := ResizingArray.ra_push_back_spec s.items_ hwf x
  have hpos : 0 < (push s x).items_.size_ := by
    show 0 < (ResizingArray.push_back s.items_ x).size_
    omega
  have hel1 : elements (push s x) = elements s ++ [x] := hel
  have hlen : (elements s).length = s.items_.size_ := by
    have := hwf.size_le
    have := hwf.length_eq
    simp only [elements, ResizingArray.elements, List.length_take]
    omega
  have hsz1 : (push s x).items_.size_ - 1 = s.items_.size_ := by
    show (ResizingArray.push_back s.items_ x).size_ - 1 = _
    omega
  have hwf2 : ResizingArray.WF (ResizingArray.mk (push s x).items_.data_
      ((push s x).items_.size_ - 1) (push s x).items_.capacity_) := by
    refine ⟨?_, hwf1.length_eq⟩
    have := hwf1.size_le
    exact le_trans (Nat.sub_le _ _) this
  have hel2 : elements (Stack.mk (ResizingArray.mk (push s x).items_.data_
      ((push s x).items_.size_ - 1) (push s x).items_.capacity_)) = elements s := by
    have h2 : (elements (push s x)).take s.items_.size_ = elements s := by
      rw [hel1, List.take_append_of_le_length (by omega), List.take_of_length_le (by omega)]
    simp only [elements, ResizingArray.elements, hsz1] at h2 ⊢
    rw [← h2, List.take_take]
    have hmin : min s.items_.size_ (push s x).items_.size_ = s.items_.size_ := by
      have : (push s x).items_.size_ = s.items_.size_ + 1 := hsz
      omega
    rw [hmin]
  refine ⟨?_, hsz, hel1, ?_, ?_⟩
  · rw [stack_top_eq (push s x) hwf1, hel1]
    simp
  · refine ⟨_, stack_pop_of_pos (push s x) hpos, hel2, hsz1, ?_⟩
    rw [stack_top_eq _ hwf2, stack_top_eq s hwf, hel2]
  · intro he
    simp only [empty] at he
    simp [pop, top, he]

theorem reachable_sample_stack : Reachable sample_stack :=
  Reachable.push _ 4 (Reachable.push _ 3 (Reachable.push _ 2 (Reachable.push _ 1
    Reachable.construct)))

/-- An instance: the fifth push onto a full storage of capacity 4, which grows to 8. -/
theorem stack_is_lifo_witness :
    Reachable sample_stack ∧
    (top (push sample_stack 5) = Except.ok 5 ∧
    size (push sample_stack 5) = size sample_stack + 1 ∧
    elements (push sample_stack 5) = elements sample_stack ++ [5] ∧
    (∃ s1, pop (push sample_stack 5) = Except.ok s1 ∧ elements s1 = elements sample_stack ∧
      size s1 = size sample_stack ∧ top s1 = top sample_stack) ∧
    (empty sample_stack = true →
      pop sample_stack = Except.error RuntimeError.runtime_error ∧
      top sample_stack = Except.error RuntimeError.runtime_error)) :=
  ⟨reachable_sample_stack, stack_is_lifo sample_stack reachable_sample_stack 5⟩

end Stack

end exemplar

/-! ## Rehash and erase in detail -/

namespace exemplar

namespace HashMap

variable {K V : Type}

theorem swap_remove_index (bucket : List (Entry K V)) (i : Nat) (hi : i < bucket.length) :
    (swap_remove bucket i).length = bucket.length - 1 ∧
    ∀ p, p < bucket.length - 1 →
      (swap_remove bucket i)[p]? = if p = i then bucket[bucket.length - 1]? else bucket[p]? := by
  rcases List.eq_nil_or_concat bucket with rfl | ⟨l, last, rfl⟩
  · simp at hi
  · simp only [List.concat_eq_append]
    have hlast : (l ++ [last]).getLast? = some last := by simp
    simp only [swap_remove, hlast, List.length_append, List.length_singleton, Nat.add_sub_cancel]
    constructor
    · simp
    · intro p hp
      rw [List.dropLast_eq_take, List.getElem?_take]
      simp only [List.length_set, List.length_append, List.length_singleton, Nat.add_sub_cancel,
        hp, if_true, List.getElem?_set]
      by_cases hpi : p = i
      · subst hpi
        have hp1 : p < l.length + 1 := by omega
        simp [hp, hp1]
      · have hip : ¬ i = p := fun h => hpi h.symm
        simp [hpi, hip]

theorem swap_remove_last (bucket : List (Entry K V)) (hpos : 0 < bucket.length) :
    swap_remove bucket (bucket.length - 1) = bucket.dropLast := by
  rcases List.eq_nil_or_concat bucket with rfl | ⟨l, last, rfl⟩
  · simp at hpos
  · simp only [List.concat_eq_append]
    have hlast : (l ++ [last]).getLast? = some last := by simp
    simp [swap_remove, hlast, List.set_append]

/-- C25: the rehash step: for every table and every new bucket count `n > 0`, `rehash(n)`
produces a table with exactly `n` buckets whose entries, taken over all buckets, are a
permutation of the entries of the old table, each placed in bucket `hash(key) mod n`; size
is unchanged. -/
theorem hashmap_rehash_step (hasher_ : K → Nat) (m : HashMap K V) (n : Nat) (hn : 0 < n) :
    bucket_count (rehash hasher_ m n) = n ∧
    (entries (rehash hasher_ m n)).Perm (entries m) ∧
    (∀ (j : Nat) (b : List (Entry K V)), (rehash hasher_ m n).buckets_[j]? = some b →
      ∀ e ∈ b, hasher_ e.key % n = j) ∧
    (∀ e ∈ entries m, e ∈ (rehash hasher_ m n).buckets_.getD (hasher_ e.key % n) []) ∧
    size (rehash hasher_ m n) = size m := by
  obtain ⟨hlen, hidx, hperm, hsize⟩ := rehash_spec hasher_ m n hn
  refine ⟨hlen, hperm, ?_, ?_, hsize⟩
  · intro j b hb e he
    have := hidx j b hb e he
    rw [hlen] at this
    exact this
  · intro e he
    have hmem : e ∈ (rehash hasher_ m n).buckets_.flatten := hperm.mem_iff.2 he
    have := (mem_flatten_iff_mem_bucket hasher_ _ hidx e).1 hmem
    rw [hlen] at this
    exact this

/-- Witness of C25: the table of size 6 with 8 buckets rehashed to 5 buckets. -/
theorem hashmap_rehash_step_witness :
    (0 < 5) ∧
    (bucket_count (rehash sample_hash sample_full 5) = 5 ∧
    (entries (rehash sample_hash sample_full 5)).Perm (entries sample_full) ∧
    (∀ (j : Nat) (b : List (Entry Nat Nat)),
      (rehash sample_hash sample_full 5).buckets_[j]? = some b →
        ∀ e ∈ b, sample_hash e.key % 5 = j) ∧
    (∀ e ∈ entries sample_full,
      e ∈ (rehash sample_hash sample_full 5).buckets_.getD (sample_hash e.key % 5) []) ∧
    size (rehash sample_hash sample_full 5) = size sample_full) :=
  ⟨by decide, hashmap_rehash_step sample_hash sample_full 5 (by decide)⟩

/-- C26: `erase` removes by swap-with-last: when `erase(k)`, on any table, finds `k` at
position `i` of its bucket of length `n`, the bucket afterwards has length `n - 1` and equals
the old bucket with position `i` overwritten by the old last entry and the last position
dropped (for `i = n - 1` the old bucket without its last entry); every other bucket and the
bucket count are unchanged. -/
theorem hashmap_erase_swaps_with_last [DecidableEq K] (hasher_ : K → Nat)
    (m : HashMap K V) (key : K) (i : Nat)
    (hfound : find_index key (m.buckets_.getD (bucket_index hasher_ m key) []) = some i) :
    i < (m.buckets_.getD (bucket_index hasher_ m key) []).length ∧
    (∃ e, (m.buckets_.getD (bucket_index hasher_ m key) [])[i]? = some e ∧ e.key = key) ∧
    (erase hasher_ m key).2 = true ∧
    ((erase hasher_ m key).1.buckets_.getD (bucket_index hasher_ m key) []).length =
      (m.buckets_.getD (bucket_index hasher_ m key) []).length - 1 ∧
    (∀ p, p < (m.buckets_.getD (bucket_index hasher_ m key) []).length - 1 →
      ((erase hasher_ m key).1.buckets_.getD (bucket_index hasher_ m key) [])[p]? =
        if p = i then
          (m.buckets_.getD (bucket_index hasher_ m key) [])[
            (m.buckets_.getD (bucket_index hasher_ m key) []).length - 1]?
        else (m.buckets_.getD (bucket_index hasher_ m key) [])[p]?) ∧
    (i = (m.buckets_.getD (bucket_index hasher_ m key) []).length - 1 →
      (erase hasher_ m key).1.buckets_.getD (bucket_index hasher_ m key) [] =
        (m.buckets_.getD (bucket_index hasher_ m key) []).dropLast) ∧
    (∀ j, j ≠ bucket_index hasher_ m key →
      (erase hasher_ m key).1.buckets_[j]? = m.buckets_[j]?) ∧
    bucket_count (erase hasher_ m key).1 = bucket_count m := by
  obtain ⟨e, he, hek⟩ := find_index_some hfound
  have hj : bucket_index hasher_ m key < m.buckets_.length := by
    by_contra hge
    have hnone : m.buckets_[bucket_index hasher_ m key]? = none :=
      List.getElem?_eq_none (by omega)
    rw [List.getD_eq_getElem?_getD, hnone] at he
    simp at he
  have hi : i < (m.buckets_.getD (bucket_index hasher_ m key) []).length :=
    (List.getElem?_eq_some_iff.1 he).1
  have herase : erase hasher_ m key =
      (HashMap.mk (m.buckets_.set (bucket_index hasher_ m key)
        (swap_remove (m.buckets_.getD (bucket_index hasher_ m key) []) i)) (m.size_ - 1),
        true) := by
    simp only [erase, hfound]
  have hnew : (erase hasher_ m key).1.buckets_.getD (bucket_index hasher_ m key) [] =
      swap_remove (m.buckets_.getD (bucket_index hasher_ m key) []) i := by
    rw [herase]
    simp [List.getD_eq_getElem?_getD, List.getElem?_set, hj]
  obtain ⟨hlen, hget⟩ := swap_remove_index _ i hi
  refine ⟨hi, ⟨e, he, hek⟩, by rw [herase], by rw [hnew, hlen], ?_, ?_, ?_, ?_⟩
  · intro p hp
    rw [hnew]
    exact hget p hp
  · intro hil
    rw [hnew, hil]
    exact swap_remove_last _ (by omega)
  · intro j hne
    rw [herase]
    simp only [List.getElem?_set]
    simp [Ne.symm hne]
  · rw [herase]
    simp [bucket_count]

/-- Witness of C26: erasing the key 1, found at position 0 of a bucket of length 3. -/
theorem hashmap_erase_swaps_with_last_witness :
    find_index 1 (sample_map.buckets_.getD (bucket_index id sample_map 1) []) = some 0 ∧
    (0 < (sample_map.buckets_.getD (bucket_index id sample_map 1) []).length ∧
    (∃ e, (sample_map.buckets_.getD (bucket_index id sample_map 1) [])[0]? = some e ∧
      e.key = 1) ∧
    (erase id sample_map 1).2 = true ∧
    ((erase id sample_map 1).1.buckets_.getD (bucket_index id sample_map 1) []).length =
      (sample_map.buckets_.getD (bucket_index id sample_map 1) []).length - 1 ∧
    (∀ p, p < (sample_map.buckets_.getD (bucket_index id sample_map 1) []).length - 1 →
      ((erase id sample_map 1).1.buckets_.getD (bucket_index id sample_map 1) [])[p]? =
        if p = 0 then
          (sample_map.buckets_.getD (bucket_index id sample_map 1) [])[
            (sample_map.buckets_.getD (bucket_index id sample_map 1) []).length - 1]?
        else (sample_map.buckets_.getD (bucket_index id sample_map 1) [])[p]?) ∧
    (0 = (sample_map.buckets_.getD (bucket_index id sample_map 1) []).length - 1 →
      (erase id sample_map 1).1.buckets_.getD (bucket_index id sample_map 1) [] =
        (sample_map.buckets_.getD (bucket_index id sample_map 1) []).dropLast) ∧
    (∀ j, j ≠ bucket_index id sample_map 1 →
      (erase id sample_map 1).1.buckets_[j]? = sample_map.buckets_[j]?) ∧
    bucket_count (erase id sample_map 1).1 = bucket_count sample_map) :=
  ⟨by decide, hashmap_erase_swaps_with_last id sample_map 1 0 (by decide)⟩

/-- C28: erase frame: on a reachable map, for keys `k ≠ k1`, `get(k1)` and `contains(k1)`
after `erase(k)` equal their values before the call, also when `k1` shares the bucket of `k`
and is the entry moved into the erased slot. -/
theorem hashmap_erase_keeps_other_keys [DecidableEq K] [Inhabited V] (hasher_ : K → Nat)
    (m : HashMap K V) (h : Reachable hasher_ m) (key key1 : K) (hne : key1 ≠ key) :
    get hasher_ (erase hasher_ m key).1 key1 = get hasher_ m key1 ∧
    contains hasher_ (erase hasher_ m key).1 key1 = contains hasher_ m key1 := by
  have hwf := wf_of_reachable h
  have hg : get hasher_ (erase hasher_ m key).1 key1 = get hasher_ m key1 := by
    rw [erase_get hwf key key1]
    simp [hne]
  exact ⟨hg, by rw [contains_eq_isSome, contains_eq_isSome, hg]⟩

/-- Witness of C28: erasing the key 1 moves the entry of the key 17 into the erased slot. -/
theorem hashmap_erase_keeps_other_keys_witness :
    (Reachable id sample_map ∧ (17 : Nat) ≠ 1) ∧
    (get id (erase id sample_map 1).1 17 = get id sample_map 17 ∧
    contains id (erase id sample_map 1).1 17 = contains id sample_map 17) :=
  ⟨⟨reachable_sample_map, by decide⟩,
    hashmap_erase_keeps_other_keys id sample_map reachable_sample_map 1 17 (by decide)⟩

end HashMap

end exemplar

/-! ## The hash map refines a finite map -/

namespace exemplar

namespace HashMap

variable {K V : Type}

theorem ref_get_remove [DecidableEq K] (r : RefMap K V) (key key1 : K) :
    ref_get (ref_remove r key) key1 = if key1 = key then none else ref_get r key1 := by
  induction r with
  | nil => simp [ref_remove, ref_get]
  | cons p rest ih =>
    obtain ⟨k, v⟩ := p
    simp only [ref_remove] at ih ⊢
    by_cases hk : k = key
    · subst hk
      simp only [List.filter_cons, ne_eq, not_true_eq_false, decide_False, Bool.false_eq_true,
        if_false, ih, ref_get]
      by_cases h1 : key1 = k
      · simp [h1]
      · have : ¬ k = key1 := fun h => h1 h.symm
        simp [h1, this]
    · simp only [List.filter_cons, ne_eq, hk, not_false_eq_true, decide_True, if_true, ref_get, ih]
      by_cases h1 : key1 = key
      · subst h1
        simp [hk]
      · simp [h1]

theorem ref_keys_remove [DecidableEq K] (r : RefMap K V) (key : K)
    (hnd : (r.map Prod.fst).Nodup) :
    ((ref_remove r key).map Prod.fst).Nodup ∧ key ∉ (ref_remove r key).map Prod.fst := by
  constructor
  · exact List.Nodup.sublist ((List.filter_sublist _).map Prod.fst) hnd
  · intro hmem
    obtain ⟨p, hp, hk⟩ := List.mem_map.1 hmem
    have := (List.mem_filter.1 hp).2
    simp [hk] at this

theorem ref_get_isSome_iff [DecidableEq K] (r : RefMap K V) (key : K) :
    (ref_get r key).isSome = true ↔ key ∈ r.map Prod.fst := by
  induction r with
  | nil => simp [ref_get]
  | cons p rest ih =>
    obtain ⟨k, v⟩ := p
    simp only [ref_get, List.map_cons, List.mem_cons]
    by_cases hk : k = key
    · simp [hk]
    · have : ¬ key = k := fun h => hk h.symm
      simp [hk, this, ih]

theorem ref_length_remove [DecidableEq K] (r : RefMap K V) (key : K)
    (hnd : (r.map Prod.fst).Nodup) :
    (ref_remove r key).length + (if ref_contains r key = true then 1 else 0) = r.length := by
  induction r with
  | nil => simp [ref_remove, ref_contains, ref_get]
  | cons p rest ih =>
    obtain ⟨k, v⟩ := p
    simp only [List.map_cons, List.nodup_cons] at hnd
    have ih1 := ih hnd.2
    by_cases hk : k = key
    · subst hk
      have hno : ref_contains rest k = false := by
        rw [ref_contains, ← Bool.not_eq_true, ref_get_isSome_iff]
        exact hnd.1
      have hf : ref_remove ((k, v) :: rest) k = ref_remove rest k := by
        simp [ref_remove, List.filter_cons]
      have hg : ref_contains ((k, v) :: rest) k = true := by
        simp [ref_contains, ref_get]
      rw [hno] at ih1
      rw [hf, hg]
      simp only [Bool.false_eq_true, if_false, if_true, List.length_cons] at ih1 ⊢
      omega
    · have hf : ref_remove ((k, v) :: rest) key = (k, v) :: ref_remove rest key := by
        simp [ref_remove, List.filter_cons, hk]
      have hg : ref_contains ((k, v) :: rest) key = ref_contains rest key := by
        simp [ref_contains, ref_get, hk]
      rw [hf, hg, List.length_cons, List.length_cons]
      omega

theorem erase_size [DecidableEq K] {hasher_ : K → Nat} {m : HashMap K V} (h : WF hasher_ m)
    (key : K) :
    (erase hasher_ m key).1.size_ + (if contains hasher_ m key = true then 1 else 0) =
      m.size_ := by
  have hflag := erase_flag h key
  obtain ⟨_, _, hcase⟩ := erase_spec h key
  rcases hcase with ⟨_, he⟩ | ⟨_, _, _, hf, hs⟩
  · rw [he] at hflag
    simp only at hflag
    rw [he, ← hflag]
    simp
  · rw [hf] at hflag
    rw [← hflag]
    simpa using hs

theorem operator_subscript_size [DecidableEq K] [Inhabited V] {hasher_ : K → Nat}
    {m : HashMap K V} (h : WF hasher_ m) (key : K) :
    (operator_subscript hasher_ m key).1.size_ =
      if contains hasher_ m key = true then m.size_ else m.size_ + 1 := by
  obtain ⟨_, hcase⟩ := operator_subscript_spec h key
  rcases hcase with ⟨hk, _, _, hs⟩ | ⟨e0, he0, hk0, _, _, hs⟩
  · have : contains hasher_ m key = false := by
      rw [← Bool.not_eq_true, contains_iff h]
      exact hk
    simp [this, hs]
  · have : contains hasher_ m key = true := by
      rw [contains_iff h]
      exact List.mem_map.2 ⟨e0, he0, hk0⟩
    simp [this, hs]

theorem refines_contains [DecidableEq K] {hasher_ : K → Nat} {m : HashMap K V}
    {r : RefMap K V} (h : Refines hasher_ m r) (key : K) :
    contains hasher_ m key = ref_contains r key := by
  rw [contains_eq_isSome, h.get_eq, ref_contains]

theorem refines_step [DecidableEq K] [Inhabited V] {hasher_ : K → Nat} {m : HashMap K V}
    {r : RefMap K V} (h : Refines hasher_ m r) (op : MapOp K V) :
    Refines hasher_ (step hasher_ m op).1 (ref_step r op).1 ∧
    (step hasher_ m op).2 = (ref_step r op).2 := by
  have hc := refines_contains h
  cases op with
  | insert_or_assign key value =>
    simp only [step, ref_step, ref_insert_or_assign]
    have hrem := ref_keys_remove r key h.nodup
    have hlen := ref_length_remove r key h.nodup
    refine ⟨⟨(insert_or_assign_spec h.wf key value).1, ?_, ?_, ?_⟩, ?_⟩
    · exact List.nodup_cons.2 ⟨hrem.2, hrem.1⟩
    · intro key1
      rw [insert_or_assign_get h.wf, ref_get, ref_get_remove, h.get_eq]
      by_cases h1 : key1 = key
      · subst h1
        simp
      · have : ¬ key = key1 := fun hh => h1 hh.symm
        simp [h1, this]
    · rw [insert_or_assign_size h.wf, hc key, h.size_eq, List.length_cons]
      by_cases hcc : ref_contains r key = true
      · rw [if_pos hcc] at hlen ⊢
        omega
      · rw [if_neg hcc] at hlen ⊢
        omega
    · rw [insert_or_assign_flag h.wf, hc key]
  | subscript key =>
    have hval := operator_subscript_value h.wf key
    have hget := operator_subscript_get h.wf key
    have hsz := operator_subscript_size h.wf key
    rw [hc key] at hsz
    rw [h.get_eq] at hval
    simp only [step, ref_step, ref_subscript]
    cases hg : ref_get r key with
    | none =>
      have hnc : ref_contains r key = false := by simp [ref_contains, hg]
      have hnk : key ∉ r.map Prod.fst := by
        rw [← ref_get_isSome_iff, hg]
        simp
      rw [hg] at hval
      simp only [Option.getD_none] at hval
      simp only [hnc, Bool.false_eq_true, if_false] at hsz
      refine ⟨⟨(operator_subscript_spec h.wf key).1, List.nodup_cons.2 ⟨hnk, h.nodup⟩,
        ?_, ?_⟩, by rw [hval]⟩
      · intro key1
        rw [hget, hval, ref_get, h.get_eq]
        by_cases h1 : key1 = key
        · subst h1
          simp
        · have : ¬ key = key1 := fun hh => h1 hh.symm
          simp [h1, this]
      · rw [hsz, h.size_eq, List.length_cons]
    | some v =>
      have hnc : ref_contains r key = true := by simp [ref_contains, hg]
      rw [hg] at hval
      simp only [Option.getD_some] at hval
      simp only [hnc, if_true] at hsz
      refine ⟨⟨(operator_subscript_spec h.wf key).1, h.nodup, ?_, ?_⟩, by rw [hval]⟩
      · intro key1
        rw [hget, hval, h.get_eq]
        by_cases h1 : key1 = key
        · subst h1
          simp [hg]
        · simp [h1]
      · rw [hsz, h.size_eq]
  | erase key =>
    simp only [step, ref_step, ref_erase]
    have hrem := ref_keys_remove r key h.nodup
    have hlen := ref_length_remove r key h.nodup
    have hsz := erase_size h.wf key
    rw [hc key, h.size_eq] at hsz
    refine ⟨⟨(erase_spec h.wf key).1, hrem.1, ?_, ?_⟩, ?_⟩
    · intro key1
      rw [erase_get h.wf, ref_get_remove, h.get_eq]
    · omega
    · rw [erase_flag h.wf, hc key]
  | clear =>
    simp only [step, ref_step]
    refine ⟨⟨wf_clear hasher_ m, by simp, ?_, rfl⟩, trivial⟩
    intro key
    rw [ref_get]
    exact get_default_map hasher_ key

theorem refines_run [DecidableEq K] [Inhabited V] {hasher_ : K → Nat} (ops : List (MapOp K V)) :
    ∀ (m : HashMap K V) (r : RefMap K V), Refines hasher_ m r →
      Refines hasher_ (run_from hasher_ m ops).1 (ref_run_from r ops).1 ∧
      (run_from hasher_ m ops).2 = (ref_run_from r ops).2 := by
  induction ops with
  | nil => exact fun m r h => ⟨h, rfl⟩
  | cons op ops ih =>
    intro m r h
    obtain ⟨h1, hres⟩ := refines_step h op
    obtain ⟨h2, hrest⟩ := ih _ _ h1
    simp only [run_from, ref_run_from]
    exact ⟨h2, by rw [hres, hrest]⟩

theorem refines_default [DecidableEq K] (hasher_ : K → Nat) :
    Refines hasher_ (default_map : HashMap K V) ([] : RefMap K V) :=
  ⟨wf_default_map hasher_, by simp, fun key => by rw [ref_get]; exact get_default_map hasher_ key,
    rfl⟩

/-- With arguments that are read intact (see `insert_or_assign_ref`):
the hash map refines a finite map: for every hash function and every sequence of
`insert_or_assign`, `operator[]`, `erase` and `clear` calls from a default-constructed map,
every returned value and every subsequent `get`, `contains` and `size` result equals that of
the same sequence run on the reference key-to-value map; so the returned values and the
lookups are the same for any two hash functions. -/
theorem hashmap_refines_reference_map [DecidableEq K] [Inhabited V] (hasher_ : K → Nat)
    (ops : List (MapOp K V)) :
    (run_from hasher_ default_map ops).2 = (ref_run_from [] ops).2 ∧
    (∀ key, get hasher_ (run_from hasher_ default_map ops).1 key =
      ref_get (ref_run_from [] ops).1 key) ∧
    (∀ key, contains hasher_ (run_from hasher_ default_map ops).1 key =
      ref_contains (ref_run_from [] ops).1 key) ∧
    size (run_from hasher_ default_map ops).1 = ref_size (ref_run_from [] ops).1 ∧
    (∀ hasher2 : K → Nat,
      (run_from hasher2 default_map ops).2 = (run_from hasher_ default_map ops).2 ∧
      (∀ key, get hasher2 (run_from hasher2 default_map ops).1 key =
        get hasher_ (run_from hasher_ default_map ops).1 key) ∧
      size (run_from hasher2 default_map ops).1 = size (run_from hasher_ default_map ops).1) := by
  obtain ⟨h, hres⟩ := refines_run ops _ _
    (refines_default hasher_ : Refines hasher_ (default_map : HashMap K V) [])
  refine ⟨hres, h.get_eq, refines_contains h, h.size_eq, ?_⟩
  intro hasher2
  obtain ⟨h2, hres2⟩ := refines_run ops _ _
    (refines_default hasher2 : Refines hasher2 (default_map : HashMap K V) [])
  refine ⟨by rw [hres2, hres], fun key => by rw [h2.get_eq, h.get_eq], ?_⟩
  show (run_from hasher2 default_map ops).1.size_ = (run_from hasher_ default_map ops).1.size_
  rw [h2.size_eq, h.size_eq]

/-- A sample run: the flags and the reference the calls return. -/
theorem run_from_sample :
    (run_from sample_hash default_map
      [MapOp.insert_or_assign 1 10, MapOp.subscript 2, MapOp.erase 1, MapOp.erase 1,
       MapOp.insert_or_assign 2 5]).2 =
      [MapResult.flag true, MapResult.reference 0, MapResult.flag true, MapResult.flag false,
       MapResult.flag false] := by
  decide

end HashMap

end exemplar

/-! ## The order inside the buckets -/

namespace exemplar

namespace HashMap

variable {K V : Type}

theorem layout_index (hasher_ : K → Nat) (n : Nat) (L : List (Entry K V)) (j : Nat) :
    (layout hasher_ n L)[j]? =
      if j < n then some (L.filter (fun e => decide (hasher_ e.key % n = j))) else none := by
  unfold layout
  rw [List.getElem?_map]
  by_cases hj : j < n
  · rw [List.getElem?_range hj, if_pos hj]
    rfl
  · rw [if_neg hj, List.getElem?_eq_none (by simpa using hj)]
    rfl

theorem length_layout (hasher_ : K → Nat) (n : Nat) (L : List (Entry K V)) :
    (layout hasher_ n L).length = n := by
  simp [layout]

theorem rehash_loop_index (hasher_ : K → Nat) (n : Nat) (l : List (Entry K V)) :
    ∀ (nb : List (List (Entry K V))) (j : Nat),
      (l.foldl (place_entry hasher_ n) nb)[j]? =
        (nb[j]?).map (fun b => b ++ l.filter (fun e => decide (hasher_ e.key % n = j))) := by
  induction l with
  | nil =>
    intro nb j
    simp
  | cons e es ih =>
    intro nb j
    rw [List.foldl_cons, ih]
    simp only [place_entry, List.getElem?_modify]
    cases hq : nb[j]? with
    | none => simp
    | some b =>
      by_cases hj : hasher_ e.key % n = j
      · simp [hj, List.filter_cons]
      · simp [hj, List.filter_cons]

theorem rehash_eq_layout (hasher_ : K → Nat) (m : HashMap K V) (n : Nat) :
    (rehash hasher_ m n).buckets_ = layout hasher_ n (entries m) := by
  apply List.ext_getElem?
  intro j
  rw [rehash_buckets, rehash_loop_index, layout_index, List.getElem?_replicate]
  by_cases hj : j < n
  · simp [hj]
  · simp [hj]

theorem flatten_map_range_single {α : Type} (g : Nat → List α) (i0 : Nat)
    (h : ∀ i, i ≠ i0 → g i = []) (n : Nat) :
    ((List.range n).map g).flatten = if i0 < n then g i0 else [] := by
  induction n with
  | zero => simp
  | succ n ih =>
    rw [List.range_succ, List.map_append, List.flatten_append, ih]
    simp only [List.map_cons, List.map_nil, List.flatten_cons, List.flatten_nil, List.append_nil]
    by_cases h1 : i0 < n
    · have hn : n ≠ i0 := by omega
      have h2 : i0 < n + 1 := by omega
      rw [if_pos h1, if_pos h2, h n hn, List.append_nil]
    · rw [if_neg h1, List.nil_append]
      by_cases h2 : i0 = n
      · subst h2
        simp
      · have h3 : ¬ i0 < n + 1 := by omega
        rw [if_neg h3]
        exact h n (fun hh => h2 hh.symm)

theorem filter_flatten_layout (hasher_ : K → Nat) (b : Nat) (L : List (Entry K V))
    (q : Entry K V → Bool) (i0 : Nat) (hi0 : i0 < b)
    (hq : ∀ e, q e = true → hasher_ e.key % b = i0) :
    ((layout hasher_ b L).flatten).filter q = L.filter q := by
  rw [List.filter_flatten]
  unfold layout
  rw [List.map_map]
  rw [flatten_map_range_single _ i0 _ b, if_pos hi0]
  · simp only [Function.comp, List.filter_filter]
    apply List.filter_congr
    intro e _
    by_cases hqe : q e = true
    · simp [hqe, hq e hqe]
    · simp [hqe]
  · intro i hi
    simp only [Function.comp, List.filter_filter]
    rw [List.filter_eq_nil_iff]
    intro e _ hc
    simp only [Bool.and_eq_true, decide_eq_true_eq] at hc
    exact hi (hc.2.symm.trans (hq e hc.1))

theorem ordered_double (hasher_ : K → Nat) (m : HashMap K V) (L : List (Entry K V))
    (h : Ordered hasher_ m L) :
    Ordered hasher_ (rehash hasher_ m (m.buckets_.length * 2)) L := by
  have hpos := h.pos
  have hlen := length_rehash hasher_ m (m.buckets_.length * 2)
  refine ⟨by rw [hlen]; omega, h.nodup, ?_⟩
  rw [hlen, rehash_eq_layout]
  apply List.ext_getElem?
  intro j
  rw [layout_index, layout_index]
  by_cases hj : j < m.buckets_.length * 2
  · rw [if_pos hj, if_pos hj]
    congr 1
    have hent : entries m = (layout hasher_ m.buckets_.length L).flatten :=
      congrArg List.flatten h.layout_eq
    rw [hent]
    apply filter_flatten_layout hasher_ _ L _ (j % m.buckets_.length) (Nat.mod_lt _ hpos)
    intro e he
    simp only [decide_eq_true_eq] at he
    rw [← he, Nat.mod_mod_of_dvd _ (Dvd.intro _ rfl)]
  · rw [if_neg hj, if_neg hj]

theorem ordered_maybe_rehash (hasher_ : K → Nat) (m : HashMap K V) (L : List (Entry K V))
    (h : Ordered hasher_ m L) : Ordered hasher_ (maybe_rehash_for_insert hasher_ m) L := by
  unfold maybe_rehash_for_insert
  simp only
  split
  · exact ordered_double hasher_ m L h
  · exact h

theorem ordered_bucket (hasher_ : K → Nat) (m : HashMap K V) (L : List (Entry K V))
    (h : Ordered hasher_ m L) (j : Nat) (hj : j < m.buckets_.length) :
    m.buckets_.getD j [] = L.filter (fun e => decide (hasher_ e.key % m.buckets_.length = j)) := by
  rw [List.getD_eq_getElem?_getD]
  conv_lhs => rw [h.layout_eq]
  rw [layout_index, if_pos hj]
  rfl

theorem ordered_push_new (hasher_ : K → Nat) (m : HashMap K V) (L : List (Entry K V))
    (h : Ordered hasher_ m L) (key : K) (value : V) (size1 : Nat)
    (hk : key ∉ L.map Entry.key) :
    Ordered hasher_
      (HashMap.mk (m.buckets_.set (bucket_index hasher_ m key)
        (m.buckets_.getD (bucket_index hasher_ m key) [] ++ [{ key := key, value := value }]))
        size1)
      (L ++ [{ key := key, value := value }]) := by
  have hi : bucket_index hasher_ m key < m.buckets_.length := Nat.mod_lt _ h.pos
  refine ⟨by simpa using h.pos, ?_, ?_⟩
  · rw [List.map_append, List.nodup_append]
    refine ⟨h.nodup, by simp, ?_⟩
    intro a ha hb
    simp only [List.map_cons, List.map_nil, List.mem_singleton] at hb
    subst hb
    exact hk ha
  · simp only [List.length_set]
    apply List.ext_getElem?
    intro j
    rw [List.getElem?_set, layout_index, ordered_bucket hasher_ m L h _ hi]
    by_cases hj : j < m.buckets_.length
    · rw [if_pos hj, List.filter_append]
      by_cases hij : bucket_index hasher_ m key = j
      · subst hij
        rw [if_pos rfl, if_pos hi]
        simp [List.filter_cons, bucket_index]
      · rw [if_neg hij, List.getElem?_eq_getElem hj]
        have := ordered_bucket hasher_ m L h j hj
        rw [List.getD_eq_getElem _ _ hj] at this
        rw [this]
        have hne : ¬ hasher_ key % m.buckets_.length = j := hij
        simp [List.filter_cons, hne]
    · rw [if_neg hj]
      have hij : bucket_index hasher_ m key ≠ j := by omega
      rw [if_neg hij, List.getElem?_eq_none (by omega)]

theorem assign_existing_eq_map [DecidableEq K] (key : K) (value : V) (b b1 : List (Entry K V))
    (hnd : (b.map Entry.key).Nodup) (h : assign_existing key value b = some b1) :
    b1 = b.map (assign_entry key value) := by
  induction b generalizing b1 with
  | nil => simp [assign_existing] at h
  | cons x xs ih =>
    simp only [List.map_cons, List.nodup_cons] at hnd
    simp only [assign_existing] at h
    by_cases hx : x.key = key
    · simp only [hx, if_true, Option.some.injEq] at h
      subst h
      have hxs : xs.map (assign_entry key value) = xs := by
        conv_rhs => rw [← List.map_id xs]
        apply List.map_congr_left
        intro e he
        have : e.key ≠ key := by
          intro hc
          exact hnd.1 (List.mem_map.2 ⟨e, he, hc.trans hx.symm⟩)
        simp [assign_entry, this]
      simp [assign_entry, hx, hxs]
    · simp only [hx, if_false] at h
      cases hr : assign_existing key value xs with
      | none => simp [hr] at h
      | some r =>
        simp only [hr, Option.map_some', Option.some.injEq] at h
        subst h
        simp [assign_entry, hx, ih r hnd.2 hr]

theorem ordered_assign [DecidableEq K] (hasher_ : K → Nat) (m : HashMap K V)
    (L : List (Entry K V)) (h : Ordered hasher_ m L) (key : K) (value : V)
    (b1 : List (Entry K V))
    (hb1 : assign_existing key value (m.buckets_.getD (bucket_index hasher_ m key) []) = some b1) :
    Ordered hasher_ (HashMap.mk (m.buckets_.set (bucket_index hasher_ m key) b1) m.size_)
      (L.map (assign_entry key value)) := by
  have hi : bucket_index hasher_ m key < m.buckets_.length := Nat.mod_lt _ h.pos
  have hkey : ∀ e : Entry K V, (assign_entry key value e).key = e.key := by
    intro e
    unfold assign_entry
    split
    · rename_i hk
      exact hk.symm
    · rfl
  have hkeys : (L.map (assign_entry key value)).map Entry.key = L.map Entry.key := by
    rw [List.map_map]
    apply List.map_congr_left
    intro e _
    exact hkey e
  have hfilter : ∀ j, (L.map (assign_entry key value)).filter
      (fun e => decide (hasher_ e.key % m.buckets_.length = j)) =
      (L.filter (fun e => decide (hasher_ e.key % m.buckets_.length = j))).map
        (assign_entry key value) := by
    intro j
    rw [List.filter_map]
    congr 1
    apply List.filter_congr
    intro e _
    simp [Function.comp, hkey e]
  have hbucket := ordered_bucket hasher_ m L h _ hi
  have hbnd : ((m.buckets_.getD (bucket_index hasher_ m key) []).map Entry.key).Nodup := by
    rw [hbucket]
    exact List.Nodup.sublist ((List.filter_sublist _).map Entry.key) h.nodup
  have hb1eq := assign_existing_eq_map key value _ b1 hbnd hb1
  refine ⟨by simpa using h.pos, by rw [hkeys]; exact h.nodup, ?_⟩
  simp only [List.length_set]
  apply List.ext_getElem?
  intro j
  rw [List.getElem?_set, layout_index, hfilter]
  by_cases hj : j < m.buckets_.length
  · rw [if_pos hj]
    by_cases hij : bucket_index hasher_ m key = j
    · subst hij
      rw [if_pos rfl, if_pos hi, hb1eq, hbucket]
    · rw [if_neg hij, List.getElem?_eq_getElem hj]
      have := ordered_bucket hasher_ m L h j hj
      rw [List.getD_eq_getElem _ _ hj] at this
      rw [this]
      congr 1
      conv_lhs => rw [← List.map_id (L.filter _)]
      apply List.map_congr_left
      intro e he
      have he2 := (List.mem_filter.1 he).2
      simp only [decide_eq_true_eq] at he2
      have : e.key ≠ key := by
        intro hc
        rw [hc] at he2
        exact hij he2
      simp [assign_entry, this]
  · rw [if_neg hj]
    have hij : bucket_index hasher_ m key ≠ j := by omega
    rw [if_neg hij, List.getElem?_eq_none (by omega)]

theorem ordered_mem_bucket (hasher_ : K → Nat) (m : HashMap K V) (L : List (Entry K V))
    (h : Ordered hasher_ m L) (key : K) (e : Entry K V) (hk : e.key = key) :
    e ∈ m.buckets_.getD (bucket_index hasher_ m key) [] ↔ e ∈ L := by
  have hi : bucket_index hasher_ m key < m.buckets_.length := Nat.mod_lt _ h.pos
  rw [ordered_bucket hasher_ m L h _ hi, List.mem_filter]
  simp [bucket_index, hk]

theorem ordered_insert_or_assign [DecidableEq K] (hasher_ : K → Nat) (m : HashMap K V)
    (L : List (Entry K V)) (h : Ordered hasher_ m L) (key : K) (value : V) :
    ∃ L1, Ordered hasher_ (insert_or_assign hasher_ m key value).1 L1 ∧
      L1.map Entry.key =
        if key ∈ L.map Entry.key then L.map Entry.key else L.map Entry.key ++ [key] := by
  have h1 := ordered_maybe_rehash hasher_ m L h
  cases ha : assign_existing key value
      ((maybe_rehash_for_insert hasher_ m).buckets_.getD
        (bucket_index hasher_ (maybe_rehash_for_insert hasher_ m) key) []) with
  | none =>
    have hk : key ∉ L.map Entry.key := by
      intro hmem
      obtain ⟨e, he, hek⟩ := List.mem_map.1 hmem
      have := (ordered_mem_bucket hasher_ _ L h1 key e hek).2 he
      exact assign_existing_none.1 ha e this hek
    refine ⟨L ++ [{ key := key, value := value }], ?_, by simp [hk]⟩
    simp only [insert_or_assign, ha]
    exact ordered_push_new hasher_ _ L h1 key value _ hk
  | some b1 =>
    obtain ⟨l1, e0, l2, hb, _, he0, _⟩ := assign_existing_split ha
    have hk : key ∈ L.map Entry.key := by
      have hmem : e0 ∈ (maybe_rehash_for_insert hasher_ m).buckets_.getD
          (bucket_index hasher_ (maybe_rehash_for_insert hasher_ m) key) [] := by
        rw [hb]
        simp
      exact List.mem_map.2 ⟨e0, (ordered_mem_bucket hasher_ _ L h1 key e0 he0).1 hmem, he0⟩
    refine ⟨L.map (assign_entry key value), ?_, ?_⟩
    · simp only [insert_or_assign, ha]
      exact ordered_assign hasher_ _ L h1 key value b1 ha
    · rw [if_pos hk, List.map_map]
      apply List.map_congr_left
      intro e _
      simp only [Function.comp, assign_entry]
      split
      · rename_i hke
        exact hke.symm
      · rfl

theorem ordered_operator_subscript [DecidableEq K] [Inhabited V] (hasher_ : K → Nat)
    (m : HashMap K V) (L : List (Entry K V)) (h : Ordered hasher_ m L) (key : K) :
    ∃ L1, Ordered hasher_ (operator_subscript hasher_ m key).1 L1 ∧
      L1.map Entry.key =
        if key ∈ L.map Entry.key then L.map Entry.key else L.map Entry.key ++ [key] := by
  have h1 := ordered_maybe_rehash hasher_ m L h
  cases hf : find_entry key
      ((maybe_rehash_for_insert hasher_ m).buckets_.getD
        (bucket_index hasher_ (maybe_rehash_for_insert hasher_ m) key) []) with
  | none =>
    have hk : key ∉ L.map Entry.key := by
      intro hmem
      obtain ⟨e, he, hek⟩ := List.mem_map.1 hmem
      have := (ordered_mem_bucket hasher_ _ L h1 key e hek).2 he
      exact find_entry_none.1 hf e this hek
    refine ⟨L ++ [{ key := key, value := default }], ?_, by simp [hk]⟩
    simp only [operator_subscript, hf]
    exact ordered_push_new hasher_ _ L h1 key default _ hk
  | some e0 =>
    obtain ⟨hmem, he0⟩ := find_entry_some hf
    have hk : key ∈ L.map Entry.key :=
      List.mem_map.2 ⟨e0, (ordered_mem_bucket hasher_ _ L h1 key e0 he0).1 hmem, he0⟩
    refine ⟨L, ?_, by rw [if_pos hk]⟩
    simp only [operator_subscript, hf]
    exact h1

theorem ordered_default_map (hasher_ : K → Nat) :
    Ordered hasher_ (default_map : HashMap K V) [] := by
  refine ⟨by simp [default_map, k_default_bucket_count], by simp, ?_⟩
  apply List.ext_getElem?
  intro j
  rw [layout_index]
  simp only [default_map, k_default_bucket_count, List.length_replicate, List.getElem?_replicate,
    List.filter_nil]

theorem ordered_build_from [DecidableEq K] [Inhabited V] (hasher_ : K → Nat)
    (ops : List (BuildOp K V)) :
    ∀ (m : HashMap K V) (L : List (Entry K V)), Ordered hasher_ m L →
      ∃ L1, Ordered hasher_ (ops.foldl (build_step hasher_) m) L1 ∧
        L1.map Entry.key =
          (ops.map BuildOp.key).foldl
            (fun order key => if key ∈ order then order else order ++ [key])
            (L.map Entry.key) := by
  induction ops with
  | nil => exact fun m L h => ⟨L, h, rfl⟩
  | cons op ops ih =>
    intro m L h
    have hstep : ∃ L1, Ordered hasher_ (build_step hasher_ m op) L1 ∧
        L1.map Entry.key =
          if op.key ∈ L.map Entry.key then L.map Entry.key else L.map Entry.key ++ [op.key] := by
      cases op with
      | insert_or_assign key value => exact ordered_insert_or_assign hasher_ m L h key value
      | subscript key => exact ordered_operator_subscript hasher_ m L h key
    obtain ⟨L1, hL1, hkeys⟩ := hstep
    obtain ⟨L2, hL2, hkeys2⟩ := ih _ L1 hL1
    refine ⟨L2, hL2, ?_⟩
    rw [hkeys2, hkeys]
    rfl

theorem ordered_iterate_doubled (hasher_ : K → Nat) (m : HashMap K V) (L : List (Entry K V))
    (h : Ordered hasher_ m L) (d : Nat) : Ordered hasher_ ((doubled hasher_)^[d] m) L := by
  induction d with
  | zero => exact h
  | succ d ih =>
    rw [Function.iterate_succ_apply']
    exact ordered_double hasher_ _ L ih

theorem first_inserted_sample : first_inserted [3, 1, 3, 2, 1, 4] = [3, 1, 2, 4] := by
  decide

/-- C27: bucket order: in every map built from a default-constructed map by `insert_or_assign`
and `operator[]` calls only, also after any number of further doublings of the bucket count,
the keys of each bucket are the keys of that bucket taken in the order of their first
insertion; so the entries of each bucket appear in first-insertion order. -/
theorem hashmap_bucket_order_is_insertion_order [DecidableEq K] [Inhabited V]
    (hasher_ : K → Nat) (ops : List (BuildOp K V)) (doublings : Nat) :
    ((doubled hasher_)^[doublings] (build hasher_ ops)).buckets_.map (List.map Entry.key) =
      (List.range (bucket_count ((doubled hasher_)^[doublings] (build hasher_ ops)))).map
        (fun j => (first_inserted (ops.map BuildOp.key)).filter
          (fun key => decide (hasher_ key %
            bucket_count ((doubled hasher_)^[doublings] (build hasher_ ops)) = j))) ∧
    (∀ b ∈ ((doubled hasher_)^[doublings] (build hasher_ ops)).buckets_,
      (b.map Entry.key).Sublist (first_inserted (ops.map BuildOp.key))) := by
  obtain ⟨L, hL, hkeys⟩ :=
    ordered_build_from hasher_ ops default_map [] (ordered_default_map hasher_)
  have hord := ordered_iterate_doubled hasher_ _ L hL doublings
  have horder : L.map Entry.key = first_inserted (ops.map BuildOp.key) := hkeys
  have hbuild : List.foldl (build_step hasher_) default_map ops = build hasher_ ops := rfl
  rw [hbuild] at hord
  generalize (doubled hasher_)^[doublings] (build hasher_ ops) = m at hord
  constructor
  · conv_lhs => rw [hord.layout_eq]
    rw [← horder, bucket_count]
    unfold layout
    rw [List.map_map]
    apply List.map_congr_left
    intro j _
    simp only [Function.comp]
    rw [List.filter_map]
    rfl
  · intro b hb
    rw [hord.layout_eq] at hb
    obtain ⟨j, _, rfl⟩ := List.mem_map.1 hb
    rw [← horder]
    exact (List.filter_sublist _).map Entry.key

end HashMap

end exemplar

/-! ## The queue -/

namespace exemplar

namespace Queue

variable {T : Type}

theorem queue_cells_index_inj {cells : List (Nat × T)} (h : (cells.map Prod.fst).Nodup)
    {i j : Nat} {c d : Nat × T} (hi : cells[i]? = some c) (hj : cells[j]? = some d)
    (hcd : c.1 = d.1) : i = j := by
  obtain ⟨hil, hic⟩ := List.getElem?_eq_some_iff.mp hi
  obtain ⟨hjl, hjd⟩ := List.getElem?_eq_some_iff.mp hj
  have hil1 : i < (cells.map Prod.fst).length := by simpa using hil
  have hjl1 : j < (cells.map Prod.fst).length := by simpa using hjl
  have e : (cells.map Prod.fst)[i] = (cells.map Prod.fst)[j] := by
    simp only [List.getElem_map, hic, hjd, hcd]
  exact (List.Nodup.getElem_inj_iff h).mp e

theorem queue_rep_lt {q : Queue T} {cells : List (Nat × T)} (h : Rep q cells) {i : Nat}
    {c : Nat × T} (hi : cells[i]? = some c) : c.1 < q.store.length :=
  (List.getElem?_eq_some_iff.mp (h.nodes i c hi)).1

theorem queue_rep_default : Rep (default_queue : Queue T) [] :=
  ⟨by simp, by simp, rfl, rfl, rfl⟩

theorem queue_rep_enqueue {q : Queue T} {cells : List (Nat × T)} (h : Rep q cells)
    (value : T) :
    ∃ q1, enqueue q value = Outcome.returned q1 ∧
      Rep q1 (cells ++ [(q.store.length, value)]) := by
  have hfresh : ∀ (i : Nat) (c : Nat × T), cells[i]? = some c → c.1 < q.store.length :=
    fun i c hi => queue_rep_lt h hi
  have hnodup : ((cells ++ [(q.store.length, value)]).map Prod.fst).Nodup := by
    rw [List.map_append]
    refine List.Nodup.append h.nodup (by simp) ?_
    intro a ha hb
    simp only [List.map_cons, List.map_nil, List.mem_singleton] at hb
    obtain ⟨c, hc, hca⟩ := List.mem_map.mp ha
    obtain ⟨i, hi⟩ := List.getElem?_of_mem hc
    have := hfresh i c hi
    omega
  rcases Nat.eq_zero_or_pos cells.length with hlen | hlen
  · have hnil : cells = [] := List.length_eq_zero.mp hlen
    subst hnil
    have ht : q.tail_ = none := by simpa using h.tail_eq
    have henq : enqueue q value = Outcome.returned
        { store := q.store ++ [some { value := value, next := none }],
          head_ := some q.store.length, tail_ := some q.store.length,
          size_ := q.size_ + 1 } := by
      simp only [enqueue, link_back, ht]
    refine ⟨_, henq, ?_⟩
    refine ⟨hnodup, ?_, by simp, by simp, ?_⟩
    · intro i c hi
      have hi0 : i = 0 := by
        by_contra hne
        have : 1 ≤ i := by omega
        simp [List.getElem?_eq_none, this] at hi
      subst hi0
      simp only [List.nil_append, List.getElem?_cons_zero, Option.some.injEq] at hi
      subst hi
      simp
    · simp only [List.nil_append, List.length_singleton]
      have := h.size_eq
      simp only [List.length_nil] at this
      omega
  · obtain ⟨last, hlast⟩ : ∃ last, cells[cells.length - 1]? = some last :=
      ⟨cells[cells.length - 1], List.getElem?_eq_getElem (by omega)⟩
    have ht : q.tail_ = some last.1 := by rw [h.tail_eq, hlast]; rfl
    have hlt := hfresh _ _ hlast
    have hstore := h.nodes _ _ hlast
    have hnone : cells[cells.length - 1 + 1]? = none :=
      List.getElem?_eq_none (by omega)
    rw [hnone] at hstore
    have hnode : node_at (q.store ++ [some { value := value, next := none }]) (some last.1) =
        some { value := last.2, next := none } := by
      simp only [node_at, List.getD_eq_getElem?_getD, List.getElem?_append_left hlt, hstore]
      rfl
    have henq : enqueue q value = Outcome.returned
        { store := (q.store ++ [some (Node.mk value none)]).set last.1
            (some (Node.mk last.2 (some q.store.length))),
          head_ := q.head_, tail_ := some q.store.length, size_ := q.size_ + 1 } := by
      simp only [enqueue, link_back, ht, hnode]
    refine ⟨_, henq, ?_⟩
    refine ⟨hnodup, ?_, ?_, ?_, ?_⟩
    · intro i c hi
      simp only
      rcases Nat.lt_trichotomy i (cells.length - 1) with hlt1 | heq | hgt
      · have hi1 : cells[i]? = some c := by
          rwa [List.getElem?_append_left (by omega)] at hi
        have hne : last.1 ≠ c.1 := by
          intro e
          have := queue_cells_index_inj h.nodup hlast hi1 e
          omega
        have hc := hfresh i c hi1
        rw [List.getElem?_set_ne hne, List.getElem?_append_left hc, h.nodes i c hi1,
          List.getElem?_append_left (by omega)]
      · subst heq
        have hi1 : cells[cells.length - 1]? = some c := by
          rwa [List.getElem?_append_left (by omega)] at hi
        have hcl : c = last := by
          rw [hlast] at hi1
          exact (Option.some.inj hi1).symm
        subst hcl
        have e1 : cells.length - 1 + 1 = cells.length := by omega
        rw [List.getElem?_set_self (by simp only [List.length_append]; omega), e1,
          List.getElem?_append_right (le_refl _)]
        simp
      · have hil : i = cells.length := by
          by_contra hne
          have hbig : (cells ++ [(q.store.length, value)]).length ≤ i := by
            simp only [List.length_append, List.length_singleton]
            omega
          rw [List.getElem?_eq_none hbig] at hi
          cases hi
        subst hil
        rw [List.getElem?_append_right (le_refl _)] at hi
        simp only [Nat.sub_self, List.getElem?_cons_zero, Option.some.injEq] at hi
        subst hi
        simp only
        have hne : last.1 ≠ q.store.length := by omega
        have hbig : (cells ++ [(q.store.length, value)]).length ≤ cells.length + 1 := by
          simp only [List.length_append, List.length_singleton]
          omega
        rw [List.getElem?_set_ne hne, List.getElem?_append_right (le_refl _),
          List.getElem?_eq_none hbig]
        simp
    · simp only
      rw [h.head_eq, List.getElem?_append_left hlen]
    · simp only [List.length_append, List.length_singleton, Nat.add_sub_cancel]
      rw [List.getElem?_append_right (le_refl _)]
      simp
    · simp only [List.length_append, List.length_singleton]
      have := h.size_eq
      omega

theorem queue_rep_dequeue_nil {q : Queue T} (h : Rep q []) :
    dequeue q = Outcome.thrown RuntimeError.runtime_error := by
  have hs : q.size_ = 0 := h.size_eq
  simp [dequeue, empty, hs]

theorem queue_rep_dequeue_cons {q : Queue T} {c : Nat × T} {rest : List (Nat × T)}
    (h : Rep q (c :: rest)) :
    ∃ q1, dequeue q = Outcome.returned q1 ∧ Rep q1 rest := by
  have hs : q.size_ = rest.length + 1 := h.size_eq
  have hh : q.head_ = some c.1 := by
    rw [h.head_eq, List.getElem?_cons_zero]
    rfl
  have hstore := h.nodes 0 c (List.getElem?_cons_zero)
  rw [List.getElem?_cons_succ] at hstore
  have hnode : node_at q.store (some c.1) =
      some { value := c.2, next := (rest[0]?).map Prod.fst } := by
    simp only [node_at, List.getD_eq_getElem?_getD, hstore]
    rfl
  have hne : empty q = false := by simp [empty, hs]
  have hnd : c.1 ∉ rest.map Prod.fst ∧ (rest.map Prod.fst).Nodup := by
    simpa using h.nodup
  have hdeq : dequeue q = Outcome.returned
      { store := q.store.set c.1 none, head_ := (rest[0]?).map Prod.fst,
        tail_ := if q.size_ - 1 = 0 then none else q.tail_, size_ := q.size_ - 1 } := by
    simp only [dequeue, hne, Bool.false_eq_true, if_false, hh, hnode]
  refine ⟨_, hdeq, ?_⟩
  refine ⟨hnd.2, ?_, rfl, ?_, ?_⟩
  · intro i d hi
    simp only
    have hd : (c :: rest)[i + 1]? = some d := by simpa using hi
    have hne1 : c.1 ≠ d.1 := by
      intro e
      exact hnd.1 (e ▸ List.mem_map_of_mem Prod.fst (List.getElem?_mem hi))
    rw [List.getElem?_set_ne hne1, h.nodes (i + 1) d hd]
    simp
  · simp only [hs, Nat.add_sub_cancel]
    by_cases hr : rest.length = 0
    · have hnil : rest = [] := List.length_eq_zero.mp hr
      subst hnil
      simp
    · rw [if_neg hr, h.tail_eq]
      have e : (c :: rest).length - 1 = (rest.length - 1) + 1 := by
        simp only [List.length_cons]
        omega
      rw [e, List.getElem?_cons_succ]
  · simp only [hs, Nat.add_sub_cancel]

theorem queue_rep_front {q : Queue T} {cells : List (Nat × T)} (h : Rep q cells) :
    front q = fifo_front (cells.map Prod.snd) := by
  cases cells with
  | nil =>
    have hs : q.size_ = 0 := h.size_eq
    simp [front, empty, hs, fifo_front]
  | cons c rest =>
    have hs : q.size_ = rest.length + 1 := h.size_eq
    have hh : q.head_ = some c.1 := by
      rw [h.head_eq, List.getElem?_cons_zero]
      rfl
    have hstore := h.nodes 0 c (List.getElem?_cons_zero)
    simp [front, empty, hs, hh, node_at, hstore, fifo_front]

theorem queue_rep_back {q : Queue T} {cells : List (Nat × T)} (h : Rep q cells) :
    back q = fifo_back (cells.map Prod.snd) := by
  rcases Nat.eq_zero_or_pos cells.length with hlen | hlen
  · have hnil : cells = [] := List.length_eq_zero.mp hlen
    subst hnil
    have hs : q.size_ = 0 := h.size_eq
    simp [back, empty, hs, fifo_back]
  · obtain ⟨last, hlast⟩ : ∃ last, cells[cells.length - 1]? = some last :=
      ⟨cells[cells.length - 1], List.getElem?_eq_getElem (by omega)⟩
    have ht : q.tail_ = some last.1 := by rw [h.tail_eq, hlast]; rfl
    have hstore := h.nodes _ _ hlast
    have hs : q.size_ = cells.length := h.size_eq
    have hne : ¬ (empty q = true) := by
      simp only [empty, hs, beq_iff_eq]
      omega
    have hl : (cells.map Prod.snd).getLast? = some last.2 := by
      rw [List.getLast?_eq_getElem?, List.length_map, List.getElem?_map, hlast]
      rfl
    simp [back, hne, ht, node_at, hstore, fifo_back, hl]

theorem queue_rep_run (ops : List (QueueOp T)) :
    ∀ (q : Queue T) (cells : List (Nat × T)), Rep q cells →
      (∃ cells1, Rep (run_from q ops).1 cells1 ∧
        cells1.map Prod.snd = (fifo_run_from (cells.map Prod.snd) ops).1) ∧
      (run_from q ops).2 = (fifo_run_from (cells.map Prod.snd) ops).2 := by
  induction ops with
  | nil => exact fun q cells h => ⟨⟨cells, h, rfl⟩, rfl⟩
  | cons op ops ih =>
    intro q cells h
    cases op with
    | enqueue value =>
      obtain ⟨q1, hq1, hrep1⟩ := queue_rep_enqueue h value
      have e : (cells ++ [(q.store.length, value)]).map Prod.snd =
          fifo_enqueue (cells.map Prod.snd) value := by
        simp [fifo_enqueue]
      have := ih q1 _ hrep1
      rw [e] at this
      simpa only [run_from, fifo_run_from, step, fifo_step, hq1] using
        ⟨this.1, congrArg (List.cons (Outcome.returned ())) this.2⟩
    | dequeue =>
      cases cells with
      | nil =>
        have hq := queue_rep_dequeue_nil h
        have := ih q [] h
        have hrest := congrArg (List.cons (Outcome.thrown RuntimeError.runtime_error)) this.2
        simpa only [run_from, fifo_run_from, step, fifo_step, hq, fifo_dequeue, List.map_nil]
          using ⟨this.1, hrest⟩
      | cons c rest =>
        obtain ⟨q1, hq1, hrep1⟩ := queue_rep_dequeue_cons h
        have := ih q1 rest hrep1
        simpa only [run_from, fifo_run_from, step, fifo_step, hq1, fifo_dequeue, List.map_cons]
          using ⟨this.1, congrArg (List.cons (Outcome.returned ())) this.2⟩

/-- C21: `exemplar::Queue` is first in, first out. For every sequence of `enqueue` and
`dequeue` calls on a default-constructed queue, every call ends as the same call on a list
where `enqueue` appends at the end and `dequeue` removes the first element, so no call runs
into undefined behaviour and `dequeue` throws exactly on the empty list; afterwards `front()`
is the first element of that list, the oldest not yet dequeued, `back()` is its last element,
the most recently enqueued, `size()` is its length, and `front()`, `back()` and `dequeue()`
throw exactly when the list is empty. -/
theorem queue_is_fifo (ops : List (QueueOp T)) :
    (run_from default_queue ops).2 = (fifo_run_from ([] : List T) ops).2 ∧
    front (run_from default_queue ops).1 = fifo_front (fifo_run_from ([] : List T) ops).1 ∧
    back (run_from default_queue ops).1 = fifo_back (fifo_run_from ([] : List T) ops).1 ∧
    size (run_from default_queue ops).1 = (fifo_run_from ([] : List T) ops).1.length ∧
    (empty (run_from default_queue ops).1 = true ↔ (fifo_run_from ([] : List T) ops).1 = []) ∧
    (front (run_from default_queue ops).1 = Outcome.thrown RuntimeError.runtime_error ↔
      (fifo_run_from ([] : List T) ops).1 = []) ∧
    (back (run_from default_queue ops).1 = Outcome.thrown RuntimeError.runtime_error ↔
      (fifo_run_from ([] : List T) ops).1 = []) ∧
    (dequeue (run_from default_queue ops).1 = Outcome.thrown RuntimeError.runtime_error ↔
      (fifo_run_from ([] : List T) ops).1 = []) := by
  obtain ⟨⟨cells, hrep, hcells⟩, hres⟩ :=
    queue_rep_run ops default_queue [] queue_rep_default
  simp only [List.map_nil] at hcells hres
  have hsize : size (run_from default_queue ops).1 =
      (fifo_run_from ([] : List T) ops).1.length := by
    rw [← hcells, List.length_map]
    exact hrep.size_eq
  have hfront := queue_rep_front hrep
  have hback := queue_rep_back hrep
  rw [hcells] at hfront hback
  refine ⟨hres, hfront, hback, hsize, ?_, ?_, ?_, ?_⟩
  · simp only [empty, beq_iff_eq]
    rw [← List.length_eq_zero, ← hsize]
    rfl
  · rw [hfront]
    cases (fifo_run_from ([] : List T) ops).1 <;> simp [fifo_front]
  · rw [hback]
    cases hl : (fifo_run_from ([] : List T) ops).1.getLast? with
    | none =>
      have := List.getLast?_eq_none_iff.mp hl
      simp [fifo_back, hl, this]
    | some v =>
      have : (fifo_run_from ([] : List T) ops).1 ≠ [] := by
        intro e
        rw [e] at hl
        cases hl
      simp [fifo_back, hl, this]
  · rw [← hcells]
    cases cells with
    | nil => simp [queue_rep_dequeue_nil hrep]
    | cons c rest =>
      obtain ⟨q1, hq1, _⟩ := queue_rep_dequeue_cons hrep
      simp [hq1]

/-- The sample queue holds 2 and 3, in this order, and the fourth call of its run was the
only `dequeue`. -/
theorem queue_sample_run :
    front sample_queue = Outcome.returned 2 ∧ back sample_queue = Outcome.returned 3 ∧
    size sample_queue = 2 ∧
    (run_from sample_queue [QueueOp.dequeue, QueueOp.dequeue, QueueOp.dequeue]).2 =
      [Outcome.returned (), Outcome.returned (),
       Outcome.thrown RuntimeError.runtime_error] := by
  decide

end Queue

end exemplar

/-! ## The resizing array of `collections` -/

namespace collections

namespace ResizingArray

variable {T : Type}

theorem collections_resize_spec [Inhabited T] (a : ResizingArray T) (hwf : WF a) (n : Nat)
    (hn : a.m_size ≤ n) :
    resize a n =
      { m_data := a.m_data.take a.m_size ++ List.replicate (n - a.m_size) default,
        m_size := a.m_size, m_capacity := n } := by
  have hs := hwf.size_le
  have hl := hwf.length_eq
  simp only [resize, size]
  rw [exemplar.ResizingArray.ra_reserve_loop a.m_data n a.m_size (by omega) hn]

theorem collections_push_back_spec [Inhabited T] (a : ResizingArray T) (hwf : WF a) (value : T) :
    WF (push_back a value) ∧
    (push_back a value).m_size = a.m_size + 1 ∧
    (push_back a value).m_data.take (push_back a value).m_size =
      a.m_data.take a.m_size ++ [value] := by
  have hp := hwf.capacity_pos
  have hs := hwf.size_le
  have hl := hwf.length_eq
  have key : ∀ a1 : ResizingArray T, WF a1 → a1.m_size < a1.m_capacity →
      a1.m_size = a.m_size → a1.m_data.take a1.m_size = a.m_data.take a.m_size →
      WF (ResizingArray.mk (a1.m_data.set a1.m_size value) (a1.m_size + 1) a1.m_capacity) ∧
      a1.m_size + 1 = a.m_size + 1 ∧
      (a1.m_data.set a1.m_size value).take (a1.m_size + 1) = a.m_data.take a.m_size ++ [value] := by
    intro a1 hwf1 hlt hsz hel
    have hl1 := hwf1.length_eq
    have hlt1 : a1.m_size < a1.m_data.length := by omega
    have hlen : (a1.m_data.set a1.m_size value).length = a1.m_capacity := by
      rw [List.length_set]
      exact hl1
    refine ⟨⟨hwf1.capacity_pos, by simp only; omega, hlen⟩, by omega, ?_⟩
    rw [← hel, List.take_succ, List.set_take, List.set_eq_of_length_le (by simp),
      List.getElem?_set_self hlt1]
    rfl
  unfold push_back
  by_cases hfull : a.m_size = a.m_capacity
  · rw [if_pos hfull, ← hfull, collections_resize_spec a hwf _ (by omega)]
    apply key
    · refine ⟨by simp only; omega, by simp only; omega, ?_⟩
      simp only [List.length_append, List.length_take, List.length_replicate]
      omega
    · simp only
      omega
    · rfl
    · simp only
      rw [List.take_append_of_le_length (by simp; omega), List.take_take]
      simp
  · rw [if_neg hfull]
    exact key a hwf (by omega) rfl rfl

theorem collections_pushed_spec [Inhabited T] (values : List T) :
    ∀ a : ResizingArray T, WF a →
      WF (values.foldl push_back a) ∧
      (values.foldl push_back a).m_size = a.m_size + values.length ∧
      (values.foldl push_back a).m_data.take (values.foldl push_back a).m_size =
        a.m_data.take a.m_size ++ values := by
  induction values with
  | nil => exact fun a h => ⟨h, rfl, by simp⟩
  | cons v vs ih =>
    intro a h
    obtain ⟨h1, hs1, he1⟩ := collections_push_back_spec a h v
    obtain ⟨h2, hs2, he2⟩ := ih _ h1
    refine ⟨h2, ?_, ?_⟩
    · simp only [List.foldl_cons, List.length_cons]
      omega
    · simp only [List.foldl_cons]
      rw [he2, he1]
      simp

theorem collections_pushed_index [Inhabited T] (values : List T) (i : Nat) :
    size (pushed values) = values.length ∧
    operator_subscript (pushed values) i =
      (match values[i]? with
        | some value => Except.ok value
        | none => Except.error Exception.out_of_range) ∧
    (values.length ≤ i → operator_subscript (pushed values) i =
      Except.error Exception.out_of_range) := by
  have hwf0 : WF (default_array : ResizingArray T) :=
    ⟨by simp [default_array, with_capacity], by simp [default_array, with_capacity],
      by simp [default_array, with_capacity]⟩
  obtain ⟨hwf, hsz, hel⟩ := collections_pushed_spec values default_array hwf0
  have hsize : (pushed values).m_size = values.length := by
    have : (default_array : ResizingArray T).m_size = 0 := rfl
    unfold pushed
    omega
  have hel1 : (pushed values).m_data.take values.length = values := by
    have : (default_array : ResizingArray T).m_size = 0 := rfl
    unfold pushed
    rw [← hsize]
    unfold pushed
    rw [hel, this]
    simp
  have hthrow : values.length ≤ i →
      operator_subscript (pushed values) i = Except.error Exception.out_of_range := by
    intro hi
    simp [operator_subscript, size, hsize, hi]
  refine ⟨hsize, ?_, hthrow⟩
  by_cases hi : i < values.length
  · have hl := hwf.length_eq
    have hs := hwf.size_le
    have hil : i < (pushed values).m_data.length := by
      have : (pushed values).m_size ≤ (pushed values).m_data.length := by
        unfold pushed
        omega
      omega
    have hget : (pushed values).m_data[i]? = values[i]? := by
      conv_rhs => rw [← hel1]
      rw [List.getElem?_take, if_pos hi]
    rw [← hget, List.getElem?_eq_getElem hil]
    have hni : ¬ i ≥ values.length := by omega
    simp only [operator_subscript, size, hsize, hni, if_false,
      List.getD_eq_getElem _ _ hil]
  · have hi1 : values.length ≤ i := by omega
    rw [hthrow hi1, List.getElem?_eq_none hi1]

/-- With arguments that are read intact (see `push_back_ref`):
after any sequence of `n` `push_back` calls on a default-constructed array, of
initial capacity 1, `size()` is `n`, `operator[](i)` returns the `i`-th pushed value for every
`i < n`, whatever resizes happened, and throws `std::out_of_range` for every `i >= n`. In
the illustration program, after pushing 1.0, 2.0, 3.0 and 4.0 the element at index 2 is
3.0. -/
theorem collections_resizing_array_push_back_index [Inhabited T] (values : List T) (i : Nat) :
    (default_array : ResizingArray T).m_capacity = 1 ∧
    size (pushed values) = values.length ∧
    operator_subscript (pushed values) i =
      (match values[i]? with
        | some value => Except.ok value
        | none => Except.error Exception.out_of_range) ∧
    (values.length ≤ i → operator_subscript (pushed values) i =
      Except.error Exception.out_of_range) ∧
    operator_subscript (pushed ([1.0, 2.0, 3.0, 4.0] : List Float)) 2 = Except.ok 3.0 :=
  ⟨rfl, (collections_pushed_index values i).1, (collections_pushed_index values i).2.1,
    (collections_pushed_index values i).2.2,
    (collections_pushed_index ([1.0, 2.0, 3.0, 4.0] : List Float) 2).2.1⟩

end ResizingArray

end collections

/-! ## The doubly linked list -/

namespace collections

namespace DoubleLinkedList

variable {T : Type}

theorem dll_cells_index_inj {cells : List (Nat × T)} (h : (cells.map Prod.fst).Nodup)
    {i j : Nat} {c d : Nat × T} (hi : cells[i]? = some c) (hj : cells[j]? = some d)
    (hcd : c.1 = d.1) : i = j := by
  obtain ⟨hil, hic⟩ := List.getElem?_eq_some_iff.mp hi
  obtain ⟨hjl, hjd⟩ := List.getElem?_eq_some_iff.mp hj
  have hil1 : i < (cells.map Prod.fst).length := by simpa using hil
  have hjl1 : j < (cells.map Prod.fst).length := by simpa using hjl
  have e : (cells.map Prod.fst)[i] = (cells.map Prod.fst)[j] := by
    simp only [List.getElem_map, hic, hjd, hcd]
  exact (List.Nodup.getElem_inj_iff h).mp e

theorem dll_rep_lt {l : DoubleLinkedList T} {cells : List (Nat × T)} (h : Rep l cells)
    {i : Nat} {c : Nat × T} (hi : cells[i]? = some c) : c.1 < l.store.length :=
  (List.getElem?_eq_some_iff.mp (h.nodes i c hi)).1

theorem dll_set_next_fresh (store : List (Option (Node T))) (node : Node T)
    (next : Option Nat) :
    set_next (store ++ [some node]) (some store.length) next =
      some (store ++ [some { node with next := next }]) := by
  simp [set_next, List.getD_eq_getElem?_getD]

theorem dll_set_prev_fresh (store : List (Option (Node T))) (node : Node T)
    (prev : Option Nat) :
    set_prev (store ++ [some node]) (some store.length) prev =
      some (store ++ [some { node with prev := prev }]) := by
  simp [set_prev, List.getD_eq_getElem?_getD]

theorem dll_set_next_at {store : List (Option (Node T))} {address : Nat} {node : Node T}
    (h : store[address]? = some (some node)) (next : Option Nat) :
    set_next store (some address) next =
      some (store.set address (some { node with next := next })) := by
  simp [set_next, List.getD_eq_getElem?_getD, h]

theorem dll_set_prev_at {store : List (Option (Node T))} {address : Nat} {node : Node T}
    (h : store[address]? = some (some node)) (prev : Option Nat) :
    set_prev store (some address) prev =
      some (store.set address (some { node with prev := prev })) := by
  simp [set_prev, List.getD_eq_getElem?_getD, h]

theorem dll_delete_node_at {store : List (Option (Node T))} {address : Nat} {node : Node T}
    (h : store[address]? = some (some node)) :
    delete_node store address = some (store.set address none) := by
  simp [delete_node, List.getD_eq_getElem?_getD, h]

theorem dll_node_at {store : List (Option (Node T))} {address : Nat} {node : Node T}
    (h : store[address]? = some (some node)) :
    node_at store (some address) = some node := by
  simp [node_at, List.getD_eq_getElem?_getD, h]

theorem dll_rep_default : Rep (default_list : DoubleLinkedList T) [] :=
  ⟨by simp, by simp, rfl, rfl, rfl⟩

theorem dll_fresh_nodup {l : DoubleLinkedList T} {cells : List (Nat × T)} (h : Rep l cells) :
    l.store.length ∉ cells.map Prod.fst := by
  intro ha
  obtain ⟨c, hc, hca⟩ := List.mem_map.mp ha
  obtain ⟨i, hi⟩ := List.getElem?_of_mem hc
  have := dll_rep_lt h hi
  omega

theorem dll_rep_push_front {l : DoubleLinkedList T} {cells : List (Nat × T)}
    (h : Rep l cells) (value : T) :
    ∃ l1, push_front l value = Outcome.returned l1 ∧
      Rep l1 ((l.store.length, value) :: cells) := by
  have hnodup : (((l.store.length, value) :: cells).map Prod.fst).Nodup := by
    rw [List.map_cons, List.nodup_cons]
    exact ⟨dll_fresh_nodup h, h.nodup⟩
  cases cells with
  | nil =>
    have hs : l.m_size = 0 := h.size_eq
    have hh : l.m_head = none := h.head_eq
    have hpush : push_front l value = Outcome.returned
        { store := l.store ++ [some (Node.mk value none none)],
          m_head := some l.store.length, m_tail := some l.store.length, m_size := 1 } := by
      simp [push_front, dll_set_next_fresh, dll_set_prev_fresh, empty, size, hs, hh]
    refine ⟨_, hpush, hnodup, ?_, by simp, by simp, by simp⟩
    intro i c hi
    rcases i with _ | i
    · simp only [List.getElem?_cons_zero, Option.some.injEq] at hi
      subst hi
      simp
    · simp at hi
  | cons c0 rest =>
    have hs : l.m_size = rest.length + 1 := h.size_eq
    have hh : l.m_head = some c0.1 := by
      rw [h.head_eq, List.getElem?_cons_zero]
      rfl
    have h0 := h.nodes 0 c0 List.getElem?_cons_zero
    simp only [if_true, Nat.zero_add, List.getElem?_cons_succ] at h0
    have hlt0 := dll_rep_lt h (List.getElem?_cons_zero : (c0 :: rest)[0]? = some c0)
    have h0a : (l.store ++ [some (Node.mk value none (some c0.1))])[c0.1]? =
        some (some (Node.mk c0.2 none ((rest[0]?).map Prod.fst))) := by
      rw [List.getElem?_append_left hlt0, h0]
    have hpush : push_front l value = Outcome.returned
        { store := (l.store ++ [some (Node.mk value none (some c0.1))]).set c0.1
            (some (Node.mk c0.2 (some l.store.length) ((rest[0]?).map Prod.fst))),
          m_head := some l.store.length, m_tail := l.m_tail,
          m_size := rest.length + 1 + 1 } := by
      simp [push_front, dll_set_next_fresh, dll_set_prev_fresh, empty, size, hs, hh,
        dll_set_prev_at h0a]
    refine ⟨_, hpush, hnodup, ?_, by simp, ?_, by simp⟩
    · intro i c hi
      simp only
      have hne0 : c0.1 ≠ l.store.length := by omega
      rcases i with _ | _ | j
      · simp only [List.getElem?_cons_zero, Option.some.injEq] at hi
        subst hi
        simp only
        rw [List.getElem?_set_ne hne0, List.getElem?_append_right (le_refl _)]
        simp
      · simp only [List.getElem?_cons_succ, List.getElem?_cons_zero, Option.some.injEq] at hi
        subst hi
        rw [List.getElem?_set_self (by simp only [List.length_append]; omega)]
        simp
      · simp only [List.getElem?_cons_succ] at hi
        have hi1 : (c0 :: rest)[j + 1]? = some c := by simpa using hi
        have hne : c0.1 ≠ c.1 := by
          intro e
          have := dll_cells_index_inj h.nodup
            (List.getElem?_cons_zero : (c0 :: rest)[0]? = some c0) hi1 e
          omega
        have hc := dll_rep_lt h hi1
        rw [List.getElem?_set_ne hne, List.getElem?_append_left hc, h.nodes (j + 1) c hi1]
        simp
    · simp only
      rw [h.tail_eq]
      simp

theorem dll_rep_push_back {l : DoubleLinkedList T} {cells : List (Nat × T)}
    (h : Rep l cells) (value : T) :
    ∃ l1, push_back l value = Outcome.returned l1 ∧
      Rep l1 (cells ++ [(l.store.length, value)]) := by
  rcases Nat.eq_zero_or_pos cells.length with hlen | hlen
  · have hnil : cells = [] := List.length_eq_zero.mp hlen
    subst hnil
    have hs : l.m_size = 0 := h.size_eq
    have he : empty l = true := by simp [empty, size, hs]
    obtain ⟨l1, hl1, hrep⟩ := dll_rep_push_front h value
    exact ⟨l1, by simp only [push_back, he, if_true, hl1], hrep⟩
  · have hfresh : ∀ (i : Nat) (c : Nat × T), cells[i]? = some c → c.1 < l.store.length :=
      fun i c hi => dll_rep_lt h hi
    have hnodup : ((cells ++ [(l.store.length, value)]).map Prod.fst).Nodup := by
      rw [List.map_append]
      refine List.Nodup.append h.nodup (by simp) ?_
      intro a ha hb
      simp only [List.map_cons, List.map_nil, List.mem_singleton] at hb
      exact dll_fresh_nodup h (hb ▸ ha)
    obtain ⟨last, hlast⟩ : ∃ last, cells[cells.length - 1]? = some last :=
      ⟨cells[cells.length - 1], List.getElem?_eq_getElem (by omega)⟩
    have hs : l.m_size = cells.length := h.size_eq
    have he : empty l = false := by
      simp only [empty, size, hs, beq_eq_false_iff_ne]
      omega
    have ht : l.m_tail = some last.1 := by rw [h.tail_eq, hlast]; rfl
    have hlt := hfresh _ _ hlast
    have hstore := h.nodes _ _ hlast
    have hnone : cells[cells.length - 1 + 1]? = none := List.getElem?_eq_none (by omega)
    rw [hnone] at hstore
    have hstore1 : (l.store ++ [some (Node.mk value (some last.1) none)])[last.1]? =
        some (some (Node.mk last.2
          (if cells.length - 1 = 0 then none else (cells[cells.length - 1 - 1]?).map Prod.fst)
          none)) := by
      rw [List.getElem?_append_left hlt, hstore]
      rfl
    have hpush : push_back l value = Outcome.returned
        { store := (l.store ++ [some (Node.mk value (some last.1) none)]).set last.1
            (some (Node.mk last.2
              (if cells.length - 1 = 0 then none
                else (cells[cells.length - 1 - 1]?).map Prod.fst)
              (some l.store.length))),
          m_head := l.m_head, m_tail := some l.store.length,
          m_size := cells.length + 1 } := by
      simp [push_back, he, ht, dll_set_next_fresh, dll_set_prev_fresh,
        dll_set_next_at hstore1, hs]
    refine ⟨_, hpush, hnodup, ?_, ?_, ?_, by simp⟩
    · intro i c hi
      simp only
      rcases Nat.lt_trichotomy i (cells.length - 1) with hlt1 | heq | hgt
      · have hi1 : cells[i]? = some c := by
          rwa [List.getElem?_append_left (by omega)] at hi
        have hne : last.1 ≠ c.1 := by
          intro e
          have := dll_cells_index_inj h.nodup hlast hi1 e
          omega
        have hc := hfresh i c hi1
        rw [List.getElem?_set_ne hne, List.getElem?_append_left hc, h.nodes i c hi1,
          List.getElem?_append_left (by omega), List.getElem?_append_left (by omega)]
      · subst heq
        have hi1 : cells[cells.length - 1]? = some c := by
          rwa [List.getElem?_append_left (by omega)] at hi
        have hcl : c = last := by
          rw [hlast] at hi1
          exact (Option.some.inj hi1).symm
        subst hcl
        have e1 : cells.length - 1 + 1 = cells.length := by omega
        rw [List.getElem?_set_self (by simp only [List.length_append]; omega), e1,
          List.getElem?_append_right (le_refl _), List.getElem?_append_left (by omega)]
        simp
      · have hil : i = cells.length := by
          by_contra hne
          have hbig : (cells ++ [(l.store.length, value)]).length ≤ i := by
            simp only [List.length_append, List.length_singleton]
            omega
          rw [List.getElem?_eq_none hbig] at hi
          cases hi
        subst hil
        rw [List.getElem?_append_right (le_refl _)] at hi
        simp only [Nat.sub_self, List.getElem?_cons_zero, Option.some.injEq] at hi
        subst hi
        simp only
        have hne : last.1 ≠ l.store.length := by omega
        have hbig : (cells ++ [(l.store.length, value)]).length ≤ cells.length + 1 := by
          simp only [List.length_append, List.length_singleton]
          omega
        have hne0 : cells.length ≠ 0 := by omega
        rw [List.getElem?_set_ne hne, List.getElem?_append_right (le_refl _),
          List.getElem?_eq_none hbig, if_neg hne0, List.getElem?_append_left (by omega),
          hlast]
        simp
    · simp only
      rw [h.head_eq, List.getElem?_append_left hlen]
    · simp only [List.length_append, List.length_singleton, Nat.add_sub_cancel]
      rw [List.getElem?_append_right (le_refl _)]
      simp

theorem dll_rep_pop_nil {l : DoubleLinkedList T} (h : Rep l []) :
    pop_front l = Outcome.returned l ∧ pop_back l = Outcome.returned l := by
  have hs : l.m_size = 0 := h.size_eq
  simp [pop_front, pop_back, empty, size, hs]

theorem dll_rep_pop_front {l : DoubleLinkedList T} {c0 : Nat × T} {rest : List (Nat × T)}
    (h : Rep l (c0 :: rest)) :
    ∃ l1, pop_front l = Outcome.returned l1 ∧ Rep l1 rest := by
  have hs : l.m_size = rest.length + 1 := h.size_eq
  have he : empty l = false := by simp [empty, size, hs]
  have hh : l.m_head = some c0.1 := by
    rw [h.head_eq, List.getElem?_cons_zero]
    rfl
  have h0 := h.nodes 0 c0 List.getElem?_cons_zero
  simp only [if_true, Nat.zero_add, List.getElem?_cons_succ] at h0
  have hnd : c0.1 ∉ rest.map Prod.fst ∧ (rest.map Prod.fst).Nodup := by
    simpa using h.nodup
  cases rest with
  | nil =>
    have hpop : pop_front l = Outcome.returned
        { store := l.store.set c0.1 none, m_head := none, m_tail := none, m_size := 0 } := by
      simp only [List.getElem?_nil, Option.map_none'] at h0
      simp [pop_front, he, hh, dll_node_at h0, dll_delete_node_at h0, hs]
    exact ⟨_, hpop, by simp, by simp, rfl, rfl, rfl⟩
  | cons c1 rest1 =>
    have h1 := h.nodes 1 c1 (by simp)
    simp only [List.getElem?_cons_succ, List.getElem?_cons_zero, Option.map_some',
      Nat.sub_self, one_ne_zero, if_false] at h0 h1
    have hne01 : c1.1 ≠ c0.1 := by
      intro e
      exact hnd.1 (by simp [e])
    have hkeep : (l.store.set c1.1
        (some (Node.mk c1.2 none ((rest1[0]?).map Prod.fst))))[c0.1]? =
          some (some (Node.mk c0.2 none (some c1.1))) := by
      rw [List.getElem?_set_ne hne01, h0]
    have hpop : pop_front l = Outcome.returned
        { store := (l.store.set c1.1
            (some (Node.mk c1.2 none ((rest1[0]?).map Prod.fst)))).set c0.1 none,
          m_head := some c1.1,
          m_tail := if rest1.length + 1 = 1 then some c1.1 else l.m_tail,
          m_size := rest1.length + 1 } := by
      have hs1 : l.m_size = rest1.length + 1 + 1 := hs
      simp [pop_front, he, hh, dll_node_at h0, dll_set_prev_at h1, dll_delete_node_at hkeep,
        hs1]
      rw [hs1, Nat.add_sub_cancel]
    refine ⟨_, hpop, hnd.2, ?_, by simp, ?_, by simp⟩
    · intro i c hi
      simp only
      have hi2 : (c0 :: c1 :: rest1)[i + 1]? = some c := by simpa using hi
      have hne0 : c0.1 ≠ c.1 := by
        intro e
        have := dll_cells_index_inj h.nodup
          (List.getElem?_cons_zero : (c0 :: c1 :: rest1)[0]? = some c0) hi2 e
        omega
      rcases i with _ | j
      · simp only [List.getElem?_cons_zero, Option.some.injEq] at hi
        subst hi
        have hlt1 : c1.1 < l.store.length := (List.getElem?_eq_some_iff.mp h1).1
        rw [List.getElem?_set_ne hne0, List.getElem?_set_self hlt1]
        simp
      · have hne1 : c1.1 ≠ c.1 := by
          intro e
          have := dll_cells_index_inj h.nodup
            (by simp : (c0 :: c1 :: rest1)[1]? = some c1) hi2 e
          omega
        rw [List.getElem?_set_ne hne0, List.getElem?_set_ne hne1, h.nodes (j + 1 + 1) c hi2]
        simp
    · simp only
      have ht := h.tail_eq
      simp only [List.length_cons, Nat.add_sub_cancel, List.getElem?_cons_succ] at ht
      by_cases hr : rest1.length = 0
      · have hnil : rest1 = [] := List.length_eq_zero.mp hr
        subst hnil
        simp
      · have hr1 : ¬ rest1.length + 1 = 1 := by omega
        rw [if_neg hr1, ht]
        simp

theorem dll_rep_pop_back {l : DoubleLinkedList T} {init : List (Nat × T)} {last : Nat × T}
    (h : Rep l (init ++ [last])) :
    ∃ l1, pop_back l = Outcome.returned l1 ∧ Rep l1 init := by
  have hs : l.m_size = init.length + 1 := by
    rw [h.size_eq]
    simp
  have he : empty l = false := by simp [empty, size, hs]
  have hlast : (init ++ [last])[init.length]? = some last := by
    rw [List.getElem?_append_right (le_refl _)]
    simp
  have ht : l.m_tail = some last.1 := by
    rw [h.tail_eq]
    simp only [List.length_append, List.length_singleton, Nat.add_sub_cancel, hlast]
    rfl
  have hl := h.nodes init.length last hlast
  have hbig : (init ++ [last])[init.length + 1]? = none :=
    List.getElem?_eq_none (by simp)
  rw [hbig] at hl
  have hnd : (init.map Prod.fst).Nodup ∧ last.1 ∉ init.map Prod.fst := by
    have := h.nodup
    rw [List.map_append, List.nodup_append] at this
    refine ⟨this.1, fun hm => this.2.2 hm (by simp)⟩
  rcases Nat.eq_zero_or_pos init.length with hlen | hlen
  · have hnil : init = [] := List.length_eq_zero.mp hlen
    subst hnil
    simp only [List.length_nil, if_true, Option.map_none'] at hl
    have hpop : pop_back l = Outcome.returned
        { store := l.store.set last.1 none, m_head := none, m_tail := none, m_size := 0 } := by
      simp [pop_back, he, ht, dll_node_at hl, dll_delete_node_at hl, hs]
    exact ⟨_, hpop, by simp, by simp, rfl, rfl, rfl⟩
  · obtain ⟨pen, hpen⟩ : ∃ pen, init[init.length - 1]? = some pen :=
      ⟨init[init.length - 1], List.getElem?_eq_getElem (by omega)⟩
    have hpen1 : (init ++ [last])[init.length - 1]? = some pen := by
      rw [List.getElem?_append_left (by omega), hpen]
    have hne0 : init.length ≠ 0 := by omega
    rw [if_neg hne0, hpen1] at hl
    have hp := h.nodes (init.length - 1) pen hpen1
    have e1 : init.length - 1 + 1 = init.length := by omega
    rw [e1, hlast] at hp
    simp only [Option.map_some', Option.map_none'] at hl hp
    have hnepl : pen.1 ≠ last.1 := by
      intro e
      exact hnd.2 (e ▸ List.mem_map_of_mem Prod.fst (List.getElem?_mem hpen))
    have hkeep : (l.store.set pen.1 (some (Node.mk pen.2
        (if init.length - 1 = 0 then none
          else ((init ++ [last])[init.length - 1 - 1]?).map Prod.fst) none)))[last.1]? =
          some (some (Node.mk last.2 (some pen.1) none)) := by
      rw [List.getElem?_set_ne hnepl, hl]
    have hpop : pop_back l = Outcome.returned
        { store := (l.store.set pen.1 (some (Node.mk pen.2
            (if init.length - 1 = 0 then none
              else ((init ++ [last])[init.length - 1 - 1]?).map Prod.fst) none))).set
              last.1 none,
          m_head := if init.length = 1 then some pen.1 else l.m_head,
          m_tail := some pen.1,
          m_size := init.length } := by
      simp [pop_back, he, ht, dll_node_at hl, dll_set_next_at hp, dll_delete_node_at hkeep,
        hs, hne0]
    refine ⟨_, hpop, hnd.1, ?_, ?_, ?_, rfl⟩
    · intro i c hi
      simp only
      have hil : i < init.length := (List.getElem?_eq_some_iff.mp hi).1
      have hi2 : (init ++ [last])[i]? = some c := by
        rw [List.getElem?_append_left hil, hi]
      have hnel : last.1 ≠ c.1 := by
        intro e
        exact hnd.2 (e ▸ List.mem_map_of_mem Prod.fst (List.getElem?_mem hi))
      rw [List.getElem?_set_ne hnel]
      by_cases hip : i = init.length - 1
      · subst hip
        have hcp : c = pen := by
          rw [hpen] at hi
          exact (Option.some.inj hi).symm
        subst hcp
        have hlt1 : c.1 < l.store.length := (List.getElem?_eq_some_iff.mp hp).1
        rw [List.getElem?_set_self hlt1, e1, List.getElem?_eq_none (le_refl _)]
        by_cases h0 : init.length - 1 = 0
        · simp [h0]
        · rw [if_neg h0, if_neg h0, List.getElem?_append_left (by omega)]
          rfl
      · have hnep : pen.1 ≠ c.1 := by
          intro e
          exact hip (dll_cells_index_inj hnd.1 hpen hi e).symm
        rw [List.getElem?_set_ne hnep, h.nodes i c hi2,
          List.getElem?_append_left (show i + 1 < init.length by omega)]
        by_cases h0 : i = 0
        · simp [h0]
        · rw [if_neg h0, if_neg h0,
            List.getElem?_append_left (show i - 1 < init.length by omega)]
    · simp only
      by_cases h1 : init.length = 1
      · rw [if_pos h1]
        have : init.length - 1 = 0 := by omega
        rw [this] at hpen
        rw [hpen]
        rfl
      · rw [if_neg h1, h.head_eq, List.getElem?_append_left hlen]
    · simp only
      rw [hpen]
      rfl

theorem dll_rep_front {l : DoubleLinkedList T} {cells : List (Nat × T)} (h : Rep l cells) :
    front l = deque_front (cells.map Prod.snd) := by
  cases cells with
  | nil =>
    have hs : l.m_size = 0 := h.size_eq
    simp [front, empty, size, hs, deque_front]
  | cons c rest =>
    have hs : l.m_size = rest.length + 1 := h.size_eq
    have hh : l.m_head = some c.1 := by
      rw [h.head_eq, List.getElem?_cons_zero]
      rfl
    have hstore := h.nodes 0 c (List.getElem?_cons_zero)
    simp [front, empty, size, hs, hh, dll_node_at hstore, deque_front]

theorem dll_rep_back {l : DoubleLinkedList T} {cells : List (Nat × T)} (h : Rep l cells) :
    back l = deque_back (cells.map Prod.snd) := by
  rcases Nat.eq_zero_or_pos cells.length with hlen | hlen
  · have hnil : cells = [] := List.length_eq_zero.mp hlen
    subst hnil
    have hs : l.m_size = 0 := h.size_eq
    simp [back, empty, size, hs, deque_back]
  · obtain ⟨last, hlast⟩ : ∃ last, cells[cells.length - 1]? = some last :=
      ⟨cells[cells.length - 1], List.getElem?_eq_getElem (by omega)⟩
    have ht : l.m_tail = some last.1 := by rw [h.tail_eq, hlast]; rfl
    have hstore := h.nodes _ _ hlast
    have hs : l.m_size = cells.length := h.size_eq
    have hne : empty l = false := by
      simp only [empty, size, hs, beq_eq_false_iff_ne]
      omega
    have hl : (cells.map Prod.snd).getLast? = some last.2 := by
      rw [List.getLast?_eq_getElem?, List.length_map, List.getElem?_map, hlast]
      rfl
    simp [back, hne, ht, dll_node_at hstore, deque_back, hl]

theorem dll_rep_step {l : DoubleLinkedList T} {cells : List (Nat × T)} (h : Rep l cells)
    (op : ListOp T) :
    ∃ l1 cells1, step l op = Outcome.returned l1 ∧ Rep l1 cells1 ∧
      cells1.map Prod.snd = deque_step (cells.map Prod.snd) op := by
  cases op with
  | push_front value =>
    obtain ⟨l1, hl1, hrep⟩ := dll_rep_push_front h value
    exact ⟨l1, _, hl1, hrep, by simp [deque_step]⟩
  | push_back value =>
    obtain ⟨l1, hl1, hrep⟩ := dll_rep_push_back h value
    exact ⟨l1, _, hl1, hrep, by simp [deque_step]⟩
  | pop_front =>
    cases cells with
    | nil => exact ⟨l, [], (dll_rep_pop_nil h).1, h, by simp [deque_step]⟩
    | cons c rest =>
      obtain ⟨l1, hl1, hrep⟩ := dll_rep_pop_front h
      exact ⟨l1, rest, hl1, hrep, by simp [deque_step]⟩
  | pop_back =>
    rcases List.eq_nil_or_concat cells with hnil | ⟨init, last, hcat⟩
    · subst hnil
      exact ⟨l, [], (dll_rep_pop_nil h).2, h, by simp [deque_step]⟩
    · rw [List.concat_eq_append] at hcat
      subst hcat
      obtain ⟨l1, hl1, hrep⟩ := dll_rep_pop_back h
      exact ⟨l1, init, hl1, hrep, by simp [deque_step]⟩

theorem dll_rep_run (ops : List (ListOp T)) :
    ∀ (l : DoubleLinkedList T) (cells : List (Nat × T)), Rep l cells →
      (∃ cells1, Rep (run_from l ops).1 cells1 ∧
        cells1.map Prod.snd = deque_run_from (cells.map Prod.snd) ops) ∧
      (run_from l ops).2 = ops.map (fun _ => Outcome.returned ()) := by
  induction ops with
  | nil => exact fun l cells h => ⟨⟨cells, h, rfl⟩, rfl⟩
  | cons op ops ih =>
    intro l cells h
    obtain ⟨l1, cells1, hl1, hrep, hmodel⟩ := dll_rep_step h op
    have := ih l1 cells1 hrep
    rw [hmodel] at this
    simpa only [run_from, hl1, deque_run_from, List.foldl_cons, List.map_cons] using
      ⟨this.1, congrArg (List.cons (Outcome.returned ())) this.2⟩

/-- C22: `collections::DoubleLinkedList` behaves as a double-ended sequence. For every
sequence of `push_front`, `push_back`, `pop_front` and `pop_back` calls on a
default-constructed list every call returns, without undefined behaviour; afterwards
`front()` is the first and `back()` the last element of the modelled sequence, `size()` is
its length, `pop_front` and `pop_back` leave an empty list as it is, and `front()` and
`back()` throw `std::out_of_range` exactly when the sequence is empty. In the illustration
program, after `push_back` of cat, is, very, cute and `push_front` of My, the front is My,
the back is cute and the size is 5. -/
theorem dll_is_double_ended_sequence (ops : List (ListOp T)) :
    (run_from default_list ops).2 = ops.map (fun _ => Outcome.returned ()) ∧
    front (run_from default_list ops).1 = deque_front (deque_run_from ([] : List T) ops) ∧
    back (run_from default_list ops).1 = deque_back (deque_run_from ([] : List T) ops) ∧
    size (run_from default_list ops).1 = (deque_run_from ([] : List T) ops).length ∧
    (deque_run_from ([] : List T) ops = [] →
      pop_front (run_from default_list ops).1 = Outcome.returned (run_from default_list ops).1 ∧
      pop_back (run_from default_list ops).1 = Outcome.returned (run_from default_list ops).1) ∧
    (front (run_from default_list ops).1 = Outcome.thrown Exception.out_of_range ↔
      deque_run_from ([] : List T) ops = []) ∧
    (back (run_from default_list ops).1 = Outcome.thrown Exception.out_of_range ↔
      deque_run_from ([] : List T) ops = []) ∧
    front illustration_list = Outcome.returned "My" ∧
    back illustration_list = Outcome.returned "cute" ∧
    size illustration_list = 5 := by
  obtain ⟨⟨cells, hrep, hcells⟩, hres⟩ := dll_rep_run ops default_list [] dll_rep_default
  simp only [List.map_nil] at hcells
  have hfront := dll_rep_front hrep
  have hback := dll_rep_back hrep
  rw [hcells] at hfront hback
  refine ⟨hres, hfront, hback, ?_, ?_, ?_, ?_, by decide, by decide, by decide⟩
  · rw [← hcells, List.length_map]
    exact hrep.size_eq
  · intro hnil
    rw [hnil, List.map_eq_nil_iff] at hcells
    subst hcells
    exact dll_rep_pop_nil hrep
  · rw [hfront]
    cases deque_run_from ([] : List T) ops <;> simp [deque_front]
  · rw [hback]
    cases hl : (deque_run_from ([] : List T) ops).getLast? with
    | none =>
      have := List.getLast?_eq_none_iff.mp hl
      simp [deque_back, hl, this]
    | some v =>
      have : deque_run_from ([] : List T) ops ≠ [] := by
        intro e
        rw [e] at hl
        cases hl
      simp [deque_back, hl, this]

end DoubleLinkedList

end collections

/-! ## Arguments that refer into the container

`insert_or_assign`, `operator[]` and the two `push_back` take their arguments by reference
and read them after the table or the storage was replaced.
-/

namespace exemplar

namespace HashMap

variable {K V : Type}

theorem insert_or_assign_ref_object [DecidableEq K] (hasher_ : K → Nat) (m : HashMap K V)
    (key : K) (value : V) :
    insert_or_assign_ref hasher_ m (Arg.object key) (Arg.object value) =
      some (insert_or_assign hasher_ m key value) := by
  simp only [insert_or_assign_ref, read_arg, insert_or_assign]
  cases assign_existing key value ((maybe_rehash_for_insert hasher_ m).buckets_.getD
    (bucket_index hasher_ (maybe_rehash_for_insert hasher_ m) key) []) <;> rfl

theorem operator_subscript_ref_object [DecidableEq K] [Inhabited V] (hasher_ : K → Nat)
    (m : HashMap K V) (key : K) :
    operator_subscript_ref hasher_ m (Arg.object key) =
      some (operator_subscript hasher_ m key) := by
  simp only [operator_subscript_ref, read_arg, operator_subscript]
  cases find_entry key ((maybe_rehash_for_insert hasher_ m).buckets_.getD
    (bucket_index hasher_ (maybe_rehash_for_insert hasher_ m) key) []) <;> rfl

theorem insert_or_assign_ref_kept [DecidableEq K] (hasher_ : K → Nat) (m : HashMap K V)
    (key : K) (bucket position : Nat) (entry : Entry K V) (hkept : rehash_runs m = false)
    (hentry : (m.buckets_.getD bucket [])[position]? = some entry) :
    insert_or_assign_ref hasher_ m (Arg.object key) (Arg.stored bucket position rfl) =
      some (insert_or_assign hasher_ m key entry.value) := by
  simp only [insert_or_assign_ref, read_arg, insert_or_assign, hkept, hentry,
    Bool.false_eq_true, if_false, Option.map_some', cast_eq]
  cases assign_existing key entry.value ((maybe_rehash_for_insert hasher_ m).buckets_.getD
    (bucket_index hasher_ (maybe_rehash_for_insert hasher_ m) key) []) <;> rfl

theorem insert_or_assign_ref_destroyed [DecidableEq K] (hasher_ : K → Nat) (m : HashMap K V)
    (key : Arg V K) (bucket position : Nat) (hruns : rehash_runs m = true) :
    insert_or_assign_ref hasher_ m key (Arg.stored bucket position rfl) = none := by
  simp only [insert_or_assign_ref, read_arg, hruns, if_true]
  split
  · rename_i h1 h2
    cases h2
  · rfl

theorem reachable_sample_cycle : Reachable sample_hash sample_cycle :=
  reachable_insert_all sample_hash _ _ Reachable.construct

/-- A reference into a table that is kept is read as the value stored there: on the map
holding 1, 9 and 17, `m.insert_or_assign(2, m.at(1))` is the call with the value 10. -/
theorem insert_or_assign_ref_sample :
    rehash_runs sample_map = false ∧
    at_ref id sample_map 1 = Except.ok (1, 0) ∧
    insert_or_assign_ref id sample_map (Arg.object 2) (Arg.stored 1 0 rfl) =
      some (insert_or_assign id sample_map 2 10) :=
  ⟨by decide, rfl, by decide⟩

/-- C4 fails on the code at `m.insert_or_assign(2, m.at(3))`, where `m` holds the keys 0 to 5
in 8 buckets.  The key 2 is present and `at(3)` refers to the entry at position 0 of bucket
1, whose value is 103.  The call rehashes first, which destroys that entry, and reads
`value` from it afterwards: it has no defined behaviour, where the claim has it return false
and store 103 for the key 2, as the call with a copy of the value does. -/
theorem hashmap_assign_reads_destroyed_value :
    Reachable sample_hash sample_full ∧
    size sample_full = 6 ∧ bucket_count sample_full = 8 ∧
    contains sample_hash sample_full 2 = true ∧
    at_ref sample_hash sample_full 3 = Except.ok (1, 0) ∧
    at_ sample_hash sample_full 3 = Except.ok 103 ∧
    rehash_runs sample_full = true ∧
    insert_or_assign_ref sample_hash sample_full (Arg.object 2) (Arg.stored 1 0 rfl) = none ∧
    (insert_or_assign sample_hash sample_full 2 103).2 = false ∧
    get sample_hash (insert_or_assign sample_hash sample_full 2 103).1 2 = some 103 :=
  ⟨reachable_sample_full, by decide, by decide, by decide, rfl, rfl, by decide, by decide,
    by decide, by decide⟩

/-- C5 fails on the code at `m.insert_or_assign(6, m.at(3))`, where `m` holds the keys 0 to 5
in 8 buckets.  The key 6 is absent and `at(3)` refers to the entry at position 0 of bucket
1, whose value is 103.  The call rehashes first, which destroys that entry, and copies
`value` from it into the new entry: it has no defined behaviour, where the claim has
`get(6)` return 103 afterwards, as it does after the call with a copy of the value. -/
theorem hashmap_round_trip_reads_destroyed_value :
    Reachable sample_hash sample_full ∧
    contains sample_hash sample_full 6 = false ∧
    at_ref sample_hash sample_full 3 = Except.ok (1, 0) ∧
    at_ sample_hash sample_full 3 = Except.ok 103 ∧
    rehash_runs sample_full = true ∧
    insert_or_assign_ref sample_hash sample_full (Arg.object 6) (Arg.stored 1 0 rfl) = none ∧
    get sample_hash (insert_or_assign sample_hash sample_full 6 103).1 6 = some 103 :=
  ⟨reachable_sample_full, by decide, rfl, rfl, by decide, by decide, by decide⟩

/-- C6 fails on the code at `m.insert_or_assign(m.at(3), 9)` for a map of numbers to
numbers, where `m` holds the keys 0 to 5 in 8 buckets and `at(3)` refers to the entry at
position 0 of bucket 1, whose value is the key 4.  The call rehashes first, which destroys
that entry, and hashes and compares `key` read from it afterwards: it has no defined
behaviour, so nothing is known of `get` of the keys other than 4, where the claim has them
unchanged, as they are after the call with a copy of the key. -/
theorem hashmap_insert_reads_destroyed_key :
    Reachable sample_hash sample_cycle ∧
    at_ref sample_hash sample_cycle 3 = Except.ok (1, 0) ∧
    at_ sample_hash sample_cycle 3 = Except.ok 4 ∧
    rehash_runs sample_cycle = true ∧
    insert_or_assign_ref sample_hash sample_cycle (Arg.stored 1 0 rfl) (Arg.object 9) = none ∧
    (∀ key1 ∈ [0, 1, 2, 3, 5],
      get sample_hash (insert_or_assign sample_hash sample_cycle 4 9).1 key1 =
        get sample_hash sample_cycle key1) :=
  ⟨reachable_sample_cycle, rfl, rfl, by decide, by decide, by decide⟩

/-- C11 fails on the code at `m[m.at(3)]` for a map of numbers to numbers, where `m` holds
the keys 0 to 5 in 8 buckets and `at(3)` refers to the entry at position 0 of bucket 1,
whose value is the key 4, present with the value 5.  `operator[]` rehashes first, which
destroys that entry, and hashes and compares `key` read from it afterwards: it has no
defined behaviour, where the claim has it yield the existing value 5 and leave the size at
6, as the call with a copy of the key does. -/
theorem hashmap_subscript_reads_destroyed_key :
    Reachable sample_hash sample_cycle ∧
    size sample_cycle = 6 ∧ bucket_count sample_cycle = 8 ∧
    at_ref sample_hash sample_cycle 3 = Except.ok (1, 0) ∧
    at_ sample_hash sample_cycle 3 = Except.ok 4 ∧
    contains sample_hash sample_cycle 4 = true ∧
    rehash_runs sample_cycle = true ∧
    operator_subscript_ref sample_hash sample_cycle (Arg.stored 1 0 rfl) = none ∧
    (operator_subscript sample_hash sample_cycle 4).2 = 5 ∧
    size (operator_subscript sample_hash sample_cycle 4).1 = 6 :=
  ⟨reachable_sample_cycle, by decide, by decide, rfl, rfl, by decide, by decide, by decide,
    by decide, by decide⟩

/-- C24 fails on the code at the run `insert_or_assign(k, 100 + k)` for `k` from 0 to 5
followed by `m.insert_or_assign(7, m.at(0))`.  The six calls give the map of six entries in
8 buckets, in which `at(0)` refers to the entry at position 0 of bucket 0, whose value is
100.  The seventh call rehashes first, which destroys that entry, and copies `value` from it
afterwards: it has no defined behaviour, where the reference map holds 100 for the key 7;
the same call on the map holding 1, 9 and 17, which does not rehash, is defined. -/
theorem hashmap_run_reads_destroyed_value :
    (run_from sample_hash default_map
      [MapOp.insert_or_assign 0 100, MapOp.insert_or_assign 1 101, MapOp.insert_or_assign 2 102,
       MapOp.insert_or_assign 3 103, MapOp.insert_or_assign 4 104,
       MapOp.insert_or_assign 5 105]).1 = sample_full ∧
    at_ref sample_hash sample_full 0 = Except.ok (0, 0) ∧
    at_ sample_hash sample_full 0 = Except.ok 100 ∧
    rehash_runs sample_full = true ∧
    insert_or_assign_ref sample_hash sample_full (Arg.object 7) (Arg.stored 0 0 rfl) = none ∧
    ref_get (ref_run_from ([] : RefMap Nat Nat)
      [MapOp.insert_or_assign 0 100, MapOp.insert_or_assign 1 101, MapOp.insert_or_assign 2 102,
       MapOp.insert_or_assign 3 103, MapOp.insert_or_assign 4 104,
       MapOp.insert_or_assign 5 105, MapOp.insert_or_assign 7 100]).1 7 = some 100 ∧
    (insert_or_assign_ref id sample_map (Arg.object 7) (Arg.stored 1 0 rfl)).isSome = true :=
  ⟨by decide, rfl, rfl, by decide, by decide, by decide, by decide⟩

end HashMap

namespace ResizingArray

variable {T : Type}

theorem ra_push_back_ref_object [Inhabited T] (a : ResizingArray T) (value : T) :
    push_back_ref a (Arg.object value) = some (push_back a value) := rfl

theorem ra_push_back_ref_kept [Inhabited T] (a : ResizingArray T) (index : Nat) (x : T)
    (hkept : storage_replaced a = false) (hx : a.data_[index]? = some x) :
    push_back_ref a (Arg.element index) = some (push_back a x) := by
  simp only [push_back_ref, read_arg, hkept, hx, Bool.false_eq_true, if_false, push_back]

theorem ra_push_back_ref_deleted [Inhabited T] (a : ResizingArray T) (index : Nat)
    (hfull : ¬ a.size_ < a.capacity_) :
    push_back_ref a (Arg.element index) = none := by
  have hrep : storage_replaced a = true := by
    unfold storage_replaced
    rw [if_neg hfull]
    by_cases h0 : a.capacity_ = 0
    · simp [h0]
    · simp only [h0, if_false, Bool.not_eq_true', decide_eq_false_iff_not, not_le]
      omega
  simp only [push_back_ref, read_arg, hrep, if_true]

end ResizingArray

namespace Stack

theorem stack_push_ref_object {T : Type} [Inhabited T] (s : Stack T) (value : T) :
    push_ref s (ResizingArray.Arg.object value) = some (push s value) := rfl

/-- A reference into a storage that is kept is read as the element stored there: after two
pushes the storage of capacity 4 has room, and `s.push(s.top())` pushes a second 2. -/
theorem stack_push_ref_sample :
    top_ref (push (push (default_stack : Stack Nat) 1) 2) = Except.ok 1 ∧
    push_ref (push (push (default_stack : Stack Nat) 1) 2) (ResizingArray.Arg.element 1) =
      some (push (push (push default_stack 1) 2) 2) :=
  ⟨rfl, by decide⟩

/-- C20 fails on the code at `s.push(s.top())`, where `s` holds 1, 2, 3 and 4 in a storage
of capacity 4.  `top()` refers to the element at index 3, which is 4.  `push_back` makes the
storage grow first, which deletes the old array, and reads `value` from it afterwards: the
call has no defined behaviour, in the growth case, where the claim has `top()` return 4 and
the size be 5 afterwards, as after the push of a copy of the value. -/
theorem stack_push_reads_deleted_element :
    Reachable sample_stack ∧
    size sample_stack = 4 ∧ sample_stack.items_.capacity_ = 4 ∧
    top_ref sample_stack = Except.ok 3 ∧
    top sample_stack = Except.ok 4 ∧
    ResizingArray.storage_replaced sample_stack.items_ = true ∧
    push_ref sample_stack (ResizingArray.Arg.element 3) = none ∧
    top (push sample_stack 4) = Except.ok 4 ∧
    size (push sample_stack 4) = 5 :=
  ⟨reachable_sample_stack, by decide, by decide, rfl, rfl, by decide, by decide, rfl,
    by decide⟩

end Stack

end exemplar

namespace collections

namespace ResizingArray

variable {T : Type}

theorem collections_push_back_ref_object [Inhabited T] (a : ResizingArray T) (value : T) :
    push_back_ref a (Arg.object value) = some (push_back a value) := rfl

theorem collections_push_back_ref_kept [Inhabited T] (a : ResizingArray T) (index : Nat)
    (x : T) (hkept : a.m_size ≠ a.m_capacity) (hx : a.m_data[index]? = some x) :
    push_back_ref a (Arg.element index) = some (push_back a x) := by
  simp only [push_back_ref, read_arg, hkept, hx, if_false, push_back]

theorem collections_push_back_ref_deleted [Inhabited T] (a : ResizingArray T) (index : Nat)
    (hfull : a.m_size = a.m_capacity) :
    push_back_ref a (Arg.element index) = none := by
  simp only [push_back_ref, read_arg, hfull, if_true]

/-- A reference into a storage that is kept is read as the element stored there: after
three pushes the storage of capacity 4 has room, and `a.push_back(a[0])` pushes a second
7. -/
theorem collections_push_back_ref_sample :
    operator_subscript_ref (pushed [(7 : Int), 8, 9]) 0 = Except.ok 0 ∧
    push_back_ref (pushed [(7 : Int), 8, 9]) (Arg.element 0) =
      some (pushed [(7 : Int), 8, 9, 7]) :=
  ⟨rfl, by decide⟩

/-- C23 fails on the code at `a.push_back(7); a.push_back(a[0]);` on a default-constructed
array.  After the first call the size is 1 and so is the capacity, and `a[0]` refers to the
element at index 0, which is 7.  The second call resizes first, which deletes the old array,
and reads `value` from it afterwards: it has no defined behaviour, where the claim has
`operator[](1)` return the pushed value 7 afterwards, as after the push of a copy of the
value. -/
theorem collections_push_back_reads_deleted_element :
    (pushed [(7 : Int)]).m_size = 1 ∧ (pushed [(7 : Int)]).m_capacity = 1 ∧
    operator_subscript_ref (pushed [(7 : Int)]) 0 = Except.ok 0 ∧
    operator_subscript (pushed [(7 : Int)]) 0 = Except.ok 7 ∧
    push_back_ref (pushed [(7 : Int)]) (Arg.element 0) = none ∧
    operator_subscript (push_back (pushed [(7 : Int)]) 7) 1 = Except.ok 7 :=
  ⟨by decide, by decide, rfl, rfl, by decide, rfl⟩

end ResizingArray

end collections
